import Mathlib

/-!
Verification of the notebook workbench converter (src/wb.py) against its
specification.  The program converts notebooks between a directive-based
plain-text format and a nested JSON document format.

Modelling conventions:
* Python strings are Lean `String`s; character-level helpers work on `List Char`
  (`String.data`).  Helpers named `py...` mirror the semantics of the Python
  primitive they stand for (slices with negative indices, `find` returning -1,
  `strip`, `replace`, `split`, and so on).
* JSON trees (the output of `json.load`) are the inductive `Json` below.
  Floating point scalars are carried as their literal text and never
  interpreted numerically; no claim in scope depends on float arithmetic.
* `json.load`/`json.dump` are treated as identities between files and trees:
  the file system stores parsed documents directly.
* Python exceptions become the `PyExn` error monad; the one named error of the
  program (`WorkbenchError`) is kept separate as `WorkbenchError.notFound`.
-/

/-- Whitespace characters stripped by the Python `str.strip()` family. -/
def pyWsChar (c : Char) : Bool :=
  c = ' ' || c = '\t' || c = '\n' || c = '\r' || c = '\x0b' || c = '\x0c'

/-- Drop the longest run of characters satisfying `p` from both ends. -/
def stripEnds (p : Char → Bool) (l : List Char) : List Char :=
  ((l.dropWhile p).reverse.dropWhile p).reverse

/-- Python `str.strip()` with no argument: trim whitespace on both sides. -/
def pyStrip (s : String) : String := ⟨stripEnds pyWsChar s.data⟩

/-- Python `str.strip(chars)` for a single stripped character. -/
def pyStripChar (s : String) (c : Char) : String := ⟨stripEnds (· = c) s.data⟩

/-- Python `str.rstrip(chars)`: trim any of the given characters on the right. -/
def pyRstrip (s : String) (chars : List Char) : String :=
  ⟨(s.data.reverse.dropWhile (fun c => chars.contains c)).reverse⟩

/-- Core of Python `str.replace`: scan left to right, replacing non-overlapping
occurrences of `pat` by `rep`.  Fuel is the length of the scanned list, making
the recursion structural so the kernel can evaluate it. -/
def replaceCore (pat rep : List Char) : Nat → List Char → List Char
  | _, [] => []
  | 0, s => s
  | fuel + 1, c :: rest =>
    if pat.isPrefixOf (c :: rest) then
      rep ++ replaceCore pat rep fuel (List.drop (pat.length - 1) rest)
    else
      c :: replaceCore pat rep fuel rest

/-- Python `str.replace(pat, rep)`.  The empty-pattern case is never exercised
by the program and is modelled as the identity. -/
def pyReplace (s pat rep : String) : String :=
  if pat.data.isEmpty then s else ⟨replaceCore pat.data rep.data s.data.length s.data⟩

/-- Split a character list at every occurrence of `sep` (Python `str.split(sep)`
for a one-character separator: always at least one piece, empty pieces kept). -/
def splitChars (sep : Char) : List Char → List (List Char)
  | [] => [[]]
  | c :: rest =>
    if c = sep then [] :: splitChars sep rest
    else
      match splitChars sep rest with
      | [] => [[c]]
      | l :: ls => (c :: l) :: ls

/-- Python `str.split(sep)` for a one-character separator. -/
def pySplit (s : String) (sep : Char) : List String :=
  (splitChars sep s.data).map (fun l => ⟨l⟩)

/-- Normalize a Python slice index against a length: negative indices count
from the end, and the result is clamped into `[0, n]`. -/
def sliceIdx (i : Int) (n : Nat) : Nat :=
  if i < 0 then ((n : Int) + i).toNat else min i.toNat n

/-- Python `s[i:j]` with full slice-index semantics. -/
def pySlice (s : String) (i j : Int) : String :=
  let n := s.data.length
  let lo := sliceIdx i n
  let hi := sliceIdx j n
  ⟨(s.data.drop lo).take (hi - lo)⟩

/-- Python `s[i:]`. -/
def pySliceFrom (s : String) (i : Int) : String := pySlice s i (s.data.length : Int)

/-- Helper for `pyFind`: scan for the character, reporting its index or -1. -/
def findCharAux (c : Char) : List Char → Nat → Int
  | [], _ => -1
  | x :: rest, i => if x = c then (i : Int) else findCharAux c rest (i + 1)

/-- Python `s.find(c, start)` for a one-character needle: the index of the
first occurrence at or after `start`, or -1. -/
def pyFindFrom (s : String) (c : Char) (start : Int) : Int :=
  let n := s.data.length
  let lo := sliceIdx start n
  findCharAux c (s.data.drop lo) lo

/-- Python `s.find(c)` for a one-character needle. -/
def pyFind (s : String) (c : Char) : Int := pyFindFrom s c 0

/-- Python `sub in s` for a one-character `sub`. -/
def pyContainsChar (s : String) (c : Char) : Bool := s.data.contains c

/-- Python `s.startswith(pat)`. -/
def pyStartsWith (s pat : String) : Bool := pat.data.isPrefixOf s.data

/-- Python `s.endswith(pat)`. -/
def pyEndsWith (s pat : String) : Bool := pat.data.isSuffixOf s.data

/-- Python `s.lower()` (the program only lowercases ASCII directive names). -/
def pyLower (s : String) : String := ⟨s.data.map Char.toLower⟩

/-- Python `sep.join(parts)`. -/
def pyJoin (sep : String) (parts : List String) : String :=
  match parts with
  | [] => ""
  | p :: rest => rest.foldl (fun acc q => acc ++ sep ++ q) p

/-- Decimal digits of a natural number, most significant first.  Fuel makes the
recursion structural; any fuel of at least the digit count gives the digits. -/
def natDigitsAux : Nat → Nat → List Char
  | 0, _ => []
  | fuel + 1, n =>
    if n < 10 then [Char.ofNat (48 + n)]
    else natDigitsAux fuel (n / 10) ++ [Char.ofNat (48 + n % 10)]

/-- Python `str(n)` for an integer. -/
def pyIntRepr (n : Int) : String :=
  if n < 0 then "-" ++ ⟨natDigitsAux (n.natAbs + 1) n.natAbs⟩
  else ⟨natDigitsAux (n.natAbs + 1) n.natAbs⟩

/-- Value of an ASCII decimal digit, if the character is one. -/
def digitVal (c : Char) : Option Nat :=
  if '0' ≤ c ∧ c ≤ '9' then some (c.toNat - 48) else none

/-- Digit-run parser for Python `int(...)`: single underscores are allowed
between digits, nowhere else. -/
def parseDigitsCore : List Char → Nat → Option Nat
  | [], acc => some acc
  | c :: rest, acc =>
    if c = '_' then
      match rest with
      | c2 :: rest2 =>
        match digitVal c2 with
        | some d => parseDigitsCore rest2 (acc * 10 + d)
        | none => none
      | [] => none
    else
      match digitVal c with
      | some d => parseDigitsCore rest (acc * 10 + d)
      | none => none

/-- Digit-run entry for Python `int(...)`: first character must be a digit,
the rest parses through `parseDigitsCore`. -/
def pyIntParseCore (digits : List Char) (neg : Bool) : Option Int :=
  match digits with
  | [] => none
  | c :: rest =>
    match digitVal c with
    | some d =>
      match parseDigitsCore rest d with
      | some v => some (if neg then -(v : Int) else (v : Int))
      | none => none
    | none => none

/-- Python `int(s)`: optional surrounding whitespace, optional sign, then a
nonempty digit run (with Python 3 underscore grouping). `none` models
`ValueError`. -/
def pyIntParse (s : String) : Option Int :=
  let t := stripEnds pyWsChar s.data
  match t with
  | [] => none
  | c :: rest =>
    if c = '-' then pyIntParseCore rest true
    else if c = '+' then pyIntParseCore rest false
    else pyIntParseCore (c :: rest) false

/-- Recognizer for Python `float(s)`: optional whitespace and sign, then
`inf`/`infinity`/`nan` (any case) or a decimal mantissa with optional fraction
and exponent.  Underscore grouping is omitted (never exercised here).  The
numeric value is not interpreted; the program only needs success/failure. -/
def pyFloatAccepts (s : String) : Bool :=
  let t := (stripEnds pyWsChar s.data).map Char.toLower
  let t := match t with
    | '-' :: rest => rest
    | '+' :: rest => rest
    | rest => rest
  let isDigit : Char → Bool := fun c => '0' ≤ c && c ≤ '9'
  let expPart : List Char → Bool := fun l =>
    match l with
    | [] => true
    | 'e' :: rest =>
      let rest := match rest with
        | '-' :: r => r
        | '+' :: r => r
        | r => r
      !rest.isEmpty && rest.all isDigit
    | _ => false
  let mantissa : List Char → Bool := fun l =>
    let intPart := l.takeWhile isDigit
    let rest := l.dropWhile isDigit
    match rest with
    | '.' :: rest2 =>
      let frac := rest2.takeWhile isDigit
      (!intPart.isEmpty || !frac.isEmpty) && expPart (rest2.dropWhile isDigit)
    | _ => !intPart.isEmpty && expPart rest
  t = "inf".data || t = "infinity".data || t = "nan".data || mantissa t

/-- Python exceptions that the converter can let escape.  Only the shape is
modelled, with enough payload to tell the failure sites apart. -/
inductive PyExn where
  | keyError (key : String) : PyExn
  | typeError : PyExn
  | attributeError : PyExn
  | nameError (missing : String) : PyExn
  | jsonDecodeError : PyExn
  | fileKindMismatch : PyExn
  deriving DecidableEq, Repr

/-- JSON-like trees produced by `json.load`.  Floats are carried as literal
text (their numeric value is outside the model). -/
inductive Json where
  | null : Json
  | bool (b : Bool) : Json
  | int (n : Int) : Json
  | float (lit : String) : Json
  | str (s : String) : Json
  | arr (xs : List Json) : Json
  | obj (kvs : List (String × Json)) : Json
  deriving Repr

mutual

def Json.beq : Json → Json → Bool
  | .null, .null => true
  | .bool a, .bool b => a == b
  | .int a, .int b => a == b
  | .float a, .float b => a == b
  | .str a, .str b => a == b
  | .arr xs, .arr ys => Json.beqList xs ys
  | .obj xs, .obj ys => Json.beqKVList xs ys
  | _, _ => false

def Json.beqList : List Json → List Json → Bool
  | [], [] => true
  | x :: xs, y :: ys => Json.beq x y && Json.beqList xs ys
  | _, _ => false

def Json.beqKVList : List (String × Json) → List (String × Json) → Bool
  | [], [] => true
  | (k, v) :: xs, (k2, v2) :: ys => k == k2 && Json.beq v v2 && Json.beqKVList xs ys
  | _, _ => false

end

mutual

theorem Json.eq_of_beq : ∀ {a b : Json}, Json.beq a b = true → a = b
  | .null, .null, _ => rfl
  | .bool _, .bool _, h => by simp [Json.beq] at h; simp [h]
  | .int _, .int _, h => by simp [Json.beq] at h; simp [h]
  | .float _, .float _, h => by simp [Json.beq] at h; simp [h]
  | .str _, .str _, h => by simp [Json.beq] at h; simp [h]
  | .arr xs, .arr ys, h => by
    rw [Json.eqList_of_beqList (a := xs) (b := ys) (by simpa [Json.beq] using h)]
  | .obj xs, .obj ys, h => by
    rw [Json.eqKV_of_beqKV (a := xs) (b := ys) (by simpa [Json.beq] using h)]
  | .null, .bool _, h => by simp [Json.beq] at h
  | .null, .int _, h => by simp [Json.beq] at h
  | .null, .float _, h => by simp [Json.beq] at h
  | .null, .str _, h => by simp [Json.beq] at h
  | .null, .arr _, h => by simp [Json.beq] at h
  | .null, .obj _, h => by simp [Json.beq] at h
  | .bool _, .null, h => by simp [Json.beq] at h
  | .bool _, .int _, h => by simp [Json.beq] at h
  | .bool _, .float _, h => by simp [Json.beq] at h
  | .bool _, .str _, h => by simp [Json.beq] at h
  | .bool _, .arr _, h => by simp [Json.beq] at h
  | .bool _, .obj _, h => by simp [Json.beq] at h
  | .int _, .null, h => by simp [Json.beq] at h
  | .int _, .bool _, h => by simp [Json.beq] at h
  | .int _, .float _, h => by simp [Json.beq] at h
  | .int _, .str _, h => by simp [Json.beq] at h
  | .int _, .arr _, h => by simp [Json.beq] at h
  | .int _, .obj _, h => by simp [Json.beq] at h
  | .float _, .null, h => by simp [Json.beq] at h
  | .float _, .bool _, h => by simp [Json.beq] at h
  | .float _, .int _, h => by simp [Json.beq] at h
  | .float _, .str _, h => by simp [Json.beq] at h
  | .float _, .arr _, h => by simp [Json.beq] at h
  | .float _, .obj _, h => by simp [Json.beq] at h
  | .str _, .null, h => by simp [Json.beq] at h
  | .str _, .bool _, h => by simp [Json.beq] at h
  | .str _, .int _, h => by simp [Json.beq] at h
  | .str _, .float _, h => by simp [Json.beq] at h
  | .str _, .arr _, h => by simp [Json.beq] at h
  | .str _, .obj _, h => by simp [Json.beq] at h
  | .arr _, .null, h => by simp [Json.beq] at h
  | .arr _, .bool _, h => by simp [Json.beq] at h
  | .arr _, .int _, h => by simp [Json.beq] at h
  | .arr _, .float _, h => by simp [Json.beq] at h
  | .arr _, .str _, h => by simp [Json.beq] at h
  | .arr _, .obj _, h => by simp [Json.beq] at h
  | .obj _, .null, h => by simp [Json.beq] at h
  | .obj _, .bool _, h => by simp [Json.beq] at h
  | .obj _, .int _, h => by simp [Json.beq] at h
  | .obj _, .float _, h => by simp [Json.beq] at h
  | .obj _, .str _, h => by simp [Json.beq] at h
  | .obj _, .arr _, h => by simp [Json.beq] at h

theorem Json.eqList_of_beqList : ∀ {a b : List Json}, Json.beqList a b = true → a = b
  | [], [], _ => rfl
  | x :: xs, y :: ys, h => by
    simp only [Json.beqList, Bool.and_eq_true] at h
    rw [Json.eq_of_beq h.1, Json.eqList_of_beqList h.2]
  | [], _ :: _, h => by simp [Json.beqList] at h
  | _ :: _, [], h => by simp [Json.beqList] at h

theorem Json.eqKV_of_beqKV : ∀ {a b : List (String × Json)}, Json.beqKVList a b = true → a = b
  | [], [], _ => rfl
  | (k, v) :: xs, (k2, v2) :: ys, h => by
    simp only [Json.beqKVList, Bool.and_eq_true] at h
    obtain ⟨⟨h1, h2⟩, h3⟩ := h
    rw [Json.eq_of_beq h2, Json.eqKV_of_beqKV h3, show k = k2 by simpa using h1]
  | [], _ :: _, h => by simp [Json.beqKVList] at h
  | _ :: _, [], h => by simp [Json.beqKVList] at h

end

mutual

theorem Json.beq_refl : ∀ (a : Json), Json.beq a a = true
  | .null => rfl
  | .bool _ => by simp [Json.beq]
  | .int _ => by simp [Json.beq]
  | .float _ => by simp [Json.beq]
  | .str _ => by simp [Json.beq]
  | .arr xs => by simpa [Json.beq] using Json.beqList_refl xs
  | .obj kvs => by simpa [Json.beq] using Json.beqKVList_refl kvs

theorem Json.beqList_refl : ∀ (xs : List Json), Json.beqList xs xs = true
  | [] => rfl
  | x :: xs => by
    simp only [Json.beqList, Bool.and_eq_true]
    exact ⟨Json.beq_refl x, Json.beqList_refl xs⟩

theorem Json.beqKVList_refl : ∀ (xs : List (String × Json)), Json.beqKVList xs xs = true
  | [] => rfl
  | (k, v) :: xs => by
    simp only [Json.beqKVList, Bool.and_eq_true]
    exact ⟨⟨by simp, Json.beq_refl v⟩, Json.beqKVList_refl xs⟩

end

instance : DecidableEq Json := fun a b =>
  if h : Json.beq a b = true then .isTrue (Json.eq_of_beq h)
  else .isFalse (fun he => h (he ▸ Json.beq_refl a))

/-- Lookup in an insertion-ordered association list (Python dict read). -/
def alGet : List (String × Json) → String → Option Json
  | [], _ => none
  | (k2, v) :: rest, k => if k2 = k then some v else alGet rest k

/-- Update in an insertion-ordered association list (Python dict write):
an existing key keeps its position, a new key is appended. -/
def alSet : List (String × Json) → String → Json → List (String × Json)
  | [], k, v => [(k, v)]
  | (k2, v2) :: rest, k, v =>
    if k2 = k then (k, v) :: rest else (k2, v2) :: alSet rest k v

/-- Python `x.get(key)` (`None` when absent); `AttributeError` when `x` is not
a dict. -/
def pyGet (j : Json) (k : String) : Except PyExn Json :=
  match j with
  | .obj kvs => .ok ((alGet kvs k).getD .null)
  | _ => .error .attributeError

/-- Python `x.get(key, default)`; `AttributeError` when `x` is not a dict. -/
def pyGetD (j : Json) (k : String) (d : Json) : Except PyExn Json :=
  match j with
  | .obj kvs => .ok ((alGet kvs k).getD d)
  | _ => .error .attributeError

/-- Python `x[key]` for a string key: `KeyError` when absent, `TypeError` when
`x` does not support string indexing. -/
def pyGetItem (j : Json) (k : String) : Except PyExn Json :=
  match j with
  | .obj kvs =>
    match alGet kvs k with
    | some v => .ok v
    | none => .error (.keyError k)
  | _ => .error .typeError

/-- Python iteration `for x in j`: lists yield elements, dicts yield keys,
strings yield one-character strings; everything else raises `TypeError`. -/
def pyIter (j : Json) : Except PyExn (List Json) :=
  match j with
  | .arr xs => .ok xs
  | .obj kvs => .ok (kvs.map (fun kv => Json.str kv.1))
  | .str s => .ok (s.data.map (fun c => Json.str ⟨[c]⟩))
  | _ => .error .typeError

/-- Python `len(j)`: `TypeError` on values without a length. -/
def pyLen (j : Json) : Except PyExn Nat :=
  match j with
  | .arr xs => .ok xs.length
  | .obj kvs => .ok kvs.length
  | .str s => .ok s.data.length
  | _ => .error .typeError

/-- Escaping used by the Python `repr` of a string (backslash, quote and the
common control characters; other characters pass through). -/
def pyReprEscape (l : List Char) : List Char :=
  l.flatMap (fun c =>
    if c = '\\' then ['\\', '\\']
    else if c = Char.ofNat 39 then ['\\', Char.ofNat 39]
    else if c = '\n' then ['\\', 'n']
    else if c = '\t' then ['\\', 't']
    else if c = '\r' then ['\\', 'r']
    else [c])

mutual

/-- Python `str(j)` for a loaded JSON value: `None`, `True`/`False`, decimal
integers, the carried float literal, strings verbatim, and the `repr` form for
containers.  The container and float cases are an approximation (comment in
the module header); no claim exercises them. -/
def pyStr (j : Json) : String :=
  match j with
  | .null => "None"
  | .bool b => if b then "True" else "False"
  | .int n => pyIntRepr n
  | .float lit => lit
  | .str s => s
  | .arr xs => "[" ++ pyJoin ", " (Json.reprListAux xs) ++ "]"
  | .obj kvs => "\x7b" ++ pyJoin ", " (Json.reprKVAux kvs) ++ "\x7d"

/-- Python `repr(j)`: like `str` except strings get quoted and escaped. -/
def pyRepr (j : Json) : String :=
  match j with
  | .str s => "\x27" ++ ⟨pyReprEscape s.data⟩ ++ "\x27"
  | .arr xs => "[" ++ pyJoin ", " (Json.reprListAux xs) ++ "]"
  | .obj kvs => "\x7b" ++ pyJoin ", " (Json.reprKVAux kvs) ++ "\x7d"
  | other => pyStr other

def Json.reprListAux : List Json → List String
  | [] => []
  | x :: xs => pyRepr x :: Json.reprListAux xs

def Json.reprKVAux : List (String × Json) → List String
  | [] => []
  | (k, v) :: kvs =>
    (pyRepr (.str k) ++ ": " ++ pyRepr v) :: Json.reprKVAux kvs

end

/-- Walk of `get_property_by_path` (wb.py lines 13-21): descend through dict
keys, with absence or a non-dict node yielding no value. -/
def walkPath : Json → List String → Option Json
  | v, [] => some v
  | v, p :: rest =>
    match v with
    | .obj kvs =>
      match alGet kvs p with
      | some v2 => walkPath v2 rest
      | none => none
    | _ => none

/-- Model of `get_property_by_path` (wb.py lines 13-27): only int, float and
str leaves count as values; everything else (including bool, which Python
`type(...)` distinguishes from int) becomes `None`. -/
def get_property_by_path (o : Json) (path : String) : Json :=
  match walkPath o (pySplit path '.') with
  | some v =>
    match v with
    | .int _ => v
    | .float _ => v
    | .str _ => v
    | _ => .null
  | none => .null

/-- Model of `value_str` (wb.py lines 29-33): strings are quoted with
backslashes doubled and quotes escaped; other values use their `str` form. -/
def value_str (value : Json) : String :=
  match value with
  | .str s => "\"" ++ pyReplace (pyReplace s "\\" "\\\\") "\"" "\\\"" ++ "\""
  | v => pyStr v

/-- Model of `parse_value` (wb.py lines 35-48): a quoted literal is stripped of
all boundary quotes, has a backslash inserted before each quote, and has
doubled backslashes collapsed; otherwise int parse, then float parse, then
`None`. -/
def parse_value (vs : String) : Json :=
  if pyStartsWith vs "\"" && pyEndsWith vs "\"" then
    .str (pyReplace (pyReplace (pyStripChar vs '"') "\"" "\\\"") "\\\\" "\\")
  else
    match pyIntParse vs with
    | some n => .int n
    | none => if pyFloatAccepts vs then .float (pyStrip vs) else .null

/-- Recursion of `set_property_value` (wb.py lines 50-61).  The original walks
`path_parts[0:-1]` mutating nested dicts; this rebuilds the spine.  At an
intermediate part: a non-dict current node makes Python attempt
`dict_sect[part] = ...` and raise `TypeError`; a missing key makes
`dict_sect = dict_sect[part]` raise `KeyError`.  The final part is a plain
item assignment. -/
def setWalk : List String → Json → Json → Except PyExn Json
  | [last], j, v =>
    match j with
    | .obj kvs => .ok (.obj (alSet kvs last v))
    | _ => .error .typeError
  | p :: q :: rest, j, v =>
    match j with
    | .obj kvs =>
      match alGet kvs p with
      | some child =>
        match setWalk (q :: rest) child v with
        | .ok child2 => .ok (.obj (alSet kvs p child2))
        | .error e => .error e
      | none => .error (.keyError p)
    | _ => .error .typeError
  | [], _, _ => .error .typeError

/-- Model of `set_property_value` (wb.py lines 50-61).  `path.split` never
yields an empty list, so the `[]` case of `setWalk` is unreachable. -/
def set_property_value (obj : Json) (path : String) (value : Json) : Except PyExn Json :=
  setWalk (pySplit path '.') obj value

/-- Model of `NotebookCellData` (wb.py lines 63-67).  Fields keep the dynamic
typing of the source: `cell_type` and `attributes` can hold any loaded value. -/
structure NotebookCellData where
  cell_type : Json
  contents : String
  attributes : Json
  deriving DecidableEq, Repr

/-- Model of `NotebookData` (wb.py lines 69-73); `properties` is an
insertion-ordered dict. -/
structure NotebookData where
  name : Json
  properties : List (String × Json)
  cells : List NotebookCellData
  deriving DecidableEq, Repr

/-- Lookup in a string-valued association list (`dict.get(key, None)` on the
`meta_properties` table). -/
def lookupStr : List (String × String) → String → Option String
  | [], _ => none
  | (k2, v) :: rest, k => if k2 = k then some v else lookupStr rest k

namespace SynapseNotebookFormat

/-- The `meta_properties` table (wb.py lines 86-91). -/
def meta_properties : List (String × String) :=
  [("folder", "folder.name"),
   ("nbformat", "nbformat"),
   ("nbformat_minor", "nbformat_minor"),
   ("language", "metadata.language_info.name")]

/-- Contents of one cell (wb.py line 110): join each source line
right-stripped of newlines plus one newline; a non-string line raises
`AttributeError` at its `rstrip` call. -/
def sourceContents (lines : List Json) : Except PyExn String := do
  let pieces ← lines.mapM (fun line =>
    match line with
    | Json.str s => Except.ok (pyRstrip s ['\n'] ++ "\n")
    | _ => Except.error PyExn.attributeError)
  pure (String.join pieces)

/-- One cell of the document reader (the loop body of `read_file`, wb.py lines
107-112): tags from `metadata.tags`, `cell_type` via `get`, and contents from
`sourceContents`. -/
def readCell (cell_data : Json) : Except PyExn NotebookCellData := do
  let md ← pyGetD cell_data "metadata" (.obj [])
  let tags ← pyGetD md "tags" (.arr [])
  let cell_type ← pyGet cell_data "cell_type"
  let src ← pyGetItem cell_data "source"
  let lines ← pyIter src
  let contents ← sourceContents lines
  pure ⟨cell_type, contents, tags⟩

/-- Model of `SynapseNotebookFormat.read_file` (wb.py lines 94-114) on a loaded
document tree. -/
def read_file (file_data : Json) : Except PyExn NotebookData := do
  let name ← pyGet file_data "name"
  let properties_obj ← pyGet file_data "properties"
  let properties := meta_properties.map
    (fun kp => (kp.1, get_property_by_path properties_obj kp.2))
  let cellsJ ← pyGet properties_obj "cells"
  let cellList ← pyIter cellsJ
  let cells ← cellList.mapM readCell
  pure ⟨name, properties, cells⟩

/-- One cell of the document writer (the loop body of `write_file`, wb.py
lines 133-145): contents right-trimmed of trailing whitespace, split on
newlines, each line re-suffixed with one newline; `tags` only when the
attribute list is non-empty; `execution_count` fixed at 0. -/
def writeCell (cell : NotebookCellData) : Except PyExn Json := do
  let cell_content_lines :=
    (pySplit (pyRstrip cell.contents [' ', '\n', '\t', '\r']) '\n').map (· ++ "\n")
  let base := [("cell_type", cell.cell_type),
               ("source", Json.arr (cell_content_lines.map Json.str))]
  let nAttrs ← pyLen cell.attributes
  let withTags := if nAttrs > 0 then base ++ [("tags", cell.attributes)] else base
  pure (.obj (withTags ++ [("execution_count", Json.int 0)]))

/-- Model of `SynapseNotebookFormat.write_file` (wb.py lines 116-152).
`existing` is the loaded destination document, or `none` when the destination
path does not exist — in which case the source calls the undefined global
`_get_detault_notebook_data` and Python raises `NameError` (the defined helper
is spelled `_get_default_notebook_data`, itself calling an undefined
`read_text_file` and returning `None`).  `json.dump` is modelled by returning
the final tree. -/
def write_file (existing : Option Json) (nb_data : NotebookData) : Except PyExn Json := do
  let file_data ← match existing with
    | some j => Except.ok j
    | none => Except.error (PyExn.nameError "_get_detault_notebook_data")
  let file_data ← set_property_value file_data "name" nb_data.name
  let properties ← pyGetD file_data "properties" (.obj [])
  let properties ← nb_data.properties.foldlM
    (fun props kv =>
      match lookupStr meta_properties kv.1 with
      | some path => set_property_value props path kv.2
      | none => pure props)
    properties
  let cells ← nb_data.cells.mapM writeCell
  let properties ← set_property_value properties "cells" (.arr cells)
  let file_data ← set_property_value file_data "properties" properties
  pure file_data

end SynapseNotebookFormat

namespace ScratchpadNotebookFormat

/-- Parser state of `ScratchpadNotebookFormat.read_file` (wb.py lines 161-209).
The source appends `current_cell` to the cell list at its `@cell` line and
keeps mutating it; here finished cells are flushed into `finished` when the
next cell starts, and the final cells are `finished ++ current.toList`. -/
structure SPState where
  name : Json
  properties : List (String × Json)
  finished : List NotebookCellData
  current : Option NotebookCellData
  deriving DecidableEq, Repr

/-- Effect of a non-directive line (wb.py lines 206-207): appended, with a
newline, to the contents of the open cell; dropped when no cell is open. -/
def contentLine (st : SPState) (line : String) : SPState :=
  match st.current with
  | none => st
  | some c => { st with current := some { c with contents := c.contents ++ line ++ "\n" } }

/-- Effect of an `@cell` directive line (wb.py lines 175-188). -/
def cellLine (st : SPState) (line : String) : SPState :=
  let cell_def := pyStrip (pySliceFrom line 6)
  let cell_type := (pySplit cell_def ' ').headD ""
  let tags : List String :=
    if pyContainsChar cell_def '[' then
      let tag_part := pySlice cell_def (pyFind cell_def '[') (pyFind cell_def ']' + 1)
      (((pySplit (pySlice tag_part 1 (-1)) ',').map pyStrip).filter (fun t => t ≠ ""))
    else []
  let newCell : NotebookCellData := ⟨Json.str cell_type, "", Json.arr (tags.map Json.str)⟩
  { st with finished := st.finished ++ st.current.toList, current := some newCell }

/-- Effect of an `@meta` directive line (wb.py lines 190-204). -/
def metaLine (st : SPState) (line : String) : SPState :=
  let sp1 := pyFind line ' '
  let sp2 := pyFindFrom line ' ' (sp1 + 1)
  let prop_name := pySlice line (sp1 + 1) sp2
  let prop_value := pySliceFrom line (sp2 + 1)
  let parsed_value := parse_value prop_value
  if prop_name = "name" then { st with name := parsed_value }
  else { st with properties := alSet st.properties prop_name parsed_value }

/-- One line of the text reader (the loop body of `read_file`, wb.py lines
171-207).  A directive other than `cell` and `meta` falls through to the
content-line branch: the two recognized directives `continue`, nothing else
does. -/
def scratchStep (st : SPState) (line : String) : SPState :=
  if pyStartsWith line "@" then
    let directive := pyLower (pySlice line 1 (pyFind line ' '))
    if directive = "cell" then cellLine st line
    else if directive = "meta" then metaLine st line
    else contentLine st line
  else contentLine st line

/-- Model of `ScratchpadNotebookFormat.read_file` (wb.py lines 161-209) on the
text of the source file. -/
def read_file (file_content : String) : NotebookData :=
  let st := (pySplit file_content '\n').foldl scratchStep ⟨Json.str "", [], [], none⟩
  ⟨st.name, st.properties, st.finished ++ st.current.toList⟩

/-- Python `','.join(x)` as used on `cell.attributes` (wb.py line 222): joins
an iterable of strings, raising `TypeError` when an element is not a string
or the value is not iterable. -/
def joinAttrs (j : Json) : Except PyExn String := do
  let items ← pyIter j
  let strs ← items.mapM (fun it =>
    match it with
    | Json.str s => Except.ok s
    | _ => Except.error PyExn.typeError)
  pure (pyJoin "," strs)

/-- The cell-loop body of `ScratchpadNotebookFormat.write_file` (wb.py lines
219-225): appends the `@cell` directive line (with the bracketed tag list when
the cell has attributes), the raw contents and a trailing newline. -/
def writeCellText (acc : String) (cell : NotebookCellData) : Except PyExn String := do
  let nAttrs ← pyLen cell.attributes
  let attribute_str ←
    if nAttrs ≠ 0 then do
      let attribute_list ← joinAttrs cell.attributes
      pure (" [" ++ attribute_list ++ "]")
    else pure ""
  pure (acc ++ "@cell " ++ pyStr cell.cell_type ++ attribute_str ++ "\n" ++
        cell.contents ++ "\n")

/-- Model of `ScratchpadNotebookFormat.write_file` (wb.py lines 211-228),
returning the text written to the destination file. -/
def write_file (nb_data : NotebookData) : Except PyExn String := do
  let text := "@meta name " ++ value_str nb_data.name ++ "\n"
  let text := nb_data.properties.foldl
    (fun acc kv => acc ++ "@meta " ++ kv.1 ++ " " ++ value_str kv.2 ++ "\n") text
  let text ← nb_data.cells.foldlM writeCellText text
  pure text

end ScratchpadNotebookFormat

/-- Files of the modelled file system: plain text or a loaded JSON document
(serialization is the identity, per the module header). -/
inductive FileVal where
  | text (s : String) : FileVal
  | jsonDoc (j : Json) : FileVal
  deriving DecidableEq, Repr

/-- A file system: an association of absolute paths to file contents. -/
abbrev FS := List (String × FileVal)

/-- Lookup a path (`os.path.exists` plus `open` for reading). -/
def fsGet : FS → String → Option FileVal
  | [], _ => none
  | (p2, f) :: rest, p => if p2 = p then some f else fsGet rest p

/-- Write a path (`open(..., 'w')`): replace or create. -/
def fsSet : FS → String → FileVal → FS
  | [], p, f => [(p, f)]
  | (p2, f2) :: rest, p, f =>
    if p2 = p then (p, f) :: rest else (p2, f2) :: fsSet rest p f

/-- Model of `to_abs_path` (wb.py lines 10-11): join with the working
directory.  The `..`/`.` normalization of `os.path.abspath` is not modelled;
theorems use already-normalized paths. -/
def to_abs_path (cwd path : String) : String :=
  if pyStartsWith path "/" then path else cwd ++ "/" ++ path

/-- Errors escaping the conversion entry points: the named `WorkbenchError`
(file not found, wb.py lines 6-8) or an uncaught Python exception. -/
inductive WBResultError where
  | notFound (path : String) : WBResultError
  | uncaught (e : PyExn) : WBResultError
  deriving DecidableEq, Repr

/-- Model of `push_notebook` (wb.py lines 234-251): resolve both paths, check
that the text source exists (the only `WorkbenchError` raise on this path),
read it with the text format and write it into the document at `src`.
Reading a document file as text is outside the model and mapped to an
uncaught marker error (never a `notFound`). -/
def push_notebook (cwd : String) (fs : FS) (location src : String) : Except WBResultError FS :=
  let location := to_abs_path cwd location
  let src := to_abs_path cwd src
  match fsGet fs location with
  | none => .error (.notFound location)
  | some (.jsonDoc _) => .error (.uncaught .fileKindMismatch)
  | some (.text content) =>
    let nb_data := ScratchpadNotebookFormat.read_file content
    let existing : Except PyExn (Option Json) :=
      match fsGet fs src with
      | none => .ok none
      | some (.jsonDoc j) => .ok (some j)
      | some (.text _) => .error .jsonDecodeError
    match existing with
    | .error e => .error (.uncaught e)
    | .ok ex =>
      match SynapseNotebookFormat.write_file ex nb_data with
      | .error e => .error (.uncaught e)
      | .ok doc => .ok (fsSet fs src (.jsonDoc doc))

/-- Model of `pull_notebook` (wb.py lines 253-267): resolve `src`, check that
the document exists (the only `WorkbenchError` raise on this path), read it
with the document format and overwrite the text file at `location`. -/
def pull_notebook (cwd : String) (fs : FS) (location src : String) : Except WBResultError FS :=
  let src := to_abs_path cwd src
  match fsGet fs src with
  | none => .error (.notFound src)
  | some (.text _) => .error (.uncaught .fileKindMismatch)
  | some (.jsonDoc j) =>
    let location := to_abs_path cwd location
    match SynapseNotebookFormat.read_file j with
    | .error e => .error (.uncaught e)
    | .ok nb_data =>
      match ScratchpadNotebookFormat.write_file nb_data with
      | .error e => .error (.uncaught e)
      | .ok text => .ok (fsSet fs location (.text text))

/-! ## Helper lemmas for the scalar literal codec -/

/-- Quote-escaping pass of the amended decode contract, written by direct
recursion: put a backslash before every double quote. -/
def escapeQuotes : List Char → List Char
  | [] => []
  | c :: rest => if c = '"' then '\\' :: '"' :: escapeQuotes rest else c :: escapeQuotes rest

/-- Backslash-collapsing pass of the amended decode contract: each doubled
backslash becomes a single one, scanning left to right. -/
def collapseBackslashPairs : List Char → List Char
  | [] => []
  | [c] => [c]
  | c1 :: c2 :: rest =>
    if c1 = '\\' ∧ c2 = '\\' then '\\' :: collapseBackslashPairs rest
    else c1 :: collapseBackslashPairs (c2 :: rest)

/-- Leading-quote strip of the amended decode contract. -/
def dropLeadQuotes : List Char → List Char
  | [] => []
  | c :: rest => if c = '"' then dropLeadQuotes rest else c :: rest

/-- Trailing-quote strip of the amended decode contract. -/
def dropTrailQuotes : List Char → List Char
  | [] => []
  | c :: rest =>
    match dropTrailQuotes rest with
    | [] => if c = '"' then [] else [c]
    | r => c :: r

/-- The amended decode contract for quoted literals, independent of the
implementation: strip all boundary quotes, escape every remaining quote with
a backslash, collapse every doubled backslash. -/
def decodeQuotedSpec (t : String) : String :=
  ⟨collapseBackslashPairs (escapeQuotes (dropTrailQuotes (dropLeadQuotes t.data)))⟩

theorem isPrefixOf_single (c x : Char) (rest : List Char) :
    List.isPrefixOf [c] (x :: rest) = (c == x) := by
  simp [List.isPrefixOf]

theorem isPrefixOf_pair (c1 c2 x : Char) (rest : List Char) :
    List.isPrefixOf [c1, c2] (x :: rest) =
      (c1 == x && List.isPrefixOf [c2] rest) := by
  simp [List.isPrefixOf]

theorem replaceCore_quote_escape :
    ∀ (fuel : Nat) (l : List Char), l.length ≤ fuel →
      replaceCore ['"'] ['\\', '"'] fuel l = escapeQuotes l := by
  intro fuel
  induction fuel with
  | zero =>
    intro l h
    cases l with
    | nil => rfl
    | cons c rest => simp at h
  | succ fuel ih =>
    intro l h
    cases l with
    | nil => rfl
    | cons c rest =>
      simp only [List.length_cons] at h
      rw [replaceCore, isPrefixOf_single, escapeQuotes]
      by_cases hc : c = '"'
      · subst hc
        simp only [beq_self_eq_true, if_pos, if_pos rfl]
        have hd : List.drop (['"'].length - 1) rest = rest := by simp
        rw [hd, ih rest (by omega)]
        rfl
      · have hbeq : ('"' == c) = false := beq_eq_false_iff_ne.mpr (Ne.symm hc)
        simp only [hbeq, Bool.false_eq_true, if_neg, if_neg hc]
        rw [ih rest (by omega)]
        simp

theorem replaceCore_collapse :
    ∀ (fuel : Nat) (l : List Char), l.length ≤ fuel →
      replaceCore ['\\', '\\'] ['\\'] fuel l = collapseBackslashPairs l := by
  intro fuel
  induction fuel using Nat.strong_induction_on with
  | _ fuel ih =>
    intro l h
    match fuel, l with
    | fuel, [] => cases fuel <;> rfl
    | 0, c :: rest => simp at h
    | fuel + 1, [c] =>
      rw [replaceCore]
      have hpre : List.isPrefixOf ['\\', '\\'] [c] = false := by
        simp [List.isPrefixOf]
      simp only [hpre, Bool.false_eq_true, if_neg, collapseBackslashPairs]
      cases fuel <;> rfl
    | fuel + 1, c1 :: c2 :: rest =>
      simp only [List.length_cons] at h
      rw [replaceCore, isPrefixOf_pair, isPrefixOf_single, collapseBackslashPairs]
      by_cases h12 : c1 = '\\' ∧ c2 = '\\'
      · obtain ⟨rfl, rfl⟩ := h12
        simp only [beq_self_eq_true, Bool.and_self, if_pos, if_pos (And.intro rfl rfl)]
        have hd : List.drop (['\\', '\\'].length - 1) ('\\' :: rest) = rest := by simp
        rw [hd, ih fuel (Nat.lt_succ_self fuel) rest (by omega)]
        rfl
      · have hfalse : (('\\' == c1) && ('\\' == c2)) = false := by
          rcases not_and_or.mp h12 with hc | hc
          · have : ('\\' == c1) = false := beq_eq_false_iff_ne.mpr (Ne.symm hc)
            simp [this]
          · have : ('\\' == c2) = false := beq_eq_false_iff_ne.mpr (Ne.symm hc)
            simp [this]
        simp only [isPrefixOf_single] at hfalse
        simp only [hfalse, Bool.false_eq_true, if_neg, if_neg h12]
        rw [ih fuel (Nat.lt_succ_self fuel) (c2 :: rest) (by simp; omega)]
        simp

theorem replaceCore_single_absent (c : Char) (rep : List Char) :
    ∀ (fuel : Nat) (l : List Char), l.length ≤ fuel → c ∉ l →
      replaceCore [c] rep fuel l = l := by
  intro fuel
  induction fuel with
  | zero =>
    intro l h _
    cases l with
    | nil => rfl
    | cons x rest => simp at h
  | succ fuel ih =>
    intro l h habs
    cases l with
    | nil => rfl
    | cons x rest =>
      have hx : c ≠ x := fun he => habs (he ▸ List.mem_cons_self x rest)
      have hbeq : (c == x) = false := beq_eq_false_iff_ne.mpr hx
      rw [replaceCore, isPrefixOf_single]
      simp only [hbeq, Bool.false_eq_true, if_neg]
      simp only [List.length_cons] at h
      rw [ih rest (by omega) (fun hm => habs (List.mem_cons_of_mem x hm))]
      simp

theorem replaceCore_double_backslash_absent :
    ∀ (fuel : Nat) (l : List Char), '\\' ∉ l →
      replaceCore ['\\', '\\'] ['\\'] fuel l = l := by
  intro fuel
  induction fuel with
  | zero => intro l _; cases l <;> rfl
  | succ fuel ih =>
    intro l habs
    cases l with
    | nil => rfl
    | cons x rest =>
      have hx : ('\\' : Char) ≠ x := fun he => habs (he ▸ List.mem_cons_self x rest)
      have hbeq : ('\\' == x) = false := beq_eq_false_iff_ne.mpr hx
      cases rest with
      | nil =>
        rw [replaceCore]
        have hpre : List.isPrefixOf ['\\', '\\'] [x] = false := by
          simp [List.isPrefixOf]
        simp only [hpre, Bool.false_eq_true, if_neg]
        cases fuel <;> rfl
      | cons y rest2 =>
        rw [replaceCore, isPrefixOf_pair]
        simp only [hbeq, Bool.false_and, Bool.false_eq_true, if_neg]
        rw [ih (y :: rest2) (fun hm => habs (List.mem_cons_of_mem x hm))]
        simp

theorem dropWhile_of_none (p : Char → Bool) :
    ∀ (l : List Char), (∀ x ∈ l, p x = false) → l.dropWhile p = l := by
  intro l h
  cases l with
  | nil => rfl
  | cons x rest => simp [List.dropWhile, h x (List.mem_cons_self x rest)]

theorem dropWhile_append_of_left_nil (p : Char → Bool) :
    ∀ (xs ys : List Char), xs.dropWhile p = [] →
      (xs ++ ys).dropWhile p = ys.dropWhile p := by
  intro xs
  induction xs with
  | nil => intro ys _; rfl
  | cons x rest ih =>
    intro ys h
    simp only [List.dropWhile] at h ⊢
    cases hx : p x with
    | true => simp only [hx] at h ⊢; exact ih ys h
    | false => simp [hx] at h

theorem dropWhile_append_of_left_ne_nil (p : Char → Bool) :
    ∀ (xs ys : List Char), xs.dropWhile p ≠ [] →
      (xs ++ ys).dropWhile p = xs.dropWhile p ++ ys := by
  intro xs
  induction xs with
  | nil => intro ys h; simp at h
  | cons x rest ih =>
    intro ys h
    simp only [List.dropWhile] at h ⊢
    cases hx : p x with
    | true => simp only [hx] at h ⊢; exact ih ys h
    | false => simp [hx]

theorem dropLeadQuotes_eq (l : List Char) :
    l.dropWhile (fun x => x = '"') = dropLeadQuotes l := by
  induction l with
  | nil => rfl
  | cons c rest ih =>
    by_cases hc : c = '"'
    · subst hc; simpa [List.dropWhile, dropLeadQuotes] using ih
    · simp [List.dropWhile, dropLeadQuotes, hc]

theorem dropTrailQuotes_eq (l : List Char) :
    (l.reverse.dropWhile (fun x => x = '"')).reverse = dropTrailQuotes l := by
  induction l with
  | nil => rfl
  | cons c rest ih =>
    simp only [List.reverse_cons, dropTrailQuotes]
    cases hr : dropTrailQuotes rest with
    | nil =>
      rw [hr] at ih
      have hnil : rest.reverse.dropWhile (fun x => x = '"') = [] := by
        have := congrArg List.reverse ih
        simpa using this
      rw [dropWhile_append_of_left_nil _ _ _ hnil]
      by_cases hc : c = '"'
      · simp [List.dropWhile, hc]
      · simp [List.dropWhile, hc]
    | cons r0 rs =>
      rw [hr] at ih
      have hne : rest.reverse.dropWhile (fun x => x = '"') ≠ [] := by
        intro hcontra
        rw [hcontra] at ih
        simp at ih
      rw [dropWhile_append_of_left_ne_nil _ _ _ hne]
      simp [ih]

theorem pyStripChar_quotes (s : String) :
    pyStripChar s '"' = ⟨dropTrailQuotes (dropLeadQuotes s.data)⟩ := by
  apply String.ext
  show stripEnds (fun x => x = '"') s.data = dropTrailQuotes (dropLeadQuotes s.data)
  unfold stripEnds
  rw [dropTrailQuotes_eq, dropLeadQuotes_eq]

theorem pyReplace_backslash_double_id (s : String) (h : '\\' ∉ s.data) :
    pyReplace s "\\" "\\\\" = s := by
  apply String.ext
  unfold pyReplace
  simp only [show ("\\" : String).data = ['\\'] from rfl, List.isEmpty_cons,
    Bool.false_eq_true, if_neg]
  exact replaceCore_single_absent '\\' _ s.data.length s.data le_rfl h

theorem pyReplace_quote_escape_id (s : String) (h : '"' ∉ s.data) :
    pyReplace s "\"" "\\\"" = s := by
  apply String.ext
  unfold pyReplace
  simp only [show ("\"" : String).data = ['"'] from rfl, List.isEmpty_cons,
    Bool.false_eq_true, if_neg]
  exact replaceCore_single_absent '"' _ s.data.length s.data le_rfl h

theorem pyReplace_quote_escape_eq (s : String) :
    pyReplace s "\"" "\\\"" = ⟨escapeQuotes s.data⟩ := by
  apply String.ext
  unfold pyReplace
  simp only [show ("\"" : String).data = ['"'] from rfl, List.isEmpty_cons,
    Bool.false_eq_true, if_neg]
  exact replaceCore_quote_escape s.data.length s.data le_rfl

theorem pyReplace_collapse_eq (s : String) :
    pyReplace s "\\\\" "\\" = ⟨collapseBackslashPairs s.data⟩ := by
  apply String.ext
  unfold pyReplace
  simp only [show ("\\\\" : String).data = ['\\', '\\'] from rfl, List.isEmpty_cons,
    Bool.false_eq_true, if_neg]
  exact replaceCore_collapse s.data.length s.data le_rfl

theorem pyReplace_collapse_id (s : String) (h : '\\' ∉ s.data) :
    pyReplace s "\\\\" "\\" = s := by
  apply String.ext
  unfold pyReplace
  simp only [show ("\\\\" : String).data = ['\\', '\\'] from rfl, List.isEmpty_cons,
    Bool.false_eq_true, if_neg]
  exact replaceCore_double_backslash_absent s.data.length s.data h

theorem stripEnds_quote_wrap (cs : List Char) (h : '"' ∉ cs) :
    stripEnds (fun x => x = '"') ('"' :: (cs ++ ['"'])) = cs := by
  unfold stripEnds
  have hd : List.dropWhile (fun x => decide (x = '"')) ('"' :: (cs ++ ['"'])) =
      List.dropWhile (fun x => decide (x = '"')) (cs ++ ['"']) := by
    simp [List.dropWhile]
  rw [hd]
  cases cs with
  | nil => simp [List.dropWhile]
  | cons c cs2 =>
    have hc : c ≠ '"' := fun he => h (he ▸ List.mem_cons_self c cs2)
    have hstop : List.dropWhile (fun x => decide (x = '"')) ((c :: cs2) ++ ['"']) =
        (c :: cs2) ++ ['"'] := by
      simp [List.dropWhile, hc]
    rw [hstop]
    have hrev : ((c :: cs2) ++ ['"']).reverse = '"' :: (c :: cs2).reverse := by
      simp
    rw [hrev]
    have hnone : ∀ x ∈ (c :: cs2).reverse, (fun x => decide (x = '"')) x = false := by
      intro x hx
      have hxmem : x ∈ c :: cs2 := by
        rcases (by simpa using hx : x ∈ cs2 ∨ x = c) with h1 | h1
        · exact List.mem_cons_of_mem c h1
        · exact h1 ▸ List.mem_cons_self c cs2
      have : x ≠ '"' := fun he => h (he ▸ hxmem)
      simpa using this
    have : List.dropWhile (fun x => decide (x = '"')) ('"' :: (c :: cs2).reverse) =
        (c :: cs2).reverse := by
      simp only [List.dropWhile, decide_True]
      exact dropWhile_of_none _ _ hnone
    rw [this]
    simp

instance {e a : Type} [DecidableEq e] [DecidableEq a] : DecidableEq (Except e a) := fun x y =>
  match x, y with
  | .ok u, .ok v =>
    if h : u = v then .isTrue (by rw [h]) else .isFalse (by intro he; cases he; exact h rfl)
  | .error u, .error v =>
    if h : u = v then .isTrue (by rw [h]) else .isFalse (by intro he; cases he; exact h rfl)
  | .ok _, .error _ => .isFalse (by intro he; cases he)
  | .error _, .ok _ => .isFalse (by intro he; cases he)

/-! ## Claims C2, C3, C4, C9 -/

/-- Claim C2 (code bug).  The claim says the document writer succeeds on a
nonexistent destination by using a built-in default skeleton.  The code
instead calls the undefined global name `_get_detault_notebook_data` on that
branch (wb.py line 121; the method defined at line 155 is spelled
`_get_default_notebook_data`), so Python raises `NameError` for every
`NotebookData` before anything is written. -/
theorem claim_C2_write_file_missing_dest_raises (nb_data : NotebookData) :
    SynapseNotebookFormat.write_file none nb_data =
      .error (.nameError "_get_detault_notebook_data") := rfl

/-- Claim C3 (code bug).  The claim says `set(tree, path, value)` never fails
and creates intermediate maps, with `set(\x7b\x7d, "a.b", 7)` yielding the
nested map.  The code walks with `dict_sect = dict_sect[part]` without ever
creating a missing key (its non-dict guard writes into the parent and cannot
create one), so the walk raises `KeyError` on the very first missing
intermediate segment. -/
theorem claim_C3_set_property_value_missing_intermediate_raises :
    set_property_value (Json.obj []) "a.b" (Json.int 7) = .error (.keyError "a") ∧
    set_property_value (Json.obj []) "a.b" (Json.int 7) ≠
      .ok (Json.obj [("a", Json.obj [("b", Json.int 7)])]) := by
  exact ⟨by decide, by decide⟩

/-- Claim C4 counterexample.  On the quoted input `"a"b"` the claim predicts
`a"b` (strip exactly one quote per side, reverse the quote escaping); the
code produces `a\"b` — it inserts a backslash before the interior quote
instead of removing escapes. -/
theorem claim_C4_counterexample :
    parse_value "\"a\"b\"" = Json.str "a\\\"b" ∧
    Json.str "a\\\"b" ≠ Json.str "a\"b" := by
  exact ⟨by decide, by decide⟩

/-- Claim C4 as amended.  For text starting and ending with a double quote,
decode strips all leading and trailing quote characters, then inserts a
backslash before each remaining double quote (the reverse of what the claim
stated: escaping is added, not removed), then collapses each doubled
backslash to a single one (so backslash-doubling is the part that is
reversed), returning the result as a string.  `decodeQuotedSpec` states that
contract independently of the implementation. -/
theorem claim_C4_amended_decode (t : String)
    (h1 : pyStartsWith t "\"" = true) (h2 : pyEndsWith t "\"" = true) :
    parse_value t = Json.str (decodeQuotedSpec t) := by
  unfold parse_value
  simp only [h1, h2, Bool.and_self, if_pos]
  rw [pyStripChar_quotes, pyReplace_quote_escape_eq, pyReplace_collapse_eq]
  rfl

/-- Witness for the amended claim C4 at a concrete input. -/
theorem claim_C4_amended_decode_witness :
    pyStartsWith "\"xy\"" "\"" = true ∧ pyEndsWith "\"xy\"" "\"" = true ∧
    parse_value "\"xy\"" = Json.str (decodeQuotedSpec "\"xy\"") :=
  ⟨by decide, by decide, claim_C4_amended_decode "\"xy\"" (by decide) (by decide)⟩

theorem parse_value_value_str_str (s : String)
    (hq : '"' ∉ s.data) (hb : '\\' ∉ s.data) :
    parse_value (value_str (Json.str s)) = Json.str s := by
  have henc : value_str (Json.str s) = "\"" ++ s ++ "\"" := by
    rw [show value_str (Json.str s) =
        "\"" ++ pyReplace (pyReplace s "\\" "\\\\") "\"" "\\\"" ++ "\"" from rfl]
    rw [pyReplace_backslash_double_id s hb, pyReplace_quote_escape_id s hq]
  rw [henc]
  have hdata : ("\"" ++ s ++ "\"").data = '"' :: (s.data ++ ['"']) := by
    rw [String.data_append, String.data_append]
    rfl
  have hS : pyStartsWith ("\"" ++ s ++ "\"") "\"" = true := by
    unfold pyStartsWith
    rw [hdata]
    simp [List.isPrefixOf]
  have hE : pyEndsWith ("\"" ++ s ++ "\"") "\"" = true := by
    unfold pyEndsWith
    rw [hdata]
    simp [List.isSuffixOf, List.isPrefixOf]
  unfold parse_value
  simp only [hS, hE, Bool.and_self, if_pos]
  have hstrip : pyStripChar ("\"" ++ s ++ "\"") '"' = s := by
    apply String.ext
    show stripEnds (fun x => x = '"') ("\"" ++ s ++ "\"").data = s.data
    rw [hdata]
    exact stripEnds_quote_wrap s.data hq
  rw [hstrip, pyReplace_quote_escape_id s hq, pyReplace_collapse_id s hb]

/-- Claim C9 (confirmed).  For a string free of double quotes and
backslashes, decoding the encoded literal returns the original string: the
encoder adds no escapes to such a string, and the decoder strips exactly the
two added boundary quotes while both replacement passes are identities. -/
theorem claim_C9_codec_roundtrip (s : String)
    (hq : '"' ∉ s.data) (hb : '\\' ∉ s.data) :
    parse_value (value_str (Json.str s)) = Json.str s :=
  parse_value_value_str_str s hq hb

/-- Witness for claim C9 at a concrete input. -/
theorem claim_C9_codec_roundtrip_witness :
    ('"' ∉ ("hi" : String).data) ∧ ('\\' ∉ ("hi" : String).data) ∧
    parse_value (value_str (Json.str "hi")) = Json.str "hi" :=
  ⟨by decide, by decide, claim_C9_codec_roundtrip "hi" (by decide) (by decide)⟩

/-! ## Claims C5 and C10 -/

/-- The normalized-join contract of the spec, written by direct recursion:
each logical line is its source line with trailing newlines removed plus
exactly one newline. -/
def joinOneNewlineSpec : List String → String
  | [] => ""
  | l :: rest => pyRstrip l ['\n'] ++ "\n" ++ joinOneNewlineSpec rest

theorem foldl_append_shift (ps : List String) (a : String) :
    List.foldl (fun r s => r ++ s) a ps = a ++ List.foldl (fun r s => r ++ s) "" ps := by
  induction ps generalizing a with
  | nil =>
    apply String.ext
    simp [String.data_append]
  | cons p ps ih =>
    simp only [List.foldl_cons]
    rw [ih (a ++ p), ih ("" ++ p)]
    apply String.ext
    simp [String.data_append]

theorem sourceContents_strings (lines : List String) :
    SynapseNotebookFormat.sourceContents (lines.map Json.str) =
      .ok (joinOneNewlineSpec lines) := by
  induction lines with
  | nil => rfl
  | cons l rest ih =>
    unfold SynapseNotebookFormat.sourceContents at ih ⊢
    simp only [List.map_cons, List.mapM_cons, bind, Except.bind] at ih ⊢
    cases hm : (rest.map Json.str).mapM (fun line =>
        match line with
        | Json.str s => Except.ok (pyRstrip s ['\n'] ++ "\n")
        | _ => Except.error PyExn.attributeError) with
    | error e => rw [hm] at ih; simp [pure, Except.pure] at ih
    | ok pieces =>
      rw [hm] at ih
      simp only [pure, Except.pure, Except.ok.injEq] at ih ⊢
      rw [joinOneNewlineSpec, ← ih]
      simp only [String.join, List.foldl_cons]
      rw [foldl_append_shift pieces ("" ++ (pyRstrip l ['\n'] ++ "\n"))]
      apply String.ext
      simp [String.data_append]

/-- The extracted cell contents of a document, empty on a read failure (used
to state concrete counterexamples). -/
def docCellContents (doc : Json) : List String :=
  match SynapseNotebookFormat.read_file doc with
  | .ok nb => nb.cells.map (fun c => c.contents)
  | .error _ => []

/-- A document whose single cell has source lines `x\n`, `\n`, `\n`. -/
def trailingBlankDoc : Json := Json.obj
  [("name", Json.str "nb"),
   ("properties", Json.obj
     [("cells", Json.arr
       [Json.obj
         [("cell_type", Json.str "code"),
          ("source", Json.arr [Json.str "x\n", Json.str "\n", Json.str "\n"])]])])]

/-- Claim C5 counterexample.  The claim predicts canonical contents `x\n`
(trailing blank lines trimmed); the document reader performs no trimming and
produces `x\n\n\n`. -/
theorem claim_C5_counterexample :
    docCellContents trailingBlankDoc = ["x\n\n\n"] ∧
    ("x\n\n\n" : String) ≠ "x\n" := ⟨by decide, by decide⟩

/-- Claim C5 as amended.  The document reader normalizes every cell to the
join of its source lines, each right-stripped of newlines and terminated by
exactly one newline, but does NOT trim trailing blank lines (trimming happens
only in the document writer): source `["x\n","\n","\n"]` yields `x\n\n\n`. -/
theorem claim_C5_amended_reader_join (cell_data : Json) (lines : List String)
    (c : NotebookCellData)
    (hsrc : pyGetItem cell_data "source" = .ok (Json.arr (lines.map Json.str)))
    (hok : SynapseNotebookFormat.readCell cell_data = .ok c) :
    c.contents = joinOneNewlineSpec lines := by
  unfold SynapseNotebookFormat.readCell at hok
  simp only [bind, Except.bind] at hok
  cases hmd : pyGetD cell_data "metadata" (Json.obj []) with
  | error e => simp only [hmd] at hok; cases hok
  | ok md =>
    simp only [hmd] at hok
    cases htags : pyGetD md "tags" (Json.arr []) with
    | error e => simp only [htags] at hok; cases hok
    | ok tags =>
      simp only [htags] at hok
      cases hct : pyGet cell_data "cell_type" with
      | error e => simp only [hct] at hok; cases hok
      | ok ct =>
        simp only [hct, hsrc] at hok
        have hit : pyIter (Json.arr (lines.map Json.str)) = .ok (lines.map Json.str) := rfl
        simp only [hit, sourceContents_strings lines] at hok
        simp only [pure, Except.pure, Except.ok.injEq] at hok
        rw [← hok]

/-- Witness for the amended claim C5 at a concrete cell. -/
theorem claim_C5_amended_reader_join_witness :
    SynapseNotebookFormat.readCell
        (Json.obj [("cell_type", Json.str "code"),
                   ("source", Json.arr [Json.str "x\n", Json.str "\n", Json.str "\n"])]) =
      .ok ⟨Json.str "code", "x\n\n\n", Json.arr []⟩ ∧
    ("x\n\n\n" : String) = joinOneNewlineSpec ["x\n", "\n", "\n"] := by
  constructor
  · decide
  · exact (claim_C5_amended_reader_join
      (Json.obj [("cell_type", Json.str "code"),
                 ("source", Json.arr [Json.str "x\n", Json.str "\n", Json.str "\n"])])
      ["x\n", "\n", "\n"] ⟨Json.str "code", "x\n\n\n", Json.arr []⟩
      (by decide) (by decide)).symm ▸ rfl

/-- Shape under which the document reader can reach its cell loop: the
document is a map whose `properties` value is a map containing `cells`. -/
def propsHasCells (doc : Json) : Bool :=
  match doc with
  | .obj kvs =>
    match alGet kvs "properties" with
    | some (.obj p) => (alGet p "cells").isSome
    | _ => false
  | _ => false

/-- Claim C10 (confirmed).  When the top-level `properties` value is absent or
not a map, or has no `cells` entry, the document reader raises (an
`AttributeError` from `.get` on a non-dict, or a `TypeError` from iterating
`None`) instead of returning a notebook with empty cells. -/
theorem claim_C10_reader_requires_properties_cells (doc : Json)
    (h : propsHasCells doc = false) :
    ∃ e, SynapseNotebookFormat.read_file doc = .error e := by
  cases doc with
  | null => exact ⟨.attributeError, rfl⟩
  | bool b => exact ⟨.attributeError, rfl⟩
  | int n => exact ⟨.attributeError, rfl⟩
  | float lit => exact ⟨.attributeError, rfl⟩
  | str s => exact ⟨.attributeError, rfl⟩
  | arr xs => exact ⟨.attributeError, rfl⟩
  | obj kvs =>
    unfold SynapseNotebookFormat.read_file
    simp only [bind, Except.bind, pyGet]
    cases halget : alGet kvs "properties" with
    | none =>
      exact ⟨.attributeError, by simp [halget, Option.getD, pyGet]⟩
    | some v =>
      cases v with
      | obj p =>
        have hcells : alGet p "cells" = none := by
          simp only [propsHasCells, halget] at h
          simpa [Option.isSome_iff_exists] using h
        exact ⟨.typeError, by simp [halget, Option.getD, pyGet, hcells, pyIter]⟩
      | null => exact ⟨.attributeError, by simp [halget, Option.getD, pyGet]⟩
      | bool b => exact ⟨.attributeError, by simp [halget, Option.getD, pyGet]⟩
      | int n => exact ⟨.attributeError, by simp [halget, Option.getD, pyGet]⟩
      | float lit => exact ⟨.attributeError, by simp [halget, Option.getD, pyGet]⟩
      | str s => exact ⟨.attributeError, by simp [halget, Option.getD, pyGet]⟩
      | arr xs => exact ⟨.attributeError, by simp [halget, Option.getD, pyGet]⟩

/-- Witness for claim C10 at a concrete malformed document. -/
theorem claim_C10_reader_requires_properties_cells_witness :
    propsHasCells (Json.obj [("properties", Json.int 5)]) = false ∧
    ∃ e, SynapseNotebookFormat.read_file (Json.obj [("properties", Json.int 5)]) = .error e :=
  ⟨by decide, claim_C10_reader_requires_properties_cells
    (Json.obj [("properties", Json.int 5)]) (by decide)⟩

/-! ## Claim C6 -/

/-- Claim C6 counterexample.  `@foo bar` is a directive line whose name `foo`
is neither `cell` nor `meta`; inside an open cell it is NOT consumed without
effect: the text reader appends it to the cell contents, so the result
differs from the same input with the line removed. -/
theorem claim_C6_counterexample :
    pyStartsWith "@foo bar" "@" = true ∧
    pyLower (pySlice "@foo bar" 1 (pyFind "@foo bar" ' ')) = "foo" ∧
    ScratchpadNotebookFormat.read_file "@cell code\nx\n@foo bar\ny" ≠
      ScratchpadNotebookFormat.read_file "@cell code\nx\ny" := by
  refine ⟨by decide, by decide, by decide⟩

/-- Claim C6 as amended.  A directive line whose lowercased name is neither
`cell` nor `meta` is not a silent no-op: the recognized directives `continue`
past the content branch, but an unrecognized one falls through and behaves
exactly like an ordinary content line — appended (with a newline) to the open
cell, and only a no-op when no cell is open.  In particular the resulting
`NotebookData` equals that of the input with the line removed exactly in the
no-open-cell case. -/
theorem claim_C6_amended_unrecognized_directive (line : String)
    (hat : pyStartsWith line "@" = true)
    (hc : pyLower (pySlice line 1 (pyFind line ' ')) ≠ "cell")
    (hm : pyLower (pySlice line 1 (pyFind line ' ')) ≠ "meta") :
    (∀ st : ScratchpadNotebookFormat.SPState,
      ScratchpadNotebookFormat.scratchStep st line =
        ScratchpadNotebookFormat.contentLine st line) ∧
    (∀ pre post : List String,
      ((pre.foldl ScratchpadNotebookFormat.scratchStep
          ⟨Json.str "", [], [], none⟩).current = none) →
      (pre ++ line :: post).foldl ScratchpadNotebookFormat.scratchStep
          ⟨Json.str "", [], [], none⟩ =
        (pre ++ post).foldl ScratchpadNotebookFormat.scratchStep
          ⟨Json.str "", [], [], none⟩) := by
  have hstep : ∀ st : ScratchpadNotebookFormat.SPState,
      ScratchpadNotebookFormat.scratchStep st line =
        ScratchpadNotebookFormat.contentLine st line := by
    intro st
    unfold ScratchpadNotebookFormat.scratchStep
    rw [hat]
    simp only [if_pos, if_neg hc, if_neg hm]
  refine ⟨hstep, ?_⟩
  intro pre post hnone
  rw [List.foldl_append, List.foldl_append, List.foldl_cons, hstep]
  have : ScratchpadNotebookFormat.contentLine
      (pre.foldl ScratchpadNotebookFormat.scratchStep ⟨Json.str "", [], [], none⟩) line =
      pre.foldl ScratchpadNotebookFormat.scratchStep ⟨Json.str "", [], [], none⟩ := by
    unfold ScratchpadNotebookFormat.contentLine
    rw [hnone]
  rw [this]

/-- Witness for the amended claim C6 at a concrete line and file prefix. -/
theorem claim_C6_amended_unrecognized_directive_witness :
    ((["@meta k 1"] ++ "@foo bar" :: ["z"]).foldl ScratchpadNotebookFormat.scratchStep
        ⟨Json.str "", [], [], none⟩ =
      (["@meta k 1"] ++ ["z"]).foldl ScratchpadNotebookFormat.scratchStep
        ⟨Json.str "", [], [], none⟩) :=
  (claim_C6_amended_unrecognized_directive "@foo bar" (by decide) (by decide) (by decide)).2
    ["@meta k 1"] ["z"] (by decide)

/-! ## Claim C8 -/

theorem push_exists_not_notFound (cwd : String) (fs : FS) (location src : String)
    (f : FileVal) (hl : fsGet fs (to_abs_path cwd location) = some f) :
    ∀ p, push_notebook cwd fs location src ≠ .error (.notFound p) := by
  intro p
  simp only [push_notebook]
  rw [hl]
  cases f with
  | jsonDoc j => intro hcontra; cases hcontra
  | text content =>
    cases hs : fsGet fs (to_abs_path cwd src) with
    | none =>
      simp only [hs]
      cases hw : SynapseNotebookFormat.write_file none
          (ScratchpadNotebookFormat.read_file content) with
      | error e => simp only [hw]; intro hcontra; cases hcontra
      | ok doc => simp only [hw]; intro hcontra; cases hcontra
    | some g =>
      cases g with
      | text t => simp only [hs]; intro hcontra; cases hcontra
      | jsonDoc j =>
        simp only [hs]
        cases hw : SynapseNotebookFormat.write_file (some j)
            (ScratchpadNotebookFormat.read_file content) with
        | error e => simp only [hw]; intro hcontra; cases hcontra
        | ok doc => simp only [hw]; intro hcontra; cases hcontra

theorem pull_exists_not_notFound (cwd : String) (fs : FS) (location src : String)
    (f : FileVal) (hs : fsGet fs (to_abs_path cwd src) = some f) :
    ∀ p, pull_notebook cwd fs location src ≠ .error (.notFound p) := by
  intro p
  simp only [pull_notebook]
  rw [hs]
  cases f with
  | text t => intro hcontra; cases hcontra
  | jsonDoc j =>
    cases hr : SynapseNotebookFormat.read_file j with
    | error e => simp only [hr]; intro hcontra; cases hcontra
    | ok nb =>
      simp only [hr]
      cases hw : ScratchpadNotebookFormat.write_file nb with
      | error e => simp only [hw]; intro hcontra; cases hcontra
      | ok text => simp only [hw]; intro hcontra; cases hcontra

/-- Claim C8 (confirmed).  `push` raises the named `WorkbenchError` exactly
when the text source is missing at its resolved absolute path, and `pull`
exactly when the document is missing at its resolved absolute path; in each
case the error carries that absolute path.  The existence check is the first
action after path resolution, so the error is returned with no write
performed (an error result leaves the file system unchanged by construction),
and no other code path produces a `notFound`: every other failure surfaces as
an uncaught exception. -/
theorem claim_C8_not_found_iff (cwd : String) (fs : FS) (location src : String) :
    (push_notebook cwd fs location src = .error (.notFound (to_abs_path cwd location)) ↔
      fsGet fs (to_abs_path cwd location) = none) ∧
    (∀ p, push_notebook cwd fs location src = .error (.notFound p) →
      p = to_abs_path cwd location ∧ fsGet fs (to_abs_path cwd location) = none) ∧
    (pull_notebook cwd fs location src = .error (.notFound (to_abs_path cwd src)) ↔
      fsGet fs (to_abs_path cwd src) = none) ∧
    (∀ p, pull_notebook cwd fs location src = .error (.notFound p) →
      p = to_abs_path cwd src ∧ fsGet fs (to_abs_path cwd src) = none) := by
  have hpushMissing : fsGet fs (to_abs_path cwd location) = none →
      push_notebook cwd fs location src =
        .error (.notFound (to_abs_path cwd location)) := by
    intro h
    simp only [push_notebook]
    rw [h]
  have hpullMissing : fsGet fs (to_abs_path cwd src) = none →
      pull_notebook cwd fs location src = .error (.notFound (to_abs_path cwd src)) := by
    intro h
    simp only [pull_notebook]
    rw [h]
  refine ⟨⟨?_, hpushMissing⟩, ?_, ⟨?_, hpullMissing⟩, ?_⟩
  · intro he
    cases hl : fsGet fs (to_abs_path cwd location) with
    | none => rfl
    | some f => exact absurd he (push_exists_not_notFound cwd fs location src f hl _)
  · intro p he
    cases hl : fsGet fs (to_abs_path cwd location) with
    | none =>
      have := hpushMissing hl
      rw [this] at he
      cases he
      exact ⟨rfl, rfl⟩
    | some f => exact absurd he (push_exists_not_notFound cwd fs location src f hl p)
  · intro he
    cases hs : fsGet fs (to_abs_path cwd src) with
    | none => rfl
    | some f => exact absurd he (pull_exists_not_notFound cwd fs location src f hs _)
  · intro p he
    cases hs : fsGet fs (to_abs_path cwd src) with
    | none =>
      have := hpullMissing hs
      rw [this] at he
      cases he
      exact ⟨rfl, rfl⟩
    | some f => exact absurd he (pull_exists_not_notFound cwd fs location src f hs p)

/-- Witness for claim C8: on a file system holding only a document at
`/w/doc.json`, `push` from the missing text file raises `NotFound` with the
resolved absolute path, and `pull` succeeds in the other direction only when
its document exists — here `pull` of a missing document also raises. -/
theorem claim_C8_not_found_iff_witness :
    push_notebook "/w" [("/w/doc.json", FileVal.jsonDoc (Json.obj []))] "nb.txt" "doc.json" =
      .error (.notFound "/w/nb.txt") ∧
    pull_notebook "/w" [] "nb.txt" "doc.json" = .error (.notFound "/w/doc.json") :=
  ⟨(claim_C8_not_found_iff "/w" [("/w/doc.json", FileVal.jsonDoc (Json.obj []))]
      "nb.txt" "doc.json").1.mpr (by decide),
   (claim_C8_not_found_iff "/w" [] "nb.txt" "doc.json").2.2.1.mpr (by decide)⟩

/-! ## Claim C7 -/

theorem alGet_alSet_same : ∀ (kvs : List (String × Json)) (k : String) (v : Json),
    alGet (alSet kvs k v) k = some v
  | [], k, v => by simp [alSet, alGet]
  | (k2, v2) :: rest, k, v => by
    by_cases h : k2 = k
    · simp [alSet, alGet, h]
    · simp only [alSet, if_neg h, alGet, if_neg h]
      exact alGet_alSet_same rest k v

theorem alGet_alSet_other : ∀ (kvs : List (String × Json)) (k k2 : String) (v : Json),
    k2 ≠ k → alGet (alSet kvs k v) k2 = alGet kvs k2
  | [], k, k2, v, h => by
    simp only [alSet, alGet]
    rw [if_neg (fun he : k = k2 => h he.symm)]
  | (k3, v3) :: rest, k, k2, v, h => by
    by_cases hk : k3 = k
    · subst hk
      simp only [alSet, if_pos rfl, alGet]
      rw [if_neg (fun he : k3 = k2 => h (he ▸ rfl)), if_neg (fun he : k3 = k2 => h (he ▸ rfl))]
    · simp only [alSet, if_neg hk, alGet]
      by_cases hk2 : k3 = k2
      · rw [if_pos hk2, if_pos hk2]
      · rw [if_neg hk2, if_neg hk2]
        exact alGet_alSet_other rest k k2 v h

theorem setWalk_obj_frame (p0 : String) (rest : List String)
    (kvs : List (String × Json)) (v : Json) (out : Json)
    (h : setWalk (p0 :: rest) (Json.obj kvs) v = .ok out) :
    ∃ kvs2, out = Json.obj kvs2 ∧ ∀ k, k ≠ p0 → alGet kvs2 k = alGet kvs k := by
  cases rest with
  | nil =>
    simp only [setWalk, Except.ok.injEq] at h
    exact ⟨alSet kvs p0 v, h.symm, fun k hk => alGet_alSet_other kvs p0 k v hk⟩
  | cons q rest2 =>
    simp only [setWalk] at h
    cases hget : alGet kvs p0 with
    | none => simp only [hget] at h; cases h
    | some child =>
      simp only [hget] at h
      cases hrec : setWalk (q :: rest2) child v with
      | error e => simp only [hrec] at h; cases h
      | ok child2 =>
        simp only [hrec, Except.ok.injEq] at h
        exact ⟨alSet kvs p0 child2, h.symm,
          fun k hk => alGet_alSet_other kvs p0 k child2 hk⟩

theorem lookupStr_meta_head (k path : String)
    (h : lookupStr SynapseNotebookFormat.meta_properties k = some path) :
    (pySplit path '.').headD "" ∈ ["folder", "nbformat", "nbformat_minor", "metadata"] := by
  simp only [SynapseNotebookFormat.meta_properties, lookupStr] at h
  split_ifs at h <;> simp only [Option.some.injEq] at h <;> subst h <;> decide

theorem splitChars_ne_nil (sep : Char) : ∀ (l : List Char), splitChars sep l ≠ [] := by
  intro l
  cases l with
  | nil => simp [splitChars]
  | cons c rest =>
    simp only [splitChars]
    by_cases hc : c = sep
    · simp [hc]
    · rw [if_neg hc]
      cases splitChars sep rest <;> simp

theorem pySplit_eq_head_cons (s : String) (sep : Char) :
    pySplit s sep = (pySplit s sep).headD "" :: (pySplit s sep).tail := by
  unfold pySplit
  cases hs : splitChars sep s.data with
  | nil => exact absurd hs (splitChars_ne_nil sep s.data)
  | cons x xs => simp

theorem fold_props_frame :
    ∀ (items : List (String × Json)) (P0 : List (String × Json)) (out : Json),
    items.foldlM (fun props kv =>
      match lookupStr SynapseNotebookFormat.meta_properties kv.1 with
      | some path => set_property_value props path kv.2
      | none => pure props) (Json.obj P0) = .ok out →
    ∃ P1, out = Json.obj P1 ∧
      ∀ k, k ≠ "folder" → k ≠ "nbformat" → k ≠ "nbformat_minor" → k ≠ "metadata" →
        alGet P1 k = alGet P0 k := by
  intro items
  induction items with
  | nil =>
    intro P0 out h
    simp only [List.foldlM_nil, pure, Except.pure, Except.ok.injEq] at h
    exact ⟨P0, h.symm, fun k _ _ _ _ => rfl⟩
  | cons kv rest ih =>
    intro P0 out h
    rw [List.foldlM_cons] at h
    simp only [bind, Except.bind] at h
    cases hlook : lookupStr SynapseNotebookFormat.meta_properties kv.1 with
    | none =>
      simp only [hlook, pure, Except.pure] at h
      exact ih P0 out h
    | some path =>
      simp only [hlook] at h
      cases hset : set_property_value (Json.obj P0) path kv.2 with
      | error e => simp only [hset] at h; cases h
      | ok mid =>
        simp only [hset] at h
        have hwalk : setWalk ((pySplit path '.').headD "" :: (pySplit path '.').tail)
            (Json.obj P0) kv.2 = .ok mid := by
          rw [← pySplit_eq_head_cons]
          exact hset
        obtain ⟨Pmid, rfl, hframe⟩ :=
          setWalk_obj_frame ((pySplit path '.').headD "") ((pySplit path '.').tail)
            P0 kv.2 mid hwalk
        obtain ⟨P1, rfl, hframe2⟩ := ih Pmid out h
        refine ⟨P1, rfl, fun k h1 h2 h3 h4 => ?_⟩
        rw [hframe2 k h1 h2 h3 h4]
        apply hframe
        have hmem := lookupStr_meta_head kv.1 path hlook
        simp only [List.mem_cons, List.not_mem_nil, or_false] at hmem
        rcases hmem with he | he | he | he <;> rw [he] <;> assumption

theorem lookupStr_meta_path (k path : String)
    (h : lookupStr SynapseNotebookFormat.meta_properties k = some path) :
    path = "folder.name" ∨ path = "nbformat" ∨ path = "nbformat_minor" ∨
      path = "metadata.language_info.name" := by
  simp only [SynapseNotebookFormat.meta_properties, lookupStr] at h
  split_ifs at h <;> simp only [Option.some.injEq] at h <;> subst h <;> simp

/-- Deep frame between two `properties` maps: all keys off the recognized
top-level keys agree, the `folder` map changes at most at `name`, and the
`metadata` map changes at most under `language_info.name`. -/
def propsFrame (P P2 : List (String × Json)) : Prop :=
  (∀ k, k ≠ "folder" → k ≠ "nbformat" → k ≠ "nbformat_minor" → k ≠ "metadata" →
    alGet P2 k = alGet P k) ∧
  (∀ Fold, alGet P "folder" = some (Json.obj Fold) →
    ∃ Fold2, alGet P2 "folder" = some (Json.obj Fold2) ∧
      ∀ k, k ≠ "name" → alGet Fold2 k = alGet Fold k) ∧
  (∀ Md, alGet P "metadata" = some (Json.obj Md) →
    ∃ Md2, alGet P2 "metadata" = some (Json.obj Md2) ∧
      (∀ k, k ≠ "language_info" → alGet Md2 k = alGet Md k) ∧
      (∀ LI, alGet Md "language_info" = some (Json.obj LI) →
        ∃ LI2, alGet Md2 "language_info" = some (Json.obj LI2) ∧
          ∀ k, k ≠ "name" → alGet LI2 k = alGet LI k))

theorem propsFrame_refl (P : List (String × Json)) : propsFrame P P := by
  refine ⟨fun k _ _ _ _ => rfl, ?_, ?_⟩
  · intro Fold hF
    exact ⟨Fold, hF, fun k _ => rfl⟩
  · intro Md hM
    exact ⟨Md, hM, fun k _ => rfl, fun LI hLI => ⟨LI, hLI, fun k _ => rfl⟩⟩

theorem propsFrame_trans (P Q R : List (String × Json))
    (h1 : propsFrame P Q) (h2 : propsFrame Q R) : propsFrame P R := by
  obtain ⟨a1, b1, c1⟩ := h1
  obtain ⟨a2, b2, c2⟩ := h2
  refine ⟨fun k g1 g2 g3 g4 => (a2 k g1 g2 g3 g4).trans (a1 k g1 g2 g3 g4), ?_, ?_⟩
  · intro Fold hF
    obtain ⟨F2, hF2, hfr1⟩ := b1 Fold hF
    obtain ⟨F3, hF3, hfr2⟩ := b2 F2 hF2
    exact ⟨F3, hF3, fun k hk => (hfr2 k hk).trans (hfr1 k hk)⟩
  · intro Md hM
    obtain ⟨M2, hM2, hmf1, hli1⟩ := c1 Md hM
    obtain ⟨M3, hM3, hmf2, hli2⟩ := c2 M2 hM2
    refine ⟨M3, hM3, fun k hk => (hmf2 k hk).trans (hmf1 k hk), ?_⟩
    intro LI hLI
    obtain ⟨L2, hL2, hlf1⟩ := hli1 LI hLI
    obtain ⟨L3, hL3, hlf2⟩ := hli2 L2 hL2
    exact ⟨L3, hL3, fun k hk => (hlf2 k hk).trans (hlf1 k hk)⟩

theorem propsFrame_set_leaf (P : List (String × Json)) (key : String) (v : Json)
    (hkey : key = "nbformat" ∨ key = "nbformat_minor") :
    propsFrame P (alSet P key v) := by
  refine ⟨?_, ?_, ?_⟩
  · intro k g1 g2 g3 g4
    apply alGet_alSet_other
    rcases hkey with rfl | rfl
    · exact g2
    · exact g3
  · intro Fold hF
    refine ⟨Fold, ?_, fun k _ => rfl⟩
    rw [alGet_alSet_other P key "folder" v (by rcases hkey with rfl | rfl <;> decide)]
    exact hF
  · intro Md hM
    refine ⟨Md, ?_, fun k _ => rfl, fun LI hLI => ⟨LI, hLI, fun k _ => rfl⟩⟩
    rw [alGet_alSet_other P key "metadata" v (by rcases hkey with rfl | rfl <;> decide)]
    exact hM

theorem propsFrame_set_folder (P Fold : List (String × Json)) (v : Json)
    (hF : alGet P "folder" = some (Json.obj Fold)) :
    propsFrame P (alSet P "folder" (Json.obj (alSet Fold "name" v))) := by
  refine ⟨?_, ?_, ?_⟩
  · intro k g1 _ _ _
    exact alGet_alSet_other P "folder" k _ g1
  · intro Fold2 hF2
    have hFeq : Fold2 = Fold := by
      have := hF.symm.trans hF2
      simp only [Option.some.injEq, Json.obj.injEq] at this
      exact this.symm
    subst hFeq
    exact ⟨alSet Fold2 "name" v, alGet_alSet_same P "folder" _,
      fun k hk => alGet_alSet_other Fold2 "name" k v hk⟩
  · intro Md hM
    refine ⟨Md, ?_, fun k _ => rfl, fun LI hLI => ⟨LI, hLI, fun k _ => rfl⟩⟩
    rw [alGet_alSet_other P "folder" "metadata" _ (by decide)]
    exact hM

theorem propsFrame_set_meta (P Md LI : List (String × Json)) (v : Json)
    (hM : alGet P "metadata" = some (Json.obj Md))
    (hLI : alGet Md "language_info" = some (Json.obj LI)) :
    propsFrame P (alSet P "metadata"
      (Json.obj (alSet Md "language_info" (Json.obj (alSet LI "name" v))))) := by
  refine ⟨?_, ?_, ?_⟩
  · intro k _ _ _ g4
    exact alGet_alSet_other P "metadata" k _ g4
  · intro Fold hF
    refine ⟨Fold, ?_, fun k _ => rfl⟩
    rw [alGet_alSet_other P "metadata" "folder" _ (by decide)]
    exact hF
  · intro Md2 hM2
    have hMeq : Md2 = Md := by
      have := hM.symm.trans hM2
      simp only [Option.some.injEq, Json.obj.injEq] at this
      exact this.symm
    subst hMeq
    refine ⟨alSet Md2 "language_info" (Json.obj (alSet LI "name" v)),
      alGet_alSet_same P "metadata" _,
      fun k hk => alGet_alSet_other Md2 "language_info" k _ hk, ?_⟩
    intro LI2 hLI2
    have hLeq : LI2 = LI := by
      have := hLI.symm.trans hLI2
      simp only [Option.some.injEq, Json.obj.injEq] at this
      exact this.symm
    subst hLeq
    exact ⟨alSet LI2 "name" v, alGet_alSet_same Md2 "language_info" _,
      fun k hk => alGet_alSet_other LI2 "name" k v hk⟩

/-- One successful recognized-path write into a `properties` map respects the
deep frame. -/
theorem set_prop_step_frame (P0 : List (String × Json)) (path : String) (v : Json)
    (out : Json)
    (hpath : path = "folder.name" ∨ path = "nbformat" ∨ path = "nbformat_minor" ∨
      path = "metadata.language_info.name")
    (h : set_property_value (Json.obj P0) path v = .ok out) :
    ∃ P1, out = Json.obj P1 ∧ propsFrame P0 P1 := by
  rcases hpath with rfl | rfl | rfl | rfl
  · unfold set_property_value at h
    rw [show pySplit "folder.name" '.' = ["folder", "name"] from by decide] at h
    simp only [setWalk] at h
    cases hF : alGet P0 "folder" with
    | none => simp only [hF] at h; cases h
    | some child =>
      simp only [hF] at h
      cases child with
      | obj Fold =>
        simp only [Except.ok.injEq] at h
        exact ⟨_, h.symm, propsFrame_set_folder P0 Fold v hF⟩
      | null => cases h
      | bool b => cases h
      | int n => cases h
      | float f => cases h
      | str s => cases h
      | arr xs => cases h
  · unfold set_property_value at h
    rw [show pySplit "nbformat" '.' = ["nbformat"] from by decide] at h
    simp only [setWalk, Except.ok.injEq] at h
    exact ⟨_, h.symm, propsFrame_set_leaf P0 "nbformat" v (Or.inl rfl)⟩
  · unfold set_property_value at h
    rw [show pySplit "nbformat_minor" '.' = ["nbformat_minor"] from by decide] at h
    simp only [setWalk, Except.ok.injEq] at h
    exact ⟨_, h.symm, propsFrame_set_leaf P0 "nbformat_minor" v (Or.inr rfl)⟩
  · unfold set_property_value at h
    rw [show pySplit "metadata.language_info.name" '.' =
      ["metadata", "language_info", "name"] from by decide] at h
    simp only [setWalk] at h
    cases hM : alGet P0 "metadata" with
    | none => simp only [hM] at h; cases h
    | some child =>
      simp only [hM] at h
      cases child with
      | obj Md =>
        cases hLI : alGet Md "language_info" with
        | none => simp only [hLI] at h; cases h
        | some child2 =>
          simp only [hLI] at h
          cases child2 with
          | obj LI =>
            simp only [Except.ok.injEq] at h
            exact ⟨_, h.symm, propsFrame_set_meta P0 Md LI v hM hLI⟩
          | null => cases h
          | bool b => cases h
          | int n => cases h
          | float f => cases h
          | str s => cases h
          | arr xs => cases h
      | null => cases h
      | bool b => cases h
      | int n => cases h
      | float f => cases h
      | str s => cases h
      | arr xs => cases h

/-- The whole properties loop of the document writer respects the deep
frame. -/
theorem fold_props_frame_deep :
    ∀ (items : List (String × Json)) (P0 : List (String × Json)) (out : Json),
    items.foldlM (fun props kv =>
      match lookupStr SynapseNotebookFormat.meta_properties kv.1 with
      | some path => set_property_value props path kv.2
      | none => pure props) (Json.obj P0) = .ok out →
    ∃ P1, out = Json.obj P1 ∧ propsFrame P0 P1 := by
  intro items
  induction items with
  | nil =>
    intro P0 out h
    simp only [List.foldlM_nil, pure, Except.pure, Except.ok.injEq] at h
    exact ⟨P0, h.symm, propsFrame_refl P0⟩
  | cons kv rest ih =>
    intro P0 out h
    rw [List.foldlM_cons] at h
    simp only [bind, Except.bind] at h
    cases hlook : lookupStr SynapseNotebookFormat.meta_properties kv.1 with
    | none =>
      simp only [hlook, pure, Except.pure] at h
      exact ih P0 out h
    | some path =>
      simp only [hlook] at h
      cases hset : set_property_value (Json.obj P0) path kv.2 with
      | error e => simp only [hset] at h; cases h
      | ok mid =>
        simp only [hset] at h
        obtain ⟨Pmid, rfl, hstep⟩ := set_prop_step_frame P0 path kv.2 mid
          (lookupStr_meta_path kv.1 path hlook) hset
        obtain ⟨P1, rfl, hrest⟩ := ih Pmid out h
        exact ⟨P1, rfl, propsFrame_trans P0 Pmid P1 hstep hrest⟩

/-- Claim C7 (confirmed, conditional on the write completing).  When the
document writer writes into an existing document that loads as a map with a
map-valued `properties`, only the top-level `name`, the recognized metadata
paths (`folder.name`, `nbformat`, `nbformat_minor`,
`metadata.language_info.name`) and the `cells` path are overwritten: every
other top-level field, every other key of `properties`, every key of
`properties.folder` other than `name`, every key of `properties.metadata`
other than `language_info`, and every key of
`properties.metadata.language_info` other than `name` is preserved
unchanged — in particular an unrecognized top-level `custom: 1`. -/
theorem claim_C7_merge_preserves_other_fields (kvs P : List (String × Json))
    (nb_data : NotebookData) (out : Json)
    (hprops : alGet kvs "properties" = some (Json.obj P))
    (hw : SynapseNotebookFormat.write_file (some (Json.obj kvs)) nb_data = .ok out) :
    ∃ kvs2 P2, out = Json.obj kvs2 ∧
      alGet kvs2 "properties" = some (Json.obj P2) ∧
      (∀ k, k ≠ "name" → k ≠ "properties" → alGet kvs2 k = alGet kvs k) ∧
      (∀ k, k ≠ "folder" → k ≠ "nbformat" → k ≠ "nbformat_minor" → k ≠ "metadata" →
        k ≠ "cells" → alGet P2 k = alGet P k) ∧
      (∀ Fold, alGet P "folder" = some (Json.obj Fold) →
        ∃ Fold2, alGet P2 "folder" = some (Json.obj Fold2) ∧
          ∀ k, k ≠ "name" → alGet Fold2 k = alGet Fold k) ∧
      (∀ Md, alGet P "metadata" = some (Json.obj Md) →
        ∃ Md2, alGet P2 "metadata" = some (Json.obj Md2) ∧
          (∀ k, k ≠ "language_info" → alGet Md2 k = alGet Md k) ∧
          (∀ LI, alGet Md "language_info" = some (Json.obj LI) →
            ∃ LI2, alGet Md2 "language_info" = some (Json.obj LI2) ∧
              ∀ k, k ≠ "name" → alGet LI2 k = alGet LI k)) := by
  unfold SynapseNotebookFormat.write_file at hw
  simp only [bind, Except.bind] at hw
  have hname : set_property_value (Json.obj kvs) "name" nb_data.name =
      .ok (Json.obj (alSet kvs "name" nb_data.name)) := rfl
  simp only [hname] at hw
  have hgetp : pyGetD (Json.obj (alSet kvs "name" nb_data.name)) "properties" (.obj []) =
      .ok (Json.obj P) := by
    simp only [pyGetD]
    rw [alGet_alSet_other kvs "name" "properties" nb_data.name (by decide), hprops]
    rfl
  simp only [hgetp] at hw
  cases hfold : nb_data.properties.foldlM (fun props kv =>
      match lookupStr SynapseNotebookFormat.meta_properties kv.1 with
      | some path => set_property_value props path kv.2
      | none => pure props) (Json.obj P) with
  | error e => simp only [hfold] at hw; cases hw
  | ok propsMid =>
    simp only [hfold] at hw
    obtain ⟨P1, rfl, hdeep⟩ := fold_props_frame_deep nb_data.properties P propsMid hfold
    cases hcells : nb_data.cells.mapM SynapseNotebookFormat.writeCell with
    | error e => simp only [hcells] at hw; cases hw
    | ok cells =>
      simp only [hcells] at hw
      have hsetc : set_property_value (Json.obj P1) "cells" (Json.arr cells) =
          .ok (Json.obj (alSet P1 "cells" (Json.arr cells))) := rfl
      simp only [hsetc] at hw
      have hsetp : set_property_value (Json.obj (alSet kvs "name" nb_data.name))
          "properties" (Json.obj (alSet P1 "cells" (Json.arr cells))) =
          .ok (Json.obj (alSet (alSet kvs "name" nb_data.name) "properties"
            (Json.obj (alSet P1 "cells" (Json.arr cells))))) := rfl
      simp only [hsetp] at hw
      simp only [pure, Except.pure, Except.ok.injEq] at hw
      obtain ⟨hdeep1, hdeep2, hdeep3⟩ := hdeep
      refine ⟨alSet (alSet kvs "name" nb_data.name) "properties"
          (Json.obj (alSet P1 "cells" (Json.arr cells))),
        alSet P1 "cells" (Json.arr cells), hw.symm, ?_, ?_, ?_, ?_, ?_⟩
      · exact alGet_alSet_same _ "properties" _
      · intro k h1 h2
        rw [alGet_alSet_other _ "properties" k _ h2,
          alGet_alSet_other _ "name" k _ h1]
      · intro k h1 h2 h3 h4 h5
        rw [alGet_alSet_other _ "cells" k _ h5]
        exact hdeep1 k h1 h2 h3 h4
      · intro Fold hF
        obtain ⟨F2, hF2, hframe⟩ := hdeep2 Fold hF
        refine ⟨F2, ?_, hframe⟩
        rw [alGet_alSet_other P1 "cells" "folder" _ (by decide)]
        exact hF2
      · intro Md hM
        obtain ⟨M2, hM2, hmf, hli⟩ := hdeep3 Md hM
        refine ⟨M2, ?_, hmf, hli⟩
        rw [alGet_alSet_other P1 "cells" "metadata" _ (by decide)]
        exact hM2

/-- The `properties` map of the concrete C7 document: an unrecognized key
plus `folder`, `metadata` and `metadata.language_info` maps that each carry
an extra field off the recognized paths. -/
def c7P : List (String × Json) :=
  [("keep", Json.int 2),
   ("folder", Json.obj [("name", Json.str "f"), ("id", Json.str "123")]),
   ("metadata", Json.obj [("kernelspec", Json.str "k"),
     ("language_info", Json.obj [("name", Json.str "py"), ("version", Json.str "3")])]),
   ("cells", Json.arr [])]

/-- The top level of the concrete C7 document. -/
def c7kvs : List (String × Json) :=
  [("custom", Json.int 1), ("properties", Json.obj c7P)]

/-- A notebook whose properties actually write through `folder.name` and
`metadata.language_info.name`. -/
def c7nb : NotebookData :=
  ⟨Json.str "nb", [("folder", Json.str "f2"), ("language", Json.str "py2")], []⟩

/-- The document the writer produces for `c7nb` over `c7kvs`: only
`folder.name`, `language_info.name`, `cells` and the top-level `name`
changed. -/
def c7out : Json :=
  Json.obj [("custom", Json.int 1),
    ("properties", Json.obj
      [("keep", Json.int 2),
       ("folder", Json.obj [("name", Json.str "f2"), ("id", Json.str "123")]),
       ("metadata", Json.obj [("kernelspec", Json.str "k"),
         ("language_info", Json.obj [("name", Json.str "py2"), ("version", Json.str "3")])]),
       ("cells", Json.arr [])]),
    ("name", Json.str "nb")]

/-- Witness for claim C7: a concrete push into a document carrying
`custom: 1`, `folder.id`, `metadata.kernelspec` and `language_info.version`
keeps all of them while both deep recognized paths are actually written. -/
theorem claim_C7_merge_preserves_other_fields_witness :
    ∃ kvs2 P2, c7out = Json.obj kvs2 ∧
      alGet kvs2 "properties" = some (Json.obj P2) ∧
      (∀ k, k ≠ "name" → k ≠ "properties" → alGet kvs2 k = alGet c7kvs k) ∧
      (∀ k, k ≠ "folder" → k ≠ "nbformat" → k ≠ "nbformat_minor" → k ≠ "metadata" →
        k ≠ "cells" → alGet P2 k = alGet c7P k) ∧
      (∀ Fold, alGet c7P "folder" = some (Json.obj Fold) →
        ∃ Fold2, alGet P2 "folder" = some (Json.obj Fold2) ∧
          ∀ k, k ≠ "name" → alGet Fold2 k = alGet Fold k) ∧
      (∀ Md, alGet c7P "metadata" = some (Json.obj Md) →
        ∃ Md2, alGet P2 "metadata" = some (Json.obj Md2) ∧
          (∀ k, k ≠ "language_info" → alGet Md2 k = alGet Md k) ∧
          (∀ LI, alGet Md "language_info" = some (Json.obj LI) →
            ∃ LI2, alGet Md2 "language_info" = some (Json.obj LI2) ∧
              ∀ k, k ≠ "name" → alGet LI2 k = alGet LI k)) :=
  claim_C7_merge_preserves_other_fields c7kvs c7P c7nb c7out (by decide) (by decide)

/-! ## Claim C1: utilities -/

/-- Join lines with one newline after each (the shape of all text produced by
the text writer). -/
def joinNl : List String → String
  | [] => ""
  | l :: rest => l ++ "\n" ++ joinNl rest

theorem strAssoc (a b c : String) : a ++ b ++ c = a ++ (b ++ c) := by
  apply String.ext
  simp [String.data_append]

theorem joinNl_append (a b : List String) : joinNl (a ++ b) = joinNl a ++ joinNl b := by
  induction a with
  | nil =>
    apply String.ext
    simp [joinNl, String.data_append]
  | cons l rest ih =>
    rw [show (l :: rest) ++ b = l :: (rest ++ b) from rfl, joinNl, joinNl, ih,
      strAssoc, strAssoc]
    exact (strAssoc _ _ _).symm

theorem data_joinNl_cons (l : String) (rest : List String) :
    (joinNl (l :: rest)).data = l.data ++ '\n' :: (joinNl rest).data := by
  simp [joinNl, String.data_append]

theorem findCharAux_append (c : Char) (xs ys : List Char) (n : Nat) (h : c ∉ xs) :
    findCharAux c (xs ++ c :: ys) n = (n + xs.length : Nat) := by
  induction xs generalizing n with
  | nil => simp [findCharAux]
  | cons x rest ih =>
    have hx : x ≠ c := fun he => h (he ▸ List.mem_cons_self x rest)
    rw [show (x :: rest) ++ c :: ys = x :: (rest ++ c :: ys) from rfl]
    simp only [findCharAux, if_neg hx]
    rw [ih (n + 1) (fun hm => h (List.mem_cons_of_mem x hm))]
    simp only [List.length_cons]
    push_cast
    ring

theorem findCharAux_not_mem (c : Char) (xs : List Char) (n : Nat) (h : c ∉ xs) :
    findCharAux c xs n = -1 := by
  induction xs generalizing n with
  | nil => rfl
  | cons x rest ih =>
    have hx : x ≠ c := fun he => h (he ▸ List.mem_cons_self x rest)
    simp only [findCharAux, if_neg hx]
    exact ih (n + 1) (fun hm => h (List.mem_cons_of_mem x hm))

theorem splitChars_append_sep (sep : Char) (xs ys : List Char) (h : sep ∉ xs) :
    splitChars sep (xs ++ sep :: ys) = xs :: splitChars sep ys := by
  induction xs with
  | nil => simp [splitChars]
  | cons x rest ih =>
    have hx : x ≠ sep := fun he => h (he ▸ List.mem_cons_self x rest)
    rw [show (x :: rest) ++ sep :: ys = x :: (rest ++ sep :: ys) from rfl]
    simp only [splitChars, if_neg hx]
    rw [ih (fun hm => h (List.mem_cons_of_mem x hm))]

theorem splitChars_no_sep (sep : Char) (xs : List Char) (h : sep ∉ xs) :
    splitChars sep xs = [xs] := by
  induction xs with
  | nil => rfl
  | cons x rest ih =>
    have hx : x ≠ sep := fun he => h (he ▸ List.mem_cons_self x rest)
    simp only [splitChars, if_neg hx]
    rw [ih (fun hm => h (List.mem_cons_of_mem x hm))]

theorem pySplit_joinNl (ls : List String) (h : ∀ l ∈ ls, '\n' ∉ l.data) :
    pySplit (joinNl ls) '\n' = ls ++ [""] := by
  induction ls with
  | nil => rfl
  | cons l rest ih =>
    unfold pySplit
    rw [data_joinNl_cons,
      splitChars_append_sep '\n' l.data (joinNl rest).data
        (h l (List.mem_cons_self l rest))]
    simp only [List.map_cons]
    have : (⟨l.data⟩ : String) = l := rfl
    rw [this]
    have ihx := ih (fun x hx => h x (List.mem_cons_of_mem l hx))
    unfold pySplit at ihx
    rw [ihx]
    simp

/-- Updating a key with the value it already holds leaves the dict unchanged. -/
theorem alSet_self : ∀ (kvs : List (String × Json)) (k : String) (v : Json),
    alGet kvs k = some v → alSet kvs k v = kvs
  | [], k, v, h => by simp [alGet] at h
  | (k2, v2) :: rest, k, v, h => by
    by_cases hk : k2 = k
    · simp only [alGet, if_pos hk] at h
      simp only [alSet, if_pos hk]
      cases h
      rw [hk]
    · simp only [alGet, if_neg hk] at h
      simp only [alSet, if_neg hk]
      rw [alSet_self rest k v h]

/-! ## Integer literal round trip -/

/-- Digit characters produced by `natDigitsAux`. -/
def isDigitChar (c : Char) : Bool := '0' ≤ c && c ≤ '9'

theorem char_ofNat_digit (d : Nat) (h : d < 10) :
    (Char.ofNat (48 + d)).toNat = 48 + d ∧ isDigitChar (Char.ofNat (48 + d)) = true ∧
    digitVal (Char.ofNat (48 + d)) = some d := by
  interval_cases d <;> exact ⟨rfl, rfl, rfl⟩

theorem natDigitsAux_all_digits :
    ∀ (fuel m : Nat), m < fuel → ∀ c ∈ natDigitsAux fuel m, isDigitChar c = true := by
  intro fuel
  induction fuel with
  | zero => intro m h; omega
  | succ fuel ih =>
    intro m h c hc
    by_cases hm : m < 10
    · simp only [natDigitsAux, if_pos hm, List.mem_singleton] at hc
      subst hc
      exact (char_ofNat_digit m hm).2.1
    · simp only [natDigitsAux, if_neg hm, List.mem_append, List.mem_singleton] at hc
      rcases hc with hc | hc
      · exact ih (m / 10) (by omega) c hc
      · subst hc
        exact (char_ofNat_digit (m % 10) (by omega)).2.1

theorem natDigitsAux_ne_nil (fuel m : Nat) (h : m < fuel) :
    natDigitsAux fuel m ≠ [] := by
  cases fuel with
  | zero => omega
  | succ fuel =>
    by_cases hm : m < 10
    · simp [natDigitsAux, if_pos hm]
    · simp only [natDigitsAux, if_neg hm]
      intro hcontra
      exact absurd hcontra (by simp)

/-- The digit fold that `parseDigitsCore` computes on plain digit runs. -/
def digitFold (acc : Nat) (l : List Char) : Nat :=
  l.foldl (fun a c => a * 10 + (c.toNat - 48)) acc

theorem digitFold_append (acc : Nat) (a b : List Char) :
    digitFold acc (a ++ b) = digitFold (digitFold acc a) b := by
  simp [digitFold, List.foldl_append]

theorem digitFold_natDigitsAux :
    ∀ (fuel m acc : Nat), m < fuel →
      digitFold acc (natDigitsAux fuel m) = acc * 10 ^ (natDigitsAux fuel m).length + m := by
  intro fuel
  induction fuel with
  | zero => intro m acc h; omega
  | succ fuel ih =>
    intro m acc h
    by_cases hm : m < 10
    · simp only [natDigitsAux, if_pos hm]
      simp [digitFold, (char_ofNat_digit m hm).1]
    · simp only [natDigitsAux, if_neg hm]
      rw [digitFold_append]
      have hdiv : m / 10 < fuel := by omega
      rw [ih (m / 10) acc hdiv]
      simp only [digitFold, List.foldl_cons, List.foldl_nil,
        (char_ofNat_digit (m % 10) (by omega)).1]
      have h48 : 48 + m % 10 - 48 = m % 10 := by omega
      rw [h48]
      simp only [List.length_append, List.length_singleton]
      rw [pow_succ]
      have hm10 : m / 10 * 10 + m % 10 = m := by omega
      ring_nf
      omega

theorem parseDigitsCore_digits :
    ∀ (l : List Char) (acc : Nat), (∀ c ∈ l, isDigitChar c = true) →
      parseDigitsCore l acc = some (digitFold acc l) := by
  intro l
  induction l with
  | nil => intro acc _; simp [parseDigitsCore, digitFold]
  | cons c rest ih =>
    intro acc hall
    have hc : isDigitChar c = true := hall c (List.mem_cons_self c rest)
    have hcne : c ≠ '_' := by
      intro he
      rw [he] at hc
      cases hc
    have hdv : digitVal c = some (c.toNat - 48) := by
      simp only [isDigitChar, Bool.and_eq_true, decide_eq_true_eq] at hc
      simp only [digitVal, if_pos (And.intro hc.1 hc.2)]
    rw [parseDigitsCore.eq_def]
    simp only [if_neg hcne, hdv]
    rw [ih (acc * 10 + (c.toNat - 48)) (fun x hx => hall x (List.mem_cons_of_mem c hx))]
    simp [digitFold]

theorem digit_not_ws (c : Char) (h : isDigitChar c = true) : pyWsChar c = false := by
  simp only [isDigitChar, Bool.and_eq_true, decide_eq_true_eq] at h
  have h48 : 48 ≤ c.toNat := h.1
  simp only [pyWsChar, Bool.or_eq_false_iff, decide_eq_false_iff_not]
  refine ⟨⟨⟨⟨⟨?_, ?_⟩, ?_⟩, ?_⟩, ?_⟩, ?_⟩ <;>
    (intro he; rw [he] at h48; simp at h48)

theorem digit_ne (c : Char) (x : Char) (h : isDigitChar c = true) (hx : x.toNat < 48) :
    c ≠ x := by
  simp only [isDigitChar, Bool.and_eq_true, decide_eq_true_eq] at h
  intro he
  have h48 : 48 ≤ c.toNat := h.1
  rw [he] at h48
  omega

theorem stripEnds_of_none (p : Char → Bool) (l : List Char)
    (h : ∀ c ∈ l, p c = false) : stripEnds p l = l := by
  unfold stripEnds
  rw [dropWhile_of_none p l h, dropWhile_of_none p l.reverse
    (fun c hc => h c (List.mem_reverse.mp hc))]
  simp

theorem pyIntParseCore_digits (digits : List Char) (neg : Bool)
    (hne : digits ≠ []) (hall : ∀ c ∈ digits, isDigitChar c = true) :
    pyIntParseCore digits neg =
      some (if neg then -(digitFold 0 digits : Int) else (digitFold 0 digits : Int)) := by
  cases digits with
  | nil => exact absurd rfl hne
  | cons c rest =>
    have hc := hall c (List.mem_cons_self c rest)
    have hdv : digitVal c = some (c.toNat - 48) := by
      simp only [isDigitChar, Bool.and_eq_true, decide_eq_true_eq] at hc
      simp only [digitVal, if_pos (And.intro hc.1 hc.2)]
    simp only [pyIntParseCore, hdv]
    rw [parseDigitsCore_digits rest (c.toNat - 48)
      (fun x hx => hall x (List.mem_cons_of_mem c hx))]
    have : digitFold 0 (c :: rest) = digitFold (c.toNat - 48) rest := by
      simp [digitFold]
    rw [this]

theorem pyIntParse_pyIntRepr (n : Int) : pyIntParse (pyIntRepr n) = some n := by
  have hdigits : ∀ m : Nat, natDigitsAux (m + 1) m ≠ [] ∧
      (∀ c ∈ natDigitsAux (m + 1) m, isDigitChar c = true) ∧
      digitFold 0 (natDigitsAux (m + 1) m) = m := by
    intro m
    refine ⟨natDigitsAux_ne_nil (m + 1) m (by omega),
      natDigitsAux_all_digits (m + 1) m (by omega), ?_⟩
    rw [digitFold_natDigitsAux (m + 1) m 0 (by omega)]
    simp
  by_cases hn : n < 0
  · have hrepr : pyIntRepr n = "-" ++ ⟨natDigitsAux (n.natAbs + 1) n.natAbs⟩ := by
      simp [pyIntRepr, if_pos hn]
    obtain ⟨hne, hall, hfold⟩ := hdigits n.natAbs
    rw [hrepr]
    unfold pyIntParse
    have hdata : ("-" ++ (⟨natDigitsAux (n.natAbs + 1) n.natAbs⟩ : String)).data =
        '-' :: natDigitsAux (n.natAbs + 1) n.natAbs := by
      rw [String.data_append]
      rfl
    rw [hdata]
    have hnows : ∀ c ∈ '-' :: natDigitsAux (n.natAbs + 1) n.natAbs, pyWsChar c = false := by
      intro c hc
      rcases List.mem_cons.mp hc with he | hm
      · subst he; rfl
      · exact digit_not_ws c (hall c hm)
    rw [stripEnds_of_none pyWsChar _ hnows]
    simp only [if_pos rfl]
    rw [pyIntParseCore_digits _ true hne hall, hfold]
    simp only [if_pos rfl]
    rw [show -((n.natAbs : Int)) = n by omega]
    simp
  · have hrepr : pyIntRepr n = ⟨natDigitsAux (n.natAbs + 1) n.natAbs⟩ := by
      simp [pyIntRepr, if_neg hn]
    obtain ⟨hne, hall, hfold⟩ := hdigits n.natAbs
    rw [hrepr]
    unfold pyIntParse
    have hdata : ((⟨natDigitsAux (n.natAbs + 1) n.natAbs⟩ : String)).data =
        natDigitsAux (n.natAbs + 1) n.natAbs := rfl
    rw [hdata, stripEnds_of_none pyWsChar _ (fun c hc => digit_not_ws c (hall c hc))]
    cases hds : natDigitsAux (n.natAbs + 1) n.natAbs with
    | nil => exact absurd hds hne
    | cons c rest =>
      have hc : isDigitChar c = true := hall c (hds ▸ List.mem_cons_self c rest)
      show (if c = '-' then pyIntParseCore rest true
        else if c = '+' then pyIntParseCore rest false
        else pyIntParseCore (c :: rest) false) = some n
      rw [if_neg (digit_ne c '-' hc (by decide)), if_neg (digit_ne c '+' hc (by decide))]
      rw [← hds, pyIntParseCore_digits _ false hne hall, hfold]
      rw [show ((n.natAbs : Int)) = n by omega]
      simp

/-! ## Claim C1: well-formedness and the codec on safe scalars -/

/-- Scalars that survive the text round trip: integers, and single-line
strings free of double quotes and backslashes. -/
def safeScalar : Json → Bool
  | .int _ => true
  | .str s => !s.data.contains '"' && !s.data.contains '\\' && !s.data.contains '\n'
  | _ => false

theorem contains_false_not_mem (l : List Char) (c : Char) (h : l.contains c = false) :
    c ∉ l := by
  intro hm
  have he := List.elem_eq_true_of_mem hm
  rw [show l.contains c = l.elem c from rfl, he] at h
  cases h

theorem parse_value_value_str_safe (v : Json) (h : safeScalar v = true) :
    parse_value (value_str v) = v := by
  cases v with
  | int n =>
    have hvs : value_str (Json.int n) = pyIntRepr n := by simp [value_str, pyStr]
    rw [hvs]
    unfold parse_value
    have hne : pyIntRepr n ≠ "" := by
      have h1 := natDigitsAux_ne_nil (n.natAbs + 1) n.natAbs (by omega)
      unfold pyIntRepr
      by_cases hn : n < 0
      · rw [if_pos hn]
        intro hcontra
        have := congrArg String.data hcontra
        rw [String.data_append] at this
        cases this
      · rw [if_neg hn]
        intro hcontra
        exact h1 (congrArg String.data hcontra)
    have hhead : ∃ c rest, (pyIntRepr n).data = c :: rest ∧ c ≠ '"' := by
      unfold pyIntRepr
      by_cases hn : n < 0
      · refine ⟨'-', natDigitsAux (n.natAbs + 1) n.natAbs, ?_, by decide⟩
        rw [if_pos hn, String.data_append]
        rfl
      · rw [if_neg hn]
        cases hds : natDigitsAux (n.natAbs + 1) n.natAbs with
        | nil => exact absurd hds (natDigitsAux_ne_nil (n.natAbs + 1) n.natAbs (by omega))
        | cons c rest =>
          refine ⟨c, rest, ?_, ?_⟩
          · rfl
          · exact digit_ne c '"' (natDigitsAux_all_digits (n.natAbs + 1) n.natAbs (by omega)
              c (hds ▸ List.mem_cons_self c rest)) (by decide)
    obtain ⟨c, rest, hdata, hcq⟩ := hhead
    have hsw : pyStartsWith (pyIntRepr n) "\"" = false := by
      unfold pyStartsWith
      rw [hdata]
      rw [show ("\"" : String).data = ['"'] from rfl, isPrefixOf_single]
      exact beq_eq_false_iff_ne.mpr (Ne.symm hcq)
    rw [hsw]
    simp only [Bool.false_and, Bool.false_eq_true, if_neg, pyIntParse_pyIntRepr]
    simp
  | str s =>
    simp only [safeScalar, Bool.and_eq_true, Bool.not_eq_true'] at h
    exact parse_value_value_str_str s (contains_false_not_mem _ _ h.1.1)
      (contains_false_not_mem _ _ h.1.2)
  | null => cases h
  | bool b => cases h
  | float lit => cases h
  | arr xs => cases h
  | obj kvs => cases h

/-! ## Claim C1: slicing and finding on structured lines -/

theorem sliceIdx_ofNat (m n : Nat) : sliceIdx (m : Int) n = min m n := by
  simp [sliceIdx, Int.toNat_ofNat]

theorem pySlice_decompose (s : String) (pre mid post : List Char)
    (h : s.data = pre ++ mid ++ post) :
    pySlice s (pre.length : Int) ((pre.length + mid.length : Nat) : Int) = ⟨mid⟩ := by
  unfold pySlice
  apply String.ext
  simp only [h, sliceIdx_ofNat]
  have hlen : (pre ++ mid ++ post).length = pre.length + mid.length + post.length := by
    simp
    omega
  rw [hlen]
  have h1 : min pre.length (pre.length + mid.length + post.length) = pre.length := by omega
  have h2 : min (pre.length + mid.length) (pre.length + mid.length + post.length) =
      pre.length + mid.length := by omega
  rw [h1, h2]
  have hdrop : (pre ++ mid ++ post).drop pre.length = mid ++ post := by
    rw [List.append_assoc, List.drop_left]
  rw [hdrop]
  have : pre.length + mid.length - pre.length = mid.length := by omega
  rw [this, List.take_left]

theorem pySliceFrom_decompose (s : String) (pre post : List Char)
    (h : s.data = pre ++ post) :
    pySliceFrom s (pre.length : Int) = ⟨post⟩ := by
  unfold pySliceFrom
  have h2 : s.data = pre ++ post ++ [] := by simpa using h
  have hmain := pySlice_decompose s pre post [] h2
  have hlen : s.data.length = pre.length + post.length := by
    rw [h]; simp
  rw [hlen]
  exact hmain

theorem pyFindFrom_decompose (s : String) (c : Char) (pre mid post : List Char)
    (h : s.data = pre ++ (mid ++ c :: post)) (hc : c ∉ mid) :
    pyFindFrom s c (pre.length : Int) = ((pre.length + mid.length : Nat) : Int) := by
  unfold pyFindFrom
  simp only [h, sliceIdx_ofNat]
  have hlen : (pre ++ (mid ++ c :: post)).length =
      pre.length + mid.length + post.length + 1 := by simp; omega
  rw [hlen]
  have h1 : min pre.length (pre.length + mid.length + post.length + 1) = pre.length := by
    omega
  rw [h1, List.drop_left]
  rw [findCharAux_append c mid post pre.length hc]

theorem pyFind_decompose (s : String) (c : Char) (pre post : List Char)
    (h : s.data = pre ++ c :: post) (hc : c ∉ pre) :
    pyFind s c = (pre.length : Int) := by
  unfold pyFind
  have h0 : s.data = ([] : List Char) ++ (pre ++ c :: post) := by simpa using h
  have := pyFindFrom_decompose s c [] pre post h0 hc
  simpa using this

theorem stripEnds_clean (p : Char → Bool) (l : List Char)
    (hhead : ∀ c, l.head? = some c → p c = false)
    (hlast : ∀ c, l.getLast? = some c → p c = false) :
    stripEnds p l = l := by
  unfold stripEnds
  have h1 : l.dropWhile p = l := by
    cases l with
    | nil => rfl
    | cons c rest =>
      simp only [List.dropWhile, hhead c rfl]
  rw [h1]
  have h2 : l.reverse.dropWhile p = l.reverse := by
    cases hr : l.reverse with
    | nil => rfl
    | cons c rest =>
      have : l.getLast? = some c := by
        rw [← List.head?_reverse, hr]
        rfl
      simp only [List.dropWhile, hlast c this]
  rw [h2]
  simp

/-! ## Claim C1: directive line processing -/

namespace ScratchpadNotebookFormat

theorem scratchStep_content (st : SPState) (line : String)
    (h : pyStartsWith line "@" = false) :
    scratchStep st line = contentLine st line := by
  unfold scratchStep
  rw [h]
  simp

theorem scratchStep_meta (st : SPState) (k enc : String)
    (hksp : ' ' ∉ k.data) :
    scratchStep st ("@meta " ++ k ++ " " ++ enc) =
      (if k = "name" then { st with name := parse_value enc }
       else { st with properties := alSet st.properties k (parse_value enc) }) := by
  set L := "@meta " ++ k ++ " " ++ enc with hL
  have hd0 : L.data = "@meta ".data ++ (k.data ++ ' ' :: enc.data) := by
    rw [hL]
    simp only [String.data_append]
    simp [List.append_assoc]
  have hsw : pyStartsWith L "@" = true := by
    unfold pyStartsWith
    rw [hd0]
    simp [List.isPrefixOf]
  have hfind : pyFind L ' ' = ((5 : Nat) : Int) := by
    have hdec : L.data = ['@', 'm', 'e', 't', 'a'] ++ ' ' :: (k.data ++ ' ' :: enc.data) := by
      rw [hd0]; rfl
    have := pyFind_decompose L ' ' ['@', 'm', 'e', 't', 'a'] (k.data ++ ' ' :: enc.data)
      hdec (by decide)
    simpa using this
  have hdir : pyLower (pySlice L 1 (pyFind L ' ')) = "meta" := by
    rw [hfind]
    have hdec : L.data = ['@'] ++ ['m', 'e', 't', 'a'] ++ (' ' :: (k.data ++ ' ' :: enc.data)) := by
      rw [hd0]; rfl
    have := pySlice_decompose L ['@'] ['m', 'e', 't', 'a'] (' ' :: (k.data ++ ' ' :: enc.data)) hdec
    simp only [List.length_cons, List.length_singleton, List.length_nil] at this
    have h15 : pySlice L ((1 : Nat) : Int) ((5 : Nat) : Int) = ⟨['m', 'e', 't', 'a']⟩ := by
      exact_mod_cast this
    rw [show ((1 : Nat) : Int) = (1 : Int) from rfl] at h15
    rw [h15]
    rfl
  have hfind2 : pyFindFrom L ' ' (pyFind L ' ' + 1) = ((6 + k.data.length : Nat) : Int) := by
    rw [hfind]
    have hdec : L.data = "@meta ".data ++ (k.data ++ ' ' :: enc.data) := hd0
    have := pyFindFrom_decompose L ' ' ("@meta ".data) k.data enc.data hdec hksp
    rw [show ("@meta " : String).data.length = 6 from rfl] at this
    rw [show ((5 : Nat) : Int) + 1 = ((6 : Nat) : Int) from rfl]
    exact this
  have hname : pySlice L (pyFind L ' ' + 1) (pyFindFrom L ' ' (pyFind L ' ' + 1)) = k := by
    rw [hfind2, hfind]
    have hdec : L.data = "@meta ".data ++ k.data ++ (' ' :: enc.data) := by
      rw [hd0]; simp [List.append_assoc]
    have := pySlice_decompose L ("@meta ".data) k.data (' ' :: enc.data) hdec
    rw [show ("@meta " : String).data.length = 6 from rfl] at this
    rw [show ((5 : Nat) : Int) + 1 = ((6 : Nat) : Int) from rfl]
    rw [this]
  have hvalue : pySliceFrom L (pyFindFrom L ' ' (pyFind L ' ' + 1) + 1) = enc := by
    rw [hfind2]
    have hdec : L.data = ("@meta ".data ++ k.data ++ [' ']) ++ enc.data := by
      rw [hd0]; simp [List.append_assoc]
    have := pySliceFrom_decompose L ("@meta ".data ++ k.data ++ [' ']) enc.data hdec
    have hlen : ("@meta ".data ++ k.data ++ [' ']).length = 6 + k.data.length + 1 := by
      simp [show ("@meta " : String).data.length = 6 from rfl]
      omega
    rw [hlen] at this
    rw [show ((6 + k.data.length : Nat) : Int) + 1 = ((6 + k.data.length + 1 : Nat) : Int)
      from by push_cast; ring]
    exact this
  unfold scratchStep
  rw [if_pos hsw]
  simp only [hdir]
  rw [if_pos trivial]
  simp only [metaLine]
  rw [hname, hvalue]
  exact if_neg (by decide)

end ScratchpadNotebookFormat

theorem foldlJoin_shift (sep : String) :
    ∀ (rest : List String) (a b : String),
      rest.foldl (fun x q => x ++ sep ++ q) (a ++ b) =
        a ++ rest.foldl (fun x q => x ++ sep ++ q) b := by
  intro rest
  induction rest with
  | nil => intro a b; rfl
  | cons q rest ih =>
    intro a b
    simp only [List.foldl_cons]
    rw [strAssoc (a ++ b) sep q, strAssoc a b (sep ++ q), ← strAssoc b sep q, ih]

theorem pyJoin_cons_cons (sep : String) (t q : String) (rest : List String) :
    pyJoin sep (t :: q :: rest) = t ++ sep ++ pyJoin sep (q :: rest) := by
  simp only [pyJoin, List.foldl_cons]
  rw [show t ++ sep ++ q = (t ++ sep) ++ q from rfl, foldlJoin_shift sep rest (t ++ sep) q,
    strAssoc]

theorem mem_pyJoin_comma (tags : List String) (c : Char) (hc : c ≠ ',')
    (h : ∀ t ∈ tags, c ∉ t.data) : c ∉ (pyJoin "," tags).data := by
  induction tags with
  | nil => simp [pyJoin]
  | cons t rest ih =>
    cases rest with
    | nil =>
      simpa [pyJoin] using h t (List.mem_cons_self t [])
    | cons q rest2 =>
      rw [pyJoin_cons_cons]
      simp only [String.data_append, List.mem_append]
      intro hmem
      rcases hmem with (hm | hm) | hm
      · exact h t (List.mem_cons_self t _) hm
      · simp only [List.mem_singleton] at hm
        exact hc hm
      · exact ih (fun x hx => h x (List.mem_cons_of_mem t hx)) hm

theorem pySplit_pyJoin_comma :
    ∀ (tags : List String), tags ≠ [] → (∀ t ∈ tags, ',' ∉ t.data) →
      pySplit (pyJoin "," tags) ',' = tags := by
  intro tags
  induction tags with
  | nil => intro h; exact absurd rfl h
  | cons t rest ih =>
    intro _ hall
    cases rest with
    | nil =>
      unfold pySplit
      rw [show pyJoin "," [t] = t from rfl,
        splitChars_no_sep ',' t.data (hall t (List.mem_cons_self t []))]
      simp
    | cons q rest2 =>
      unfold pySplit
      rw [pyJoin_cons_cons]
      have hdata : (t ++ "," ++ pyJoin "," (q :: rest2)).data =
          t.data ++ ',' :: (pyJoin "," (q :: rest2)).data := by
        simp only [String.data_append]
        simp
      rw [hdata, splitChars_append_sep ',' t.data _ (hall t (List.mem_cons_self t _))]
      simp only [List.map_cons]
      rw [show (⟨t.data⟩ : String) = t from rfl]
      have ihx := ih (by simp) (fun x hx => hall x (List.mem_cons_of_mem t hx))
      unfold pySplit at ihx
      rw [ihx]

theorem pySlice_one_neg_one (a : Char) (mid : List Char) (b : Char) :
    pySlice ⟨a :: (mid ++ [b])⟩ 1 (-1) = ⟨mid⟩ := by
  apply String.ext
  simp only [pySlice]
  have hlen : (⟨a :: (mid ++ [b])⟩ : String).data.length = mid.length + 2 := by
    simp
  rw [hlen]
  have h1 : sliceIdx 1 (mid.length + 2) = 1 := by
    simp [sliceIdx]
  have h2 : sliceIdx (-1) (mid.length + 2) = mid.length + 1 := by
    simp only [sliceIdx, if_pos (by omega : (-1 : Int) < 0)]
    omega
  rw [h1, h2]
  show ((a :: (mid ++ [b])).drop 1).take (mid.length + 1 - 1) = mid
  simp

namespace ScratchpadNotebookFormat

theorem scratchStep_cell (st : SPState) (ty : String) (tags : List String)
    (htyne : ty.data ≠ [])
    (htyws : ∀ c ∈ ty.data, pyWsChar c = false)
    (htybr1 : '[' ∉ ty.data) (htybr2 : ']' ∉ ty.data)
    (htagsne : tags ≠ [])
    (htagc : ∀ t ∈ tags, ',' ∉ t.data)
    (htagb1 : ∀ t ∈ tags, '[' ∉ t.data) (htagb2 : ∀ t ∈ tags, ']' ∉ t.data)
    (htagst : ∀ t ∈ tags, pyStrip t = t)
    (htagne : ∀ t ∈ tags, t ≠ "") :
    scratchStep st ("@cell " ++ ty ++ " [" ++ pyJoin "," tags ++ "]") =
      { st with finished := st.finished ++ st.current.toList,
                current := some ⟨Json.str ty, "", Json.arr (tags.map Json.str)⟩ } := by
  set J := pyJoin "," tags with hJ
  set L := "@cell " ++ ty ++ " [" ++ J ++ "]" with hL
  have hJbr1 : '[' ∉ J.data := mem_pyJoin_comma tags '[' (by decide) htagb1
  have hJbr2 : ']' ∉ J.data := mem_pyJoin_comma tags ']' (by decide) htagb2
  have hd0 : L.data = "@cell ".data ++ (ty.data ++ ' ' :: '[' :: (J.data ++ [']'])) := by
    rw [hL]
    simp only [String.data_append]
    simp [List.append_assoc]
  have hsw : pyStartsWith L "@" = true := by
    unfold pyStartsWith
    rw [hd0]
    simp [List.isPrefixOf]
  have hfind : pyFind L ' ' = ((5 : Nat) : Int) := by
    have htysp : ' ' ∉ ty.data := fun hm => by
      have := htyws ' ' hm
      simp [pyWsChar] at this
    have hdec : L.data = ['@', 'c', 'e', 'l', 'l'] ++
        ' ' :: (ty.data ++ ' ' :: '[' :: (J.data ++ [']'])) := by
      rw [hd0]; rfl
    have := pyFind_decompose L ' ' ['@', 'c', 'e', 'l', 'l']
      (ty.data ++ ' ' :: '[' :: (J.data ++ [']'])) hdec (by decide)
    simpa using this
  have hdir : pyLower (pySlice L 1 (pyFind L ' ')) = "cell" := by
    rw [hfind]
    have hdec : L.data = ['@'] ++ ['c', 'e', 'l', 'l'] ++
        (' ' :: (ty.data ++ ' ' :: '[' :: (J.data ++ [']']))) := by
      rw [hd0]; rfl
    have := pySlice_decompose L ['@'] ['c', 'e', 'l', 'l'] _ hdec
    simp only [List.length_cons, List.length_singleton, List.length_nil] at this
    have h15 : pySlice L ((1 : Nat) : Int) ((5 : Nat) : Int) = ⟨['c', 'e', 'l', 'l']⟩ := by
      exact_mod_cast this
    rw [show ((1 : Nat) : Int) = (1 : Int) from rfl] at h15
    rw [h15]
    rfl
  have hslice6 : pySliceFrom L 6 = ⟨ty.data ++ ' ' :: '[' :: (J.data ++ [']'])⟩ := by
    have := pySliceFrom_decompose L ("@cell ".data) (ty.data ++ ' ' :: '[' :: (J.data ++ [']'])) hd0
    rw [show ("@cell " : String).data.length = 6 from rfl] at this
    rw [show (6 : Int) = ((6 : Nat) : Int) from rfl]
    exact this
  set cdData := ty.data ++ ' ' :: '[' :: (J.data ++ [']']) with hcd
  have hstrip : pyStrip ⟨cdData⟩ = ⟨cdData⟩ := by
    apply String.ext
    show stripEnds pyWsChar cdData = cdData
    apply stripEnds_clean
    · intro c hc
      rw [hcd] at hc
      cases hty : ty.data with
      | nil => exact absurd hty htyne
      | cons c0 rest0 =>
        rw [hty] at hc
        simp only [List.cons_append, List.head?_cons, Option.some.injEq] at hc
        subst hc
        exact htyws c0 (hty ▸ List.mem_cons_self c0 rest0)
    · intro c hc
      rw [hcd] at hc
      have : cdData.getLast? = some ']' := by
        rw [hcd]
        rw [show ty.data ++ ' ' :: '[' :: (J.data ++ [']']) =
          (ty.data ++ ' ' :: '[' :: J.data) ++ [']'] from by simp]
        exact List.getLast?_concat _
      rw [hcd] at this
      rw [this] at hc
      cases hc
      rfl
  have hcontains : pyContainsChar ⟨cdData⟩ '[' = true := by
    unfold pyContainsChar
    show cdData.contains '[' = true
    rw [show cdData.contains '[' = cdData.elem '[' from rfl]
    exact List.elem_eq_true_of_mem (by rw [hcd]; simp)
  have hhead : (pySplit ⟨cdData⟩ ' ').headD "" = ty := by
    unfold pySplit
    have hdec : cdData = ty.data ++ ' ' :: ('[' :: (J.data ++ [']'])) := by rw [hcd]
    have htysp : ' ' ∉ ty.data := fun hm => by
      have := htyws ' ' hm
      simp [pyWsChar] at this
    rw [show (⟨cdData⟩ : String).data = cdData from rfl, hdec,
      splitChars_append_sep ' ' ty.data _ htysp]
    simp
  have hfindbr : pyFind ⟨cdData⟩ '[' = ((ty.data.length + 1 : Nat) : Int) := by
    have hdec : (⟨cdData⟩ : String).data = (ty.data ++ [' ']) ++ '[' :: (J.data ++ [']']) := by
      show cdData = _
      rw [hcd]; simp
    have hpre : '[' ∉ ty.data ++ [' '] := by
      simp only [List.mem_append, List.mem_singleton]
      rintro (hm | hm)
      · exact htybr1 hm
      · cases hm
    have := pyFind_decompose ⟨cdData⟩ '[' (ty.data ++ [' ']) (J.data ++ [']']) hdec hpre
    simpa using this
  have hfindcb : pyFind ⟨cdData⟩ ']' = ((ty.data.length + 2 + J.data.length : Nat) : Int) := by
    have hdec : (⟨cdData⟩ : String).data =
        (ty.data ++ ' ' :: '[' :: J.data) ++ ']' :: [] := by
      show cdData = _
      rw [hcd]; simp
    have hpre : ']' ∉ ty.data ++ ' ' :: '[' :: J.data := by
      simp only [List.mem_append, List.mem_cons]
      rintro (hm | hm | hm | hm)
      · exact htybr2 hm
      · cases hm
      · cases hm
      · exact hJbr2 hm
    have := pyFind_decompose ⟨cdData⟩ ']' (ty.data ++ ' ' :: '[' :: J.data) [] hdec hpre
    rw [this]
    congr 1
    simp
    omega
  have htagpart : pySlice ⟨cdData⟩ (pyFind ⟨cdData⟩ '[') (pyFind ⟨cdData⟩ ']' + 1) =
      ⟨'[' :: (J.data ++ [']'])⟩ := by
    rw [hfindbr, hfindcb]
    have hdec : (⟨cdData⟩ : String).data =
        (ty.data ++ [' ']) ++ ('[' :: (J.data ++ [']'])) ++ [] := by
      show cdData = _
      rw [hcd]; simp
    have := pySlice_decompose ⟨cdData⟩ (ty.data ++ [' ']) ('[' :: (J.data ++ [']'])) [] hdec
    have hlen1 : (ty.data ++ [' ']).length = ty.data.length + 1 := by simp
    rw [hlen1] at this
    have hlen2 : ty.data.length + 1 + ('[' :: (J.data ++ [']'])).length =
        ty.data.length + 2 + J.data.length + 1 := by simp; omega
    rw [hlen2] at this
    rw [show ((ty.data.length + 2 + J.data.length : Nat) : Int) + 1 =
      ((ty.data.length + 2 + J.data.length + 1 : Nat) : Int) from by push_cast; ring]
    exact this
  have hinner : pySlice ⟨'[' :: (J.data ++ [']'])⟩ 1 (-1) = J := by
    have := pySlice_one_neg_one '[' J.data ']'
    rw [this]
  have hmapstrip : ∀ (l : List String), (∀ t ∈ l, pyStrip t = t) → l.map pyStrip = l := by
    intro l
    induction l with
    | nil => intro _; rfl
    | cons t rest ih =>
      intro h
      simp only [List.map_cons, h t (List.mem_cons_self t rest),
        ih (fun x hx => h x (List.mem_cons_of_mem t hx))]
  have hfilter : ∀ (l : List String), (∀ t ∈ l, t ≠ "") → l.filter (fun t => t ≠ "") = l := by
    intro l
    induction l with
    | nil => intro _; rfl
    | cons t rest ih =>
      intro h
      rw [List.filter_cons]
      rw [if_pos (by simpa using h t (List.mem_cons_self t rest))]
      rw [ih (fun x hx => h x (List.mem_cons_of_mem t hx))]
  have hsplittags : (((pySplit J ',').map pyStrip).filter (fun t => t ≠ "")) = tags := by
    rw [hJ, pySplit_pyJoin_comma tags htagsne htagc, hmapstrip tags htagst,
      hfilter tags htagne]
  unfold scratchStep
  rw [if_pos hsw]
  simp only [hdir]
  rw [if_pos trivial]
  simp only [cellLine]
  rw [hslice6, hstrip, hhead, if_pos hcontains, htagpart, hinner, hsplittags]

end ScratchpadNotebookFormat

/-! ## Claim C1: running the text reader over writer output -/

theorem str_append_empty (s : String) : s ++ "" = s := by
  apply String.ext
  simp [String.data_append]

theorem str_empty_append (s : String) : "" ++ s = s := by
  apply String.ext
  simp [String.data_append]

namespace ScratchpadNotebookFormat

theorem foldl_content_lines :
    ∀ (ls : List String), (∀ l ∈ ls, pyStartsWith l "@" = false) →
    ∀ (nm : Json) (pr : List (String × Json)) (done : List NotebookCellData)
      (c : NotebookCellData),
    ls.foldl scratchStep ⟨nm, pr, done, some c⟩ =
      ⟨nm, pr, done, some { c with contents := c.contents ++ joinNl ls }⟩ := by
  intro ls
  induction ls with
  | nil =>
    intro _ nm pr done c
    simp only [List.foldl_nil, joinNl, str_append_empty]
  | cons l rest ih =>
    intro h nm pr done c
    rw [List.foldl_cons, scratchStep_content _ _ (h l (List.mem_cons_self l rest))]
    show rest.foldl scratchStep
        ⟨nm, pr, done, some { c with contents := c.contents ++ l ++ "\n" }⟩ = _
    rw [ih (fun x hx => h x (List.mem_cons_of_mem l hx)) nm pr done
      { c with contents := c.contents ++ l ++ "\n" }]
    simp only [joinNl]
    rw [strAssoc c.contents l "\n", strAssoc c.contents (l ++ "\n") (joinNl rest),
      strAssoc l "\n" (joinNl rest)]

/-- Parameters of one written cell chunk: type token, tags, and the content
lines of the cell (the blank separator line the writer adds is appended by
`cellChunk`). -/
structure CellParam where
  ty : String
  tags : List String
  body : List String
  deriving Repr

/-- The lines a written cell contributes to the text file: the directive
line, the content lines, and the blank separator. -/
def cellChunk (p : CellParam) : List String :=
  ("@cell " ++ p.ty ++ " [" ++ pyJoin "," p.tags ++ "]") :: (p.body ++ [""])

/-- Well-formedness of a written cell chunk for exact re-reading. -/
def CellParamWF (p : CellParam) : Prop :=
  p.ty.data ≠ [] ∧ (∀ c ∈ p.ty.data, pyWsChar c = false) ∧
  '[' ∉ p.ty.data ∧ ']' ∉ p.ty.data ∧
  p.tags ≠ [] ∧
  (∀ t ∈ p.tags, ',' ∉ t.data) ∧ (∀ t ∈ p.tags, '[' ∉ t.data) ∧
  (∀ t ∈ p.tags, ']' ∉ t.data) ∧ (∀ t ∈ p.tags, pyStrip t = t) ∧
  (∀ t ∈ p.tags, t ≠ "") ∧
  (∀ l ∈ p.body, pyStartsWith l "@" = false)

/-- The cell produced by re-reading one chunk: the blank separator line ends
up as one extra newline on the contents. -/
def expectedCell (p : CellParam) : NotebookCellData :=
  ⟨Json.str p.ty, joinNl (p.body ++ [""]), Json.arr (p.tags.map Json.str)⟩

theorem foldl_cell_chunk (p : CellParam) (hwf : CellParamWF p) (st : SPState) :
    (cellChunk p).foldl scratchStep st =
      ⟨st.name, st.properties, st.finished ++ st.current.toList, some (expectedCell p)⟩ := by
  obtain ⟨h1, h2, h3, h4, h5, h6, h7, h8, h9, h10, h11⟩ := hwf
  have h11x : ∀ l ∈ p.body ++ [""], pyStartsWith l "@" = false := by
    intro l hl
    rcases List.mem_append.mp hl with hm | hm
    · exact h11 l hm
    · simp only [List.mem_singleton] at hm
      subst hm
      decide
  unfold cellChunk
  rw [List.foldl_cons, scratchStep_cell st p.ty p.tags h1 h2 h3 h4 h5 h6 h7 h8 h9 h10]
  rw [foldl_content_lines (p.body ++ [""]) h11x st.name st.properties
    (st.finished ++ st.current.toList)
    ⟨Json.str p.ty, "", Json.arr (p.tags.map Json.str)⟩]
  show SPState.mk _ _ _ (some ⟨Json.str p.ty, "" ++ joinNl (p.body ++ [""]), _⟩) = _
  rw [str_empty_append]
  rfl

theorem foldl_chunks :
    ∀ (ps : List CellParam) (p0 : CellParam), (∀ p ∈ p0 :: ps, CellParamWF p) →
    ∀ (st : SPState),
    ((p0 :: ps).map cellChunk).flatten.foldl scratchStep st =
      ⟨st.name, st.properties,
       st.finished ++ st.current.toList ++ ((p0 :: ps).dropLast.map expectedCell),
       some (expectedCell ((p0 :: ps).getLast (by simp)))⟩ := by
  intro ps
  induction ps with
  | nil =>
    intro p0 hwf st
    simp only [List.map_cons, List.map_nil, List.flatten_cons, List.flatten_nil,
      List.append_nil]
    rw [foldl_cell_chunk p0 (hwf p0 (List.mem_cons_self p0 [])) st]
    simp
  | cons q rest ih =>
    intro p0 hwf st
    have hjoin : ((p0 :: q :: rest).map cellChunk).flatten =
        cellChunk p0 ++ ((q :: rest).map cellChunk).flatten := by
      simp
    rw [hjoin, List.foldl_append,
      foldl_cell_chunk p0 (hwf p0 (List.mem_cons_self p0 _)) st,
      ih q (fun p hp => hwf p (List.mem_cons_of_mem p0 hp))]
    simp only [SPState.mk.injEq, true_and]
    constructor
    · simp [List.dropLast]
    · conv_rhs => rw [List.getLast_cons (by simp : q :: rest ≠ [])]

/-- The text line a property contributes. -/
def metaLineOf (kv : String × Json) : String := "@meta " ++ kv.1 ++ " " ++ value_str kv.2

/-- The canonical cell the document reader hands to the text writer for a
chunk parameter. -/
def writerCell (p : CellParam) : NotebookCellData :=
  ⟨Json.str p.ty, joinNl p.body, Json.arr (p.tags.map Json.str)⟩

theorem mapM_str_ok (l : List String) :
    (l.map Json.str).mapM (fun it =>
      match it with
      | Json.str s => Except.ok s
      | _ => Except.error PyExn.typeError) = Except.ok l := by
  induction l with
  | nil => rfl
  | cons s rest ih =>
    rw [List.map_cons, List.mapM_cons]
    simp only [bind, Except.bind, ih, pure, Except.pure]

theorem joinAttrs_strs (l : List String) :
    joinAttrs (Json.arr (l.map Json.str)) = .ok (pyJoin "," l) := by
  unfold joinAttrs
  simp only [pyIter, bind, Except.bind, mapM_str_ok, pure, Except.pure]

theorem foldl_meta_text (props : List (String × Json)) :
    ∀ acc, props.foldl
        (fun acc kv => acc ++ "@meta " ++ kv.1 ++ " " ++ value_str kv.2 ++ "\n") acc =
      acc ++ joinNl (props.map metaLineOf) := by
  induction props with
  | nil =>
    intro acc
    simp only [List.foldl_nil, List.map_nil, joinNl, str_append_empty]
  | cons kv rest ih =>
    intro acc
    rw [List.foldl_cons, ih, List.map_cons]
    apply String.ext
    simp [joinNl, metaLineOf, String.data_append, List.append_assoc]

theorem writeCellText_chunk (acc : String) (p : CellParam) (hne2 : p.tags ≠ []) :
    writeCellText acc (writerCell p) = Except.ok (acc ++ joinNl (cellChunk p)) := by
  have hlen : pyLen (writerCell p).attributes = .ok p.tags.length := by
    simp [writerCell, pyLen]
  have hne : p.tags.length ≠ 0 := by
    intro hz
    exact hne2 (List.eq_nil_of_length_eq_zero hz)
  have hja : joinAttrs (writerCell p).attributes = .ok (pyJoin "," p.tags) :=
    joinAttrs_strs p.tags
  unfold writeCellText
  simp only [hlen, bind, Except.bind, pure, Except.pure, hja, if_pos hne]
  congr 1
  unfold cellChunk writerCell
  apply String.ext
  simp only [String.data_append]
  rw [joinNl, joinNl_append]
  simp [String.data_append, joinNl, List.append_assoc, pyStr]

theorem foldlM_cells_text (ps : List CellParam) (htags : ∀ p ∈ ps, p.tags ≠ []) :
    ∀ acc, (ps.map writerCell).foldlM writeCellText acc =
      .ok (acc ++ joinNl ((ps.map cellChunk).flatten)) := by
  induction ps with
  | nil =>
    intro acc
    simp only [List.map_nil, List.foldlM_nil, List.flatten_nil, joinNl, str_append_empty]
    rfl
  | cons p rest ih =>
    intro acc
    rw [List.map_cons, List.foldlM_cons,
      writeCellText_chunk acc p (htags p (List.mem_cons_self p rest))]
    simp only [bind, Except.bind]
    rw [ih (fun q hq => htags q (List.mem_cons_of_mem p hq))]
    congr 1
    have hflat : ((p :: rest).map cellChunk).flatten =
        cellChunk p ++ (rest.map cellChunk).flatten := by simp
    rw [hflat, joinNl_append]
    apply String.ext
    simp [String.data_append, List.append_assoc]

theorem scratch_write_structured (nm : Json) (props : List (String × Json))
    (ps : List CellParam) (htags : ∀ p ∈ ps, p.tags ≠ []) :
    write_file ⟨nm, props, ps.map writerCell⟩ =
      .ok (joinNl (("@meta name " ++ value_str nm) ::
        (props.map metaLineOf ++ (ps.map cellChunk).flatten))) := by
  unfold write_file
  simp only [bind, Except.bind]
  rw [foldl_meta_text props ("@meta name " ++ value_str nm ++ "\n")]
  rw [foldlM_cells_text ps htags]
  simp only [pure, Except.pure, Except.ok.injEq]
  rw [joinNl, joinNl_append]
  apply String.ext
  simp [String.data_append, List.append_assoc]

/-! ## Claim C1: file-system update lemmas and newline-join utilities -/

theorem fsGet_fsSet_same : ∀ (fs : FS) (p : String) (f : FileVal),
    fsGet (fsSet fs p f) p = some f
  | [], p, f => by simp [fsSet, fsGet]
  | (p2, f2) :: rest, p, f => by
    by_cases h : p2 = p
    · simp [fsSet, fsGet, h]
    · simp only [fsSet, if_neg h, fsGet, if_neg h]
      exact fsGet_fsSet_same rest p f

theorem fsGet_fsSet_other : ∀ (fs : FS) (p q : String) (f : FileVal), p ≠ q →
    fsGet (fsSet fs p f) q = fsGet fs q
  | [], p, q, f, h => by simp [fsSet, fsGet, h]
  | (p2, f2) :: rest, p, q, f, h => by
    by_cases h2 : p2 = p
    · subst h2
      simp [fsSet, fsGet, h]
    · simp only [fsSet, if_neg h2, fsGet]
      by_cases h3 : p2 = q
      · simp [h3]
      · simp only [if_neg h3]
        exact fsGet_fsSet_other rest p q f h

/-- Python `'\n'.join`: a newline between lines, none at the end. -/
def sepNl : List String → String
  | [] => ""
  | [l] => l
  | l :: rest => l ++ "\n" ++ sepNl rest

theorem sepNl_cons2 (l r : String) (rest : List String) :
    sepNl (l :: r :: rest) = l ++ "\n" ++ sepNl (r :: rest) := rfl

theorem joinNl_eq_sepNl : ∀ (l : String) (rest : List String),
    joinNl (l :: rest) = sepNl (l :: rest) ++ "\n"
  | l, [] => by
    show l ++ "\n" ++ joinNl [] = sepNl [l] ++ "\n"
    rw [show joinNl [] = "" from rfl, str_append_empty]
    rfl
  | l, r :: rest => by
    rw [joinNl, joinNl_eq_sepNl r rest, sepNl_cons2]
    apply String.ext
    simp [String.data_append, List.append_assoc]

theorem pySplit_sepNl : ∀ (l : String) (rest : List String),
    (∀ s ∈ l :: rest, '\n' ∉ s.data) →
    pySplit (sepNl (l :: rest)) '\n' = l :: rest
  | l, [], h => by
    show pySplit l '\n' = [l]
    unfold pySplit
    rw [splitChars_no_sep '\n' l.data (h l (List.mem_cons_self l []))]
    rw [List.map_cons, List.map_nil]
  | l, r :: rest, h => by
    unfold pySplit
    have hd : (sepNl (l :: r :: rest)).data = l.data ++ '\n' :: (sepNl (r :: rest)).data := by
      rw [sepNl_cons2]
      simp [String.data_append]
    rw [hd, splitChars_append_sep '\n' l.data (sepNl (r :: rest)).data
      (h l (List.mem_cons_self l (r :: rest)))]
    rw [List.map_cons]
    have ih := pySplit_sepNl r rest (fun s hs => h s (List.mem_cons_of_mem l hs))
    unfold pySplit at ih
    rw [ih]

theorem dropWhile_of_all (p : Char → Bool) :
    ∀ (l : List Char), (∀ x ∈ l, p x = true) → l.dropWhile p = []
  | [], _ => rfl
  | x :: rest, h => by
    simp only [List.dropWhile, h x (List.mem_cons_self x rest)]
    exact dropWhile_of_all p rest (fun y hy => h y (List.mem_cons_of_mem x hy))

/-- A string whose final character is not one of the stripped characters
(`rstrip` leaves it untouched). -/
def endsClean (s : String) (chars : List Char) : Bool :=
  match s.data.reverse with
  | [] => false
  | c :: _ => !chars.contains c

theorem endsClean_append (pre post : List Char) (chars : List Char)
    (h : endsClean ⟨post⟩ chars = true) : endsClean ⟨pre ++ post⟩ chars = true := by
  unfold endsClean at h ⊢
  cases hrev : post.reverse with
  | nil =>
    rw [show (⟨post⟩ : String).data = post from rfl, hrev] at h
    cases h
  | cons c cs =>
    rw [show (⟨post⟩ : String).data = post from rfl, hrev] at h
    rw [show (⟨pre ++ post⟩ : String).data = pre ++ post from rfl, List.reverse_append, hrev]
    exact h

theorem pyRstrip_clean_junk (chars : List Char) (core junk : List Char)
    (hclean : endsClean ⟨core⟩ chars = true)
    (hjunk : ∀ x ∈ junk, chars.contains x = true) :
    pyRstrip ⟨core ++ junk⟩ chars = ⟨core⟩ := by
  unfold pyRstrip
  apply String.ext
  show ((⟨core ++ junk⟩ : String).data.reverse.dropWhile (fun c => chars.contains c)).reverse
      = core
  rw [show (⟨core ++ junk⟩ : String).data = core ++ junk from rfl, List.reverse_append]
  rw [dropWhile_append_of_left_nil _ _ _
    (dropWhile_of_all _ _ (fun x hx => hjunk x (List.mem_reverse.mp hx)))]
  unfold endsClean at hclean
  rw [show (⟨core⟩ : String).data = core from rfl] at hclean
  cases hrev : core.reverse with
  | nil =>
    rw [hrev] at hclean
    cases hclean
  | cons c cs =>
    rw [hrev] at hclean
    simp only [Bool.not_eq_true'] at hclean
    simp only [List.dropWhile, hclean]
    have := congrArg List.reverse hrev
    rw [List.reverse_reverse] at this
    rw [this]

theorem pyRstrip_nl_append (b : String) (h : '\n' ∉ b.data) :
    pyRstrip (b ++ "\n") ['\n'] = b := by
  unfold pyRstrip
  apply String.ext
  show ((b ++ "\n").data.reverse.dropWhile (fun c => List.contains ['\n'] c)).reverse = b.data
  rw [String.data_append, show ("\n" : String).data = ['\n'] from rfl, List.reverse_append]
  rw [dropWhile_append_of_left_nil _ _ _ (by decide)]
  rw [dropWhile_of_none _ _ ?hnone]
  · rw [List.reverse_reverse]
  case hnone =>
    intro x hx
    have hxb : x ∈ b.data := List.mem_reverse.mp hx
    have hxne : x ≠ '\n' := fun he => h (he ▸ hxb)
    show List.elem x ['\n'] = false
    simp [List.elem, beq_eq_false_iff_ne.mpr hxne]

theorem value_str_no_nl (v : Json) (h : safeScalar v = true) :
    '\n' ∉ (value_str v).data := by
  cases v with
  | int n =>
    have hvs : value_str (Json.int n) = pyIntRepr n := by simp [value_str, pyStr]
    rw [hvs]
    unfold pyIntRepr
    by_cases hn : n < 0
    · rw [if_pos hn, String.data_append]
      intro hm
      rcases List.mem_append.mp hm with hm | hm
      · exact absurd hm (by decide)
      · exact absurd (natDigitsAux_all_digits (n.natAbs + 1) n.natAbs (by omega) '\n' hm)
          (by decide)
    · rw [if_neg hn]
      intro hm
      exact absurd (natDigitsAux_all_digits (n.natAbs + 1) n.natAbs (by omega) '\n' hm)
        (by decide)
  | str s =>
    simp only [safeScalar, Bool.and_eq_true, Bool.not_eq_true'] at h
    have hq : '"' ∉ s.data := contains_false_not_mem _ _ h.1.1
    have hb : '\\' ∉ s.data := contains_false_not_mem _ _ h.1.2
    have hn : '\n' ∉ s.data := contains_false_not_mem _ _ h.2
    show '\n' ∉ (value_str (Json.str s)).data
    rw [show value_str (Json.str s) =
        "\"" ++ pyReplace (pyReplace s "\\" "\\\\") "\"" "\\\"" ++ "\"" from rfl]
    rw [pyReplace_backslash_double_id s hb, pyReplace_quote_escape_id s hq]
    simp only [String.data_append]
    intro hm
    rcases List.mem_append.mp hm with hm | hm
    · rcases List.mem_append.mp hm with hm | hm
      · exact absurd hm (by decide)
      · exact hn hm
    · exact absurd hm (by decide)
  | null => cases h
  | bool b => cases h
  | float lit => cases h
  | arr xs => cases h
  | obj kvs => cases h

/-- Evaluation of `get_property_by_path` along an explicit walk hitting a safe
scalar. -/
theorem get_property_by_path_walk (o : Json) (path : String) (parts : List String) (v : Json)
    (hsplit : pySplit path '.' = parts)
    (hwalk : walkPath o parts = some v)
    (hsafe : safeScalar v = true) :
    get_property_by_path o path = v := by
  unfold get_property_by_path
  rw [hsplit, hwalk]
  cases v with
  | int n => rfl
  | str s => rfl
  | float lit => rfl
  | null => cases hsafe
  | bool b => cases hsafe
  | arr xs => cases hsafe
  | obj kvs => cases hsafe

/-! ## Claim C1: the structured document family -/

/-- Parameters of one source cell of the structured documents used for the
round-trip analysis: cell type, tags stored under `metadata.tags`, and the
raw source lines. -/
structure SrcCell where
  ty : String
  tags : List String
  src : List String
  deriving Repr, DecidableEq

/-- The document object of a source cell (the shape the document reader
consumes, with tags under `metadata.tags`). -/
def srcCellDoc (c : SrcCell) : Json :=
  Json.obj [("cell_type", Json.str c.ty),
            ("source", Json.arr (c.src.map Json.str)),
            ("metadata", Json.obj [("tags", Json.arr (c.tags.map Json.str))])]

/-- The body lines of a cell as the document reader canonicalizes them: each
source line right-stripped of newlines. -/
def srcBody (c : SrcCell) : List String := c.src.map (fun l => pyRstrip l ['\n'])

/-- The cell the document reader produces from `srcCellDoc`. -/
def readSrcCell (c : SrcCell) : NotebookCellData :=
  ⟨Json.str c.ty, joinNl (srcBody c), Json.arr (c.tags.map Json.str)⟩

/-- The chunk parameter the text writer emits for such a cell. -/
def cellParamOf (c : SrcCell) : ScratchpadNotebookFormat.CellParam :=
  ⟨c.ty, c.tags, srcBody c⟩

/-- The cell object the document writer produces after the cycle: tags sit at
the top-level `tags` key of the cell (not under `metadata`), `source` carries
the canonical body lines, `execution_count` is reset to `0`. -/
def pushedCellDoc (c : SrcCell) : Json :=
  Json.obj [("cell_type", Json.str c.ty),
            ("source", Json.arr ((srcBody c).map (fun b => Json.str (b ++ "\n")))),
            ("tags", Json.arr (c.tags.map Json.str)),
            ("execution_count", Json.int 0)]

/-- The cell the document reader produces when re-reading `pushedCellDoc`:
same type and contents, but the attributes are empty because the reader looks
for tags under `metadata.tags` and the writer put them at top level. -/
def rereadCell (c : SrcCell) : NotebookCellData :=
  ⟨Json.str c.ty, joinNl (srcBody c), Json.arr []⟩

/-- The four recognized properties as the readers materialize them. -/
def recognizedProps (fv nbf nbm lv : Json) : List (String × Json) :=
  [("folder", fv), ("nbformat", nbf), ("nbformat_minor", nbm), ("language", lv)]

/-- Well-formedness of a source cell for an exact text round trip: a plain
cell type token, non-empty clean tags, newline-free canonical body lines that
are not directives, and a final body line ending in a non-whitespace
character. -/
def SrcCellWF (c : SrcCell) : Prop :=
  c.ty.data ≠ [] ∧ (∀ x ∈ c.ty.data, pyWsChar x = false) ∧
  '[' ∉ c.ty.data ∧ ']' ∉ c.ty.data ∧
  c.tags ≠ [] ∧
  (∀ t ∈ c.tags, ',' ∉ t.data) ∧ (∀ t ∈ c.tags, '[' ∉ t.data) ∧
  (∀ t ∈ c.tags, ']' ∉ t.data) ∧ (∀ t ∈ c.tags, pyStrip t = t) ∧
  (∀ t ∈ c.tags, t ≠ "") ∧ (∀ t ∈ c.tags, '\n' ∉ t.data) ∧
  (∀ b ∈ srcBody c, pyStartsWith b "@" = false) ∧
  (∀ b ∈ srcBody c, '\n' ∉ b.data) ∧
  srcBody c ≠ [] ∧
  endsClean ((srcBody c).getLastD "") [' ', '\n', '\t', '\r'] = true

instance (c : SrcCell) : Decidable (SrcCellWF c) := by
  unfold SrcCellWF
  infer_instance

theorem cellParamWF_of (c : SrcCell) (h : SrcCellWF c) :
    ScratchpadNotebookFormat.CellParamWF (cellParamOf c) := by
  obtain ⟨h1, h2, h3, h4, h5, h6, h7, h8, h9, h10, _, h12, _, _, _⟩ := h
  exact ⟨h1, h2, h3, h4, h5, h6, h7, h8, h9, h10, h12⟩

theorem joinOneNewlineSpec_eq_joinNl (ls : List String) :
    joinOneNewlineSpec ls = joinNl (ls.map (fun l => pyRstrip l ['\n'])) := by
  induction ls with
  | nil => rfl
  | cons l rest ih =>
    rw [joinOneNewlineSpec, ih, List.map_cons, joinNl]

theorem readCell_srcCellDoc (c : SrcCell) :
    SynapseNotebookFormat.readCell (srcCellDoc c) = .ok (readSrcCell c) := by
  unfold SynapseNotebookFormat.readCell srcCellDoc
  have hmd : alGet [("cell_type", Json.str c.ty),
      ("source", Json.arr (c.src.map Json.str)),
      ("metadata", Json.obj [("tags", Json.arr (c.tags.map Json.str))])] "metadata" =
      some (Json.obj [("tags", Json.arr (c.tags.map Json.str))]) := by
    simp only [alGet, if_neg (by decide : ¬("cell_type" = "metadata")),
      if_neg (by decide : ¬("source" = "metadata")), if_pos rfl, if_true]
  have htags : alGet [("tags", Json.arr (c.tags.map Json.str))] "tags" =
      some (Json.arr (c.tags.map Json.str)) := by
    simp only [alGet, if_pos rfl, if_true]
  have hct : alGet [("cell_type", Json.str c.ty),
      ("source", Json.arr (c.src.map Json.str)),
      ("metadata", Json.obj [("tags", Json.arr (c.tags.map Json.str))])] "cell_type" =
      some (Json.str c.ty) := by
    simp only [alGet, if_pos rfl, if_true]
  have hsrc : alGet [("cell_type", Json.str c.ty),
      ("source", Json.arr (c.src.map Json.str)),
      ("metadata", Json.obj [("tags", Json.arr (c.tags.map Json.str))])] "source" =
      some (Json.arr (c.src.map Json.str)) := by
    simp only [alGet, if_neg (by decide : ¬("cell_type" = "source")), if_pos rfl, if_true]
  simp only [bind, Except.bind, pyGetD, pyGet, pyGetItem, hmd, htags, hct, hsrc,
    Option.getD_some, pyIter, sourceContents_strings, pure, Except.pure]
  rw [joinOneNewlineSpec_eq_joinNl]
  rfl

theorem mapM_readCell_srcCellDoc (cs : List SrcCell) :
    (cs.map srcCellDoc).mapM SynapseNotebookFormat.readCell = .ok (cs.map readSrcCell) := by
  induction cs with
  | nil => rfl
  | cons c rest ih =>
    rw [List.map_cons, List.mapM_cons, readCell_srcCellDoc c]
    simp only [bind, Except.bind, ih, pure, Except.pure]
    rw [List.map_cons]

/-- The document reader on a member of the structured family. -/
theorem read_file_doc (kvs P : List (String × Json)) (nmv : Json) (cs : List SrcCell)
    (hname : alGet kvs "name" = some nmv)
    (hprops : alGet kvs "properties" = some (Json.obj P))
    (hcells : alGet P "cells" = some (Json.arr (cs.map srcCellDoc))) :
    SynapseNotebookFormat.read_file (Json.obj kvs) =
      .ok ⟨nmv, SynapseNotebookFormat.meta_properties.map
        (fun kp => (kp.1, get_property_by_path (Json.obj P) kp.2)), cs.map readSrcCell⟩ := by
  unfold SynapseNotebookFormat.read_file
  simp only [bind, Except.bind, pyGet, hname, hprops, hcells, Option.getD_some, pyIter,
    mapM_readCell_srcCellDoc, pure, Except.pure]

/-- The recognized metadata paths on a structured properties map. -/
theorem recognized_props_eval (P F M LI : List (String × Json)) (fv nbf nbm lv : Json)
    (hF : alGet P "folder" = some (Json.obj F)) (hFn : alGet F "name" = some fv)
    (hnbf : alGet P "nbformat" = some nbf) (hnbm : alGet P "nbformat_minor" = some nbm)
    (hM : alGet P "metadata" = some (Json.obj M))
    (hLI : alGet M "language_info" = some (Json.obj LI))
    (hlv : alGet LI "name" = some lv)
    (hsf : safeScalar fv = true) (hsnbf : safeScalar nbf = true)
    (hsnbm : safeScalar nbm = true) (hslv : safeScalar lv = true) :
    SynapseNotebookFormat.meta_properties.map
        (fun kp => (kp.1, get_property_by_path (Json.obj P) kp.2)) =
      recognizedProps fv nbf nbm lv := by
  have h1 : get_property_by_path (Json.obj P) "folder.name" = fv :=
    get_property_by_path_walk _ _ ["folder", "name"] fv (by decide)
      (by simp only [walkPath, hF, hFn]) hsf
  have h2 : get_property_by_path (Json.obj P) "nbformat" = nbf :=
    get_property_by_path_walk _ _ ["nbformat"] nbf (by decide)
      (by simp only [walkPath, hnbf]) hsnbf
  have h3 : get_property_by_path (Json.obj P) "nbformat_minor" = nbm :=
    get_property_by_path_walk _ _ ["nbformat_minor"] nbm (by decide)
      (by simp only [walkPath, hnbm]) hsnbm
  have h4 : get_property_by_path (Json.obj P) "metadata.language_info.name" = lv :=
    get_property_by_path_walk _ _ ["metadata", "language_info", "name"] lv (by decide)
      (by simp only [walkPath, hM, hLI, hlv]) hslv
  simp only [SynapseNotebookFormat.meta_properties, List.map_cons, List.map_nil,
    recognizedProps, h1, h2, h3, h4]

/-- The text the text-format writer produces for a structured notebook (the
content of the file `pull` writes). -/
def pulledText (nmv fv nbf nbm lv : Json) (cells : List SrcCell) : String :=
  joinNl (("@meta name " ++ value_str nmv) ::
    ((recognizedProps fv nbf nbm lv).map ScratchpadNotebookFormat.metaLineOf ++
     ((cells.map cellParamOf).map ScratchpadNotebookFormat.cellChunk).flatten))

theorem write_file_pulled (nmv fv nbf nbm lv : Json) (cells : List SrcCell)
    (hwf : ∀ c ∈ cells, SrcCellWF c) :
    ScratchpadNotebookFormat.write_file
        ⟨nmv, recognizedProps fv nbf nbm lv, cells.map readSrcCell⟩ =
      .ok (pulledText nmv fv nbf nbm lv cells) := by
  have hmap : cells.map readSrcCell =
      (cells.map cellParamOf).map ScratchpadNotebookFormat.writerCell := by
    rw [List.map_map]
    rfl
  rw [hmap]
  unfold pulledText
  exact ScratchpadNotebookFormat.scratch_write_structured nmv
    (recognizedProps fv nbf nbm lv) (cells.map cellParamOf)
    (fun p hp => by
      obtain ⟨c, hc, hpc⟩ := List.mem_map.mp hp
      rw [← hpc]
      exact (hwf c hc).2.2.2.2.1)

/-- The shape of the LAST cell after re-reading the pulled text: the split of
the written file ends in one empty string, which the reader appends to the
open cell as one extra newline. -/
def lastCellMod (p : ScratchpadNotebookFormat.CellParam) : NotebookCellData :=
  ⟨Json.str p.ty, joinNl (p.body ++ [""]) ++ "\n", Json.arr (p.tags.map Json.str)⟩

/-- The cells the text reader recovers from the pulled text: every cell keeps
one blank separator line in its contents, the last additionally absorbs the
empty string after the final newline. -/
def cycledCells (cs : List SrcCell) : List NotebookCellData :=
  (cs.map cellParamOf).dropLast.map ScratchpadNotebookFormat.expectedCell ++
  (match (cs.map cellParamOf).getLast? with
   | none => []
   | some p => [lastCellMod p])

theorem cycledCells_single (c : SrcCell) : cycledCells [c] = [lastCellMod (cellParamOf c)] := by
  simp [cycledCells]

theorem cycledCells_cons2 (c r : SrcCell) (rs : List SrcCell) :
    cycledCells (c :: r :: rs) =
      ScratchpadNotebookFormat.expectedCell (cellParamOf c) :: cycledCells (r :: rs) := by
  simp only [cycledCells, List.map_cons]
  rw [show (cellParamOf c :: cellParamOf r :: rs.map cellParamOf).dropLast =
    cellParamOf c :: (cellParamOf r :: rs.map cellParamOf).dropLast from rfl]
  rw [List.getLast?_cons_cons]
  simp

theorem no_nl_append (a b : String) (ha : '\n' ∉ a.data) (hb : '\n' ∉ b.data) :
    '\n' ∉ (a ++ b).data := by
  rw [String.data_append]
  intro hm
  rcases List.mem_append.mp hm with hm | hm
  · exact ha hm
  · exact hb hm

theorem ty_no_nl (c : SrcCell) (h : SrcCellWF c) : '\n' ∉ c.ty.data := by
  intro hm
  exact absurd (h.2.1 '\n' hm) (by decide)

theorem chunk_lines_no_nl (c : SrcCell) (h : SrcCellWF c) :
    ∀ l ∈ ScratchpadNotebookFormat.cellChunk (cellParamOf c), '\n' ∉ l.data := by
  obtain ⟨h1, h2, h3, h4, h5, h6, h7, h8, h9, h10, h11, h12, h13, h14, h15⟩ := h
  intro l hl
  unfold ScratchpadNotebookFormat.cellChunk at hl
  rcases List.mem_cons.mp hl with hl | hl
  · subst hl
    apply no_nl_append
    · apply no_nl_append
      · apply no_nl_append
        · apply no_nl_append
          · exact (by decide : '\n' ∉ ("@cell " : String).data)
          · exact fun hm => absurd (h2 '\n' hm) (by decide)
        · exact (by decide : '\n' ∉ (" [" : String).data)
      · exact mem_pyJoin_comma c.tags '\n' (by decide) h11
    · exact (by decide : '\n' ∉ ("]" : String).data)
  · rcases List.mem_append.mp hl with hl | hl
    · exact h13 l hl
    · rw [List.mem_singleton.mp hl]
      exact (by decide : '\n' ∉ ("" : String).data)

/-- The meta lines of the pulled text re-read into the original name and the
four recognized properties. -/
theorem meta_run (nmv fv nbf nbm lv : Json)
    (hnm : safeScalar nmv = true) (hsf : safeScalar fv = true)
    (hsnbf : safeScalar nbf = true) (hsnbm : safeScalar nbm = true)
    (hslv : safeScalar lv = true) :
    (("@meta name " ++ value_str nmv) ::
        (recognizedProps fv nbf nbm lv).map ScratchpadNotebookFormat.metaLineOf).foldl
        ScratchpadNotebookFormat.scratchStep ⟨Json.str "", [], [], none⟩ =
      ⟨nmv, recognizedProps fv nbf nbm lv, [], none⟩ := by
  simp only [recognizedProps, List.map_cons, List.map_nil,
    ScratchpadNotebookFormat.metaLineOf]
  rw [List.foldl_cons, show "@meta name " ++ value_str nmv =
    "@meta " ++ "name" ++ " " ++ value_str nmv from by
      apply String.ext
      simp [String.data_append]]
  rw [ScratchpadNotebookFormat.scratchStep_meta _ "name" (value_str nmv) (by decide),
    if_pos rfl, parse_value_value_str_safe nmv hnm]
  rw [List.foldl_cons,
    ScratchpadNotebookFormat.scratchStep_meta _ "folder" (value_str fv) (by decide),
    if_neg (by decide), parse_value_value_str_safe fv hsf]
  rw [List.foldl_cons,
    ScratchpadNotebookFormat.scratchStep_meta _ "nbformat" (value_str nbf) (by decide),
    if_neg (by decide), parse_value_value_str_safe nbf hsnbf]
  rw [List.foldl_cons,
    ScratchpadNotebookFormat.scratchStep_meta _ "nbformat_minor" (value_str nbm) (by decide),
    if_neg (by decide), parse_value_value_str_safe nbm hsnbm]
  rw [List.foldl_cons,
    ScratchpadNotebookFormat.scratchStep_meta _ "language" (value_str lv) (by decide),
    if_neg (by decide), parse_value_value_str_safe lv hslv]
  rfl

/-- Re-reading the pulled text recovers the name, the recognized properties
and the cells (each keeping the blank separator line in its contents). -/
theorem read_file_pulled (nmv fv nbf nbm lv : Json) (cells : List SrcCell)
    (hnm : safeScalar nmv = true) (hsf : safeScalar fv = true)
    (hsnbf : safeScalar nbf = true) (hsnbm : safeScalar nbm = true)
    (hslv : safeScalar lv = true)
    (hwf : ∀ c ∈ cells, SrcCellWF c) (hne : cells ≠ []) :
    ScratchpadNotebookFormat.read_file (pulledText nmv fv nbf nbm lv cells) =
      ⟨nmv, recognizedProps fv nbf nbm lv, cycledCells cells⟩ := by
  obtain ⟨c0, crest, rfl⟩ : ∃ c0 crest, cells = c0 :: crest := by
    cases cells with
    | nil => exact absurd rfl hne
    | cons a b => exact ⟨a, b, rfl⟩
  have hlines : ∀ l ∈ ("@meta name " ++ value_str nmv) ::
      ((recognizedProps fv nbf nbm lv).map ScratchpadNotebookFormat.metaLineOf ++
       (((c0 :: crest).map cellParamOf).map ScratchpadNotebookFormat.cellChunk).flatten),
      '\n' ∉ l.data := by
    intro l hl
    rcases List.mem_cons.mp hl with hl | hl
    · subst hl
      exact no_nl_append _ _ (by decide) (value_str_no_nl nmv hnm)
    rcases List.mem_append.mp hl with hl | hl
    · obtain ⟨kv, hkv, hkveq⟩ := List.mem_map.mp hl
      subst hkveq
      simp only [recognizedProps, List.mem_cons, List.not_mem_nil, or_false] at hkv
      rcases hkv with hkv | hkv | hkv | hkv
      · subst hkv
        exact no_nl_append ("@meta " ++ "folder" ++ " ") (value_str fv)
          (by decide) (value_str_no_nl fv hsf)
      · subst hkv
        exact no_nl_append ("@meta " ++ "nbformat" ++ " ") (value_str nbf)
          (by decide) (value_str_no_nl nbf hsnbf)
      · subst hkv
        exact no_nl_append ("@meta " ++ "nbformat_minor" ++ " ") (value_str nbm)
          (by decide) (value_str_no_nl nbm hsnbm)
      · subst hkv
        exact no_nl_append ("@meta " ++ "language" ++ " ") (value_str lv)
          (by decide) (value_str_no_nl lv hslv)
    · obtain ⟨s, hs, hls⟩ := List.mem_flatten.mp hl
      obtain ⟨p, hp, hpeq⟩ := List.mem_map.mp hs
      subst hpeq
      obtain ⟨c, hc, hceq⟩ := List.mem_map.mp hp
      subst hceq
      exact chunk_lines_no_nl c (hwf c hc) l hls
  simp only [ScratchpadNotebookFormat.read_file, pulledText]
  rw [pySplit_joinNl _ hlines]
  rw [show ("@meta name " ++ value_str nmv) ::
      ((recognizedProps fv nbf nbm lv).map ScratchpadNotebookFormat.metaLineOf ++
       (((c0 :: crest).map cellParamOf).map ScratchpadNotebookFormat.cellChunk).flatten) =
    (("@meta name " ++ value_str nmv) ::
      (recognizedProps fv nbf nbm lv).map ScratchpadNotebookFormat.metaLineOf) ++
      (((c0 :: crest).map cellParamOf).map ScratchpadNotebookFormat.cellChunk).flatten
    from rfl]
  rw [List.append_assoc, List.foldl_append]
  rw [meta_run nmv fv nbf nbm lv hnm hsf hsnbf hsnbm hslv]
  rw [List.foldl_append]
  rw [show List.map cellParamOf (c0 :: crest) = cellParamOf c0 :: List.map cellParamOf crest
    from rfl]
  rw [ScratchpadNotebookFormat.foldl_chunks (crest.map cellParamOf) (cellParamOf c0)
    (fun p hp => by
      rcases List.mem_cons.mp hp with hp | hp
      · rw [hp]
        exact cellParamWF_of c0 (hwf c0 (List.mem_cons_self c0 crest))
      · obtain ⟨c, hc, hceq⟩ := List.mem_map.mp hp
        rw [← hceq]
        exact cellParamWF_of c (hwf c (List.mem_cons_of_mem c0 hc)))
    ⟨nmv, recognizedProps fv nbf nbm lv, [], none⟩]
  rw [List.foldl_cons, List.foldl_nil,
    ScratchpadNotebookFormat.scratchStep_content _ "" (by decide)]
  simp only [ScratchpadNotebookFormat.contentLine]
  have hlast : (cellParamOf c0 :: crest.map cellParamOf).getLast? =
      some ((cellParamOf c0 :: crest.map cellParamOf).getLast (by simp)) :=
    List.getLast?_eq_getLast _ (by simp)
  simp only [cycledCells, List.map_cons, hlast]
  simp only [Option.toList, List.nil_append, List.append_nil]
  congr 1
  simp only [lastCellMod, ScratchpadNotebookFormat.expectedCell]
  rw [str_append_empty]

theorem getLastD_cons_cons (b r : String) (rest : List String) (d : String) :
    (b :: r :: rest).getLastD d = (r :: rest).getLastD d := by
  rw [List.getLastD_eq_getLast?, List.getLastD_eq_getLast?, List.getLast?_cons_cons]

theorem sepNl_suffix : ∀ (B : List String), B ≠ [] →
    ∃ pre, (sepNl B).data = pre ++ (B.getLastD "").data
  | [], h => absurd rfl h
  | [b], _ => ⟨[], by simp [sepNl, List.getLastD]⟩
  | b :: r :: rest, _ => by
    obtain ⟨pre, hpre⟩ := sepNl_suffix (r :: rest) (by simp)
    refine ⟨b.data ++ '\n' :: pre, ?_⟩
    rw [sepNl_cons2, getLastD_cons_cons]
    have hd : (b ++ "\n" ++ sepNl (r :: rest)).data =
        b.data ++ '\n' :: (sepNl (r :: rest)).data := by
      simp [String.data_append]
    rw [hd, hpre]
    simp [List.append_assoc]

theorem endsClean_sepNl (B : List String) (hne : B ≠ []) (chars : List Char)
    (h : endsClean (B.getLastD "") chars = true) :
    endsClean (sepNl B) chars = true := by
  obtain ⟨pre, hpre⟩ := sepNl_suffix B hne
  have h2 := endsClean_append pre (B.getLastD "").data chars h
  rw [show sepNl B = ⟨pre ++ (B.getLastD "").data⟩ from String.ext hpre]
  exact h2

/-- The document writer on a cell whose contents are the canonical joined
body followed by trailing whitespace: the junk is stripped, the body split
back into lines, and the tags end up at the cell's top-level `tags` key. -/
theorem writeCell_padded (c : SrcCell) (s : String) (junk : List Char)
    (hwf : SrcCellWF c)
    (hs : s.data = (sepNl (srcBody c)).data ++ junk)
    (hjunk : ∀ x ∈ junk, ([' ', '\n', '\t', '\r'] : List Char).contains x = true) :
    SynapseNotebookFormat.writeCell ⟨Json.str c.ty, s, Json.arr (c.tags.map Json.str)⟩ =
      .ok (pushedCellDoc c) := by
  obtain ⟨h1, h2, h3, h4, h5, h6, h7, h8, h9, h10, h11, h12, h13, h14, h15⟩ := hwf
  obtain ⟨b0, brest, hb⟩ : ∃ b0 brest, srcBody c = b0 :: brest := by
    cases hsb : srcBody c with
    | nil => exact absurd hsb h14
    | cons a b => exact ⟨a, b, rfl⟩
  have hse : s = ⟨(sepNl (srcBody c)).data ++ junk⟩ := String.ext hs
  have hclean : endsClean (sepNl (srcBody c)) [' ', '\n', '\t', '\r'] = true :=
    endsClean_sepNl (srcBody c) h14 _ h15
  unfold SynapseNotebookFormat.writeCell
  rw [hse, pyRstrip_clean_junk [' ', '\n', '\t', '\r'] (sepNl (srcBody c)).data junk
    (by rw [show (⟨(sepNl (srcBody c)).data⟩ : String) = sepNl (srcBody c) from rfl]
        exact hclean)
    hjunk]
  rw [show (⟨(sepNl (srcBody c)).data⟩ : String) = sepNl (srcBody c) from rfl]
  rw [hb, pySplit_sepNl b0 brest (by rw [← hb]; exact h13)]
  simp only [bind, Except.bind, pyLen, List.length_map, pure, Except.pure]
  have hlen : c.tags.length > 0 := by
    cases htg : c.tags with
    | nil => exact absurd htg h5
    | cons t ts => simp [htg]
  rw [if_pos hlen]
  unfold pushedCellDoc
  rw [hb]
  simp only [List.map_map]
  rfl

theorem mapM_writeCell_cycled : ∀ (cs : List SrcCell), (∀ c ∈ cs, SrcCellWF c) →
    (cycledCells cs).mapM SynapseNotebookFormat.writeCell = .ok (cs.map pushedCellDoc)
  | [], _ => rfl
  | [c], h => by
    have hwfc := h c (List.mem_cons_self c [])
    obtain ⟨b0, brest, hb⟩ : ∃ b0 brest, srcBody c = b0 :: brest := by
      cases hsb : srcBody c with
      | nil => exact absurd hsb hwfc.2.2.2.2.2.2.2.2.2.2.2.2.2.1
      | cons a b => exact ⟨a, b, rfl⟩
    have hs1 : (joinNl (srcBody c ++ [""]) ++ "\n").data =
        (sepNl (srcBody c)).data ++ ['\n', '\n', '\n'] := by
      rw [joinNl_append, hb, joinNl_eq_sepNl b0 brest]
      simp [String.data_append, joinNl, List.append_assoc]
    rw [cycledCells_single c]
    rw [show lastCellMod (cellParamOf c) = (⟨Json.str c.ty, joinNl (srcBody c ++ [""]) ++ "\n",
      Json.arr (c.tags.map Json.str)⟩ : NotebookCellData) from rfl]
    simp only [List.mapM_cons, List.mapM_nil]
    rw [writeCell_padded c (joinNl (srcBody c ++ [""]) ++ "\n") ['\n', '\n', '\n']
      hwfc hs1 (by decide)]
    simp only [bind, Except.bind, pure, Except.pure]
    rfl
  | c :: r :: rs, h => by
    have hwfc := h c (List.mem_cons_self c (r :: rs))
    obtain ⟨b0, brest, hb⟩ : ∃ b0 brest, srcBody c = b0 :: brest := by
      cases hsb : srcBody c with
      | nil => exact absurd hsb hwfc.2.2.2.2.2.2.2.2.2.2.2.2.2.1
      | cons a b => exact ⟨a, b, rfl⟩
    have hs2 : (joinNl (srcBody c ++ [""])).data =
        (sepNl (srcBody c)).data ++ ['\n', '\n'] := by
      rw [joinNl_append, hb, joinNl_eq_sepNl b0 brest]
      simp [String.data_append, joinNl, List.append_assoc]
    rw [cycledCells_cons2]
    simp only [List.mapM_cons]
    rw [show ScratchpadNotebookFormat.expectedCell (cellParamOf c) =
      (⟨Json.str c.ty, joinNl (srcBody c ++ [""]),
        Json.arr (c.tags.map Json.str)⟩ : NotebookCellData) from rfl]
    rw [writeCell_padded c (joinNl (srcBody c ++ [""])) ['\n', '\n'] hwfc hs2 (by decide)]
    have ih := mapM_writeCell_cycled (r :: rs) (fun x hx => h x (List.mem_cons_of_mem c hx))
    simp only [bind, Except.bind, ih, pure, Except.pure]
    rfl

/-- The document at the destination after `push`: unchanged except that the
`cells` entry of `properties` now holds the cycled cell objects. -/
def pushedDoc (kvs P : List (String × Json)) (cells : List SrcCell) : Json :=
  Json.obj (alSet kvs "properties"
    (Json.obj (alSet P "cells" (Json.arr (cells.map pushedCellDoc)))))

/-- The document writer merging the cycled notebook back into the original
structured document: name and every recognized path are rewritten with the
values they already hold (leaving them unchanged), and only `cells` is
replaced. -/
theorem synapse_write_cycled (kvs P F M LI : List (String × Json))
    (nmv fv nbf nbm lv : Json) (cells : List SrcCell)
    (hname : alGet kvs "name" = some nmv)
    (hprops : alGet kvs "properties" = some (Json.obj P))
    (hF : alGet P "folder" = some (Json.obj F)) (hFn : alGet F "name" = some fv)
    (hnbf : alGet P "nbformat" = some nbf) (hnbm : alGet P "nbformat_minor" = some nbm)
    (hM : alGet P "metadata" = some (Json.obj M))
    (hLI : alGet M "language_info" = some (Json.obj LI))
    (hlv : alGet LI "name" = some lv)
    (hwf : ∀ c ∈ cells, SrcCellWF c) :
    SynapseNotebookFormat.write_file (some (Json.obj kvs))
        ⟨nmv, recognizedProps fv nbf nbm lv, cycledCells cells⟩ =
      .ok (pushedDoc kvs P cells) := by
  have hsetname : set_property_value (Json.obj kvs) "name" nmv = .ok (Json.obj kvs) := by
    unfold set_property_value
    rw [show pySplit "name" '.' = ["name"] from by decide]
    simp only [setWalk]
    rw [alSet_self kvs "name" nmv hname]
  have hset1 : set_property_value (Json.obj P) "folder.name" fv = .ok (Json.obj P) := by
    unfold set_property_value
    rw [show pySplit "folder.name" '.' = ["folder", "name"] from by decide]
    simp only [setWalk, hF]
    rw [alSet_self F "name" fv hFn, alSet_self P "folder" (Json.obj F) hF]
  have hset2 : set_property_value (Json.obj P) "nbformat" nbf = .ok (Json.obj P) := by
    unfold set_property_value
    rw [show pySplit "nbformat" '.' = ["nbformat"] from by decide]
    simp only [setWalk]
    rw [alSet_self P "nbformat" nbf hnbf]
  have hset3 : set_property_value (Json.obj P) "nbformat_minor" nbm = .ok (Json.obj P) := by
    unfold set_property_value
    rw [show pySplit "nbformat_minor" '.' = ["nbformat_minor"] from by decide]
    simp only [setWalk]
    rw [alSet_self P "nbformat_minor" nbm hnbm]
  have hset4 : set_property_value (Json.obj P) "metadata.language_info.name" lv =
      .ok (Json.obj P) := by
    unfold set_property_value
    rw [show pySplit "metadata.language_info.name" '.' =
      ["metadata", "language_info", "name"] from by decide]
    simp only [setWalk, hM, hLI]
    rw [alSet_self LI "name" lv hlv, alSet_self M "language_info" (Json.obj LI) hLI,
      alSet_self P "metadata" (Json.obj M) hM]
  have hsetcells : set_property_value (Json.obj P) "cells"
      (Json.arr (cells.map pushedCellDoc)) =
      .ok (Json.obj (alSet P "cells" (Json.arr (cells.map pushedCellDoc)))) := by
    unfold set_property_value
    rw [show pySplit "cells" '.' = ["cells"] from by decide]
    simp only [setWalk]
  have hsetprops : set_property_value (Json.obj kvs) "properties"
      (Json.obj (alSet P "cells" (Json.arr (cells.map pushedCellDoc)))) =
      .ok (pushedDoc kvs P cells) := by
    unfold set_property_value pushedDoc
    rw [show pySplit "properties" '.' = ["properties"] from by decide]
    simp only [setWalk]
  unfold SynapseNotebookFormat.write_file
  simp only [bind, Except.bind, hsetname, pyGetD, hprops, Option.getD_some,
    recognizedProps, List.foldlM_cons, List.foldlM_nil,
    show lookupStr SynapseNotebookFormat.meta_properties "folder" =
      some "folder.name" from rfl,
    show lookupStr SynapseNotebookFormat.meta_properties "nbformat" =
      some "nbformat" from rfl,
    show lookupStr SynapseNotebookFormat.meta_properties "nbformat_minor" =
      some "nbformat_minor" from rfl,
    show lookupStr SynapseNotebookFormat.meta_properties "language" =
      some "metadata.language_info.name" from rfl,
    hset1, hset2, hset3, hset4, mapM_writeCell_cycled cells hwf,
    hsetcells, hsetprops, pure, Except.pure]

theorem joinOneNewlineSpec_append_nl (B : List String) (h : ∀ b ∈ B, '\n' ∉ b.data) :
    joinOneNewlineSpec (B.map (fun b => b ++ "\n")) = joinNl B := by
  induction B with
  | nil => rfl
  | cons b rest ih =>
    rw [List.map_cons, joinOneNewlineSpec,
      pyRstrip_nl_append b (h b (List.mem_cons_self b rest)),
      ih (fun x hx => h x (List.mem_cons_of_mem b hx)), joinNl]

theorem readCell_pushedCellDoc (c : SrcCell) (h : ∀ b ∈ srcBody c, '\n' ∉ b.data) :
    SynapseNotebookFormat.readCell (pushedCellDoc c) = .ok (rereadCell c) := by
  unfold SynapseNotebookFormat.readCell pushedCellDoc
  have hmd : alGet [("cell_type", Json.str c.ty),
      ("source", Json.arr ((srcBody c).map (fun b => Json.str (b ++ "\n")))),
      ("tags", Json.arr (c.tags.map Json.str)),
      ("execution_count", Json.int 0)] "metadata" = none := by
    simp only [alGet, if_neg (by decide : ¬("cell_type" = "metadata")),
      if_neg (by decide : ¬("source" = "metadata")),
      if_neg (by decide : ¬("tags" = "metadata")),
      if_neg (by decide : ¬("execution_count" = "metadata"))]
  have htagsnone : alGet ([] : List (String × Json)) "tags" = none := rfl
  have hct : alGet [("cell_type", Json.str c.ty),
      ("source", Json.arr ((srcBody c).map (fun b => Json.str (b ++ "\n")))),
      ("tags", Json.arr (c.tags.map Json.str)),
      ("execution_count", Json.int 0)] "cell_type" = some (Json.str c.ty) := by
    simp only [alGet, if_pos rfl, if_true]
  have hsrc : alGet [("cell_type", Json.str c.ty),
      ("source", Json.arr ((srcBody c).map (fun b => Json.str (b ++ "\n")))),
      ("tags", Json.arr (c.tags.map Json.str)),
      ("execution_count", Json.int 0)] "source" =
      some (Json.arr ((srcBody c).map (fun b => Json.str (b ++ "\n")))) := by
    simp only [alGet, if_neg (by decide : ¬("cell_type" = "source")), if_pos rfl, if_true]
  have hsrcmap : (srcBody c).map (fun b => Json.str (b ++ "\n")) =
      ((srcBody c).map (fun b => b ++ "\n")).map Json.str := by
    rw [List.map_map]
    rfl
  simp only [bind, Except.bind, pyGetD, pyGet, pyGetItem, hmd, htagsnone, hct, hsrc,
    Option.getD_none, Option.getD_some, pyIter]
  rw [hsrcmap]
  simp only [sourceContents_strings, joinOneNewlineSpec_append_nl (srcBody c) h,
    pure, Except.pure]
  rfl

theorem mapM_readCell_pushed : ∀ (cs : List SrcCell),
    (∀ c ∈ cs, ∀ b ∈ srcBody c, '\n' ∉ b.data) →
    (cs.map pushedCellDoc).mapM SynapseNotebookFormat.readCell = .ok (cs.map rereadCell)
  | [], _ => rfl
  | c :: rest, h => by
    rw [List.map_cons, List.mapM_cons,
      readCell_pushedCellDoc c (h c (List.mem_cons_self c rest))]
    have ih := mapM_readCell_pushed rest (fun x hx => h x (List.mem_cons_of_mem c hx))
    simp only [bind, Except.bind, ih, pure, Except.pure]
    rw [List.map_cons]

/-- The document reader on any map document whose cell list reading is known. -/
theorem read_file_obj (kvs P : List (String × Json)) (nmv : Json) (cellsJ : List Json)
    (nbcells : List NotebookCellData)
    (hname : alGet kvs "name" = some nmv)
    (hprops : alGet kvs "properties" = some (Json.obj P))
    (hcells : alGet P "cells" = some (Json.arr cellsJ))
    (hmap : cellsJ.mapM SynapseNotebookFormat.readCell = .ok nbcells) :
    SynapseNotebookFormat.read_file (Json.obj kvs) =
      .ok ⟨nmv, SynapseNotebookFormat.meta_properties.map
        (fun kp => (kp.1, get_property_by_path (Json.obj P) kp.2)), nbcells⟩ := by
  unfold SynapseNotebookFormat.read_file
  simp only [bind, Except.bind, pyGet, hname, hprops, hcells, Option.getD_some, pyIter,
    hmap, pure, Except.pure]

/-- Re-reading the pushed document: name, recognized properties and the
cells' type and contents are recovered, but every cell's attributes are empty
because the cycled tags sit at the cell's top-level `tags` key, which the
reader does not consult. -/
theorem read_file_pushedDoc (kvs P F M LI : List (String × Json))
    (nmv fv nbf nbm lv : Json) (cells : List SrcCell)
    (hname : alGet kvs "name" = some nmv)
    (hF : alGet P "folder" = some (Json.obj F)) (hFn : alGet F "name" = some fv)
    (hnbf : alGet P "nbformat" = some nbf) (hnbm : alGet P "nbformat_minor" = some nbm)
    (hM : alGet P "metadata" = some (Json.obj M))
    (hLI : alGet M "language_info" = some (Json.obj LI))
    (hlv : alGet LI "name" = some lv)
    (hsf : safeScalar fv = true) (hsnbf : safeScalar nbf = true)
    (hsnbm : safeScalar nbm = true) (hslv : safeScalar lv = true)
    (hwf : ∀ c ∈ cells, SrcCellWF c) :
    SynapseNotebookFormat.read_file (pushedDoc kvs P cells) =
      .ok ⟨nmv, recognizedProps fv nbf nbm lv, cells.map rereadCell⟩ := by
  have hother : ∀ k2, k2 ≠ "cells" →
      alGet (alSet P "cells" (Json.arr (cells.map pushedCellDoc))) k2 = alGet P k2 :=
    fun k2 h2 => alGet_alSet_other P "cells" k2 _ h2
  have hread := read_file_obj (alSet kvs "properties"
      (Json.obj (alSet P "cells" (Json.arr (cells.map pushedCellDoc)))))
    (alSet P "cells" (Json.arr (cells.map pushedCellDoc))) nmv
    (cells.map pushedCellDoc) (cells.map rereadCell)
    (by rw [alGet_alSet_other kvs "properties" "name" _ (by decide)]; exact hname)
    (alGet_alSet_same kvs "properties" _)
    (alGet_alSet_same P "cells" _)
    (mapM_readCell_pushed cells (fun c hc => by
      obtain ⟨g1, g2, g3, g4, g5, g6, g7, g8, g9, g10, g11, g12, g13, g14, g15⟩ := hwf c hc
      exact g13))
  rw [show pushedDoc kvs P cells = Json.obj (alSet kvs "properties"
    (Json.obj (alSet P "cells" (Json.arr (cells.map pushedCellDoc))))) from rfl]
  rw [hread]
  rw [recognized_props_eval (alSet P "cells" (Json.arr (cells.map pushedCellDoc)))
    F M LI fv nbf nbm lv
    (by rw [hother "folder" (by decide)]; exact hF) hFn
    (by rw [hother "nbformat" (by decide)]; exact hnbf)
    (by rw [hother "nbformat_minor" (by decide)]; exact hnbm)
    (by rw [hother "metadata" (by decide)]; exact hM) hLI hlv
    hsf hsnbf hsnbm hslv]

/-- Claim C1 as amended.  For a structured document with the four recognized
metadata keys set and tagged, well-formed cells, `pull` then `push` succeeds
and writes back a document that keeps the name, every recognized metadata
value and every other existing field (at top level and inside `properties`)
unchanged, and reproduces every cell's type and canonical contents; but the
tags are NOT reproduced where the reader looks for them: each pushed cell
carries them at a top-level `tags` key instead of `metadata.tags`, so
re-reading the pushed document yields every cell with empty attributes. -/
theorem claim_C1_amended_roundtrip (cwd location src : String) (fs : FS)
    (kvs P F M LI : List (String × Json)) (nmv fv nbf nbm lv : Json)
    (cells : List SrcCell)
    (hname : alGet kvs "name" = some nmv)
    (hprops : alGet kvs "properties" = some (Json.obj P))
    (hF : alGet P "folder" = some (Json.obj F)) (hFn : alGet F "name" = some fv)
    (hnbf : alGet P "nbformat" = some nbf) (hnbm : alGet P "nbformat_minor" = some nbm)
    (hM : alGet P "metadata" = some (Json.obj M))
    (hLI : alGet M "language_info" = some (Json.obj LI))
    (hlv : alGet LI "name" = some lv)
    (hcells : alGet P "cells" = some (Json.arr (cells.map srcCellDoc)))
    (hnm : safeScalar nmv = true) (hsf : safeScalar fv = true)
    (hsnbf : safeScalar nbf = true) (hsnbm : safeScalar nbm = true)
    (hslv : safeScalar lv = true)
    (hwf : ∀ c ∈ cells, SrcCellWF c) (hne : cells ≠ [])
    (hfs : fsGet fs (to_abs_path cwd src) = some (.jsonDoc (Json.obj kvs)))
    (hpath : to_abs_path cwd location ≠ to_abs_path cwd src) :
    pull_notebook cwd fs location src =
      .ok (fsSet fs (to_abs_path cwd location)
        (.text (pulledText nmv fv nbf nbm lv cells))) ∧
    push_notebook cwd
        (fsSet fs (to_abs_path cwd location) (.text (pulledText nmv fv nbf nbm lv cells)))
        location src =
      .ok (fsSet (fsSet fs (to_abs_path cwd location)
          (.text (pulledText nmv fv nbf nbm lv cells)))
        (to_abs_path cwd src) (.jsonDoc (pushedDoc kvs P cells))) ∧
    (∀ k, k ≠ "properties" →
      alGet (alSet kvs "properties"
        (Json.obj (alSet P "cells" (Json.arr (cells.map pushedCellDoc))))) k =
        alGet kvs k) ∧
    (∀ k, k ≠ "cells" →
      alGet (alSet P "cells" (Json.arr (cells.map pushedCellDoc))) k = alGet P k) ∧
    SynapseNotebookFormat.read_file (Json.obj kvs) =
      .ok ⟨nmv, recognizedProps fv nbf nbm lv, cells.map readSrcCell⟩ ∧
    SynapseNotebookFormat.read_file (pushedDoc kvs P cells) =
      .ok ⟨nmv, recognizedProps fv nbf nbm lv, cells.map rereadCell⟩ ∧
    (∀ c ∈ cells, (readSrcCell c).cell_type = (rereadCell c).cell_type ∧
      (readSrcCell c).contents = (rereadCell c).contents ∧
      (readSrcCell c).attributes = Json.arr (c.tags.map Json.str) ∧
      (rereadCell c).attributes = Json.arr []) := by
  have h0 := read_file_doc kvs P nmv cells hname hprops hcells
  rw [recognized_props_eval P F M LI fv nbf nbm lv hF hFn hnbf hnbm hM hLI hlv
    hsf hsnbf hsnbm hslv] at h0
  have hwrite := write_file_pulled nmv fv nbf nbm lv cells hwf
  have hscratch := read_file_pulled nmv fv nbf nbm lv cells hnm hsf hsnbf hsnbm hslv hwf hne
  have hsyn := synapse_write_cycled kvs P F M LI nmv fv nbf nbm lv cells
    hname hprops hF hFn hnbf hnbm hM hLI hlv hwf
  have hreread := read_file_pushedDoc kvs P F M LI nmv fv nbf nbm lv cells
    hname hF hFn hnbf hnbm hM hLI hlv hsf hsnbf hsnbm hslv hwf
  refine ⟨?_, ?_, ?_, ?_, h0, hreread, ?_⟩
  · simp only [pull_notebook, hfs, h0, hwrite]
  · simp only [push_notebook, fsGet_fsSet_same, hscratch,
      fsGet_fsSet_other fs (to_abs_path cwd location) (to_abs_path cwd src)
        (FileVal.text (pulledText nmv fv nbf nbm lv cells)) hpath,
      hfs, hsyn]
  · intro k hk
    exact alGet_alSet_other kvs "properties" k _ hk
  · intro k hk
    exact alGet_alSet_other P "cells" k _ hk
  · intro c hc
    exact ⟨rfl, rfl, rfl, rfl⟩

/-- The single tagged cell of the concrete counterexample document. -/
def c1cell : SrcCell := ⟨"code", ["t1"], ["x\n", "y"]⟩

/-- The `properties` map of the concrete counterexample document. -/
def c1props : List (String × Json) :=
  [("folder", Json.obj [("name", Json.str "fold")]),
   ("nbformat", Json.int 4),
   ("nbformat_minor", Json.int 2),
   ("metadata", Json.obj [("language_info", Json.obj [("name", Json.str "python")])]),
   ("cells", Json.arr [srcCellDoc c1cell])]

/-- The top level of the concrete counterexample document, including an
unrecognized field. -/
def c1kvs : List (String × Json) :=
  [("name", Json.str "nb"), ("custom", Json.int 1), ("properties", Json.obj c1props)]

/-- A file system holding only the counterexample document. -/
def c1fs : FS := [("/w/nb.json", FileVal.jsonDoc (Json.obj c1kvs))]

/-- The reader-visible cell attributes before and after one pull/push cycle
on the counterexample document. -/
def c1cycleAttrs : Option (List Json × List Json) :=
  match pull_notebook "/w" c1fs "nb.txt" "nb.json" with
  | .error _ => none
  | .ok fs1 =>
    match push_notebook "/w" fs1 "nb.txt" "nb.json" with
    | .error _ => none
    | .ok fs2 =>
      match fsGet fs2 (to_abs_path "/w" "nb.json") with
      | some (.jsonDoc d2) =>
        match SynapseNotebookFormat.read_file (Json.obj c1kvs),
              SynapseNotebookFormat.read_file d2 with
        | .ok nb0, .ok nb2 =>
          some (nb0.cells.map (fun c => c.attributes),
                nb2.cells.map (fun c => c.attributes))
        | _, _ => none
      | _ => none

/-- Claim C1 counterexample.  The claim predicts that the cycle reproduces
every cell's tags exactly; on the concrete document the cell is read with
tags `["t1"]` before the cycle and with no tags afterwards. -/
theorem claim_C1_counterexample :
    c1cycleAttrs = some ([Json.arr [Json.str "t1"]], [Json.arr []]) ∧
    ([Json.arr [Json.str "t1"]] : List Json) ≠ [Json.arr []] := by
  constructor
  · have h0 := read_file_doc c1kvs c1props (Json.str "nb") [c1cell]
      (by decide) (by decide) (by decide)
    rw [recognized_props_eval c1props [("name", Json.str "fold")]
      [("language_info", Json.obj [("name", Json.str "python")])]
      [("name", Json.str "python")]
      (Json.str "fold") (Json.int 4) (Json.int 2) (Json.str "python")
      (by decide) (by decide) (by decide) (by decide) (by decide) (by decide) (by decide)
      (by decide) (by decide) (by decide) (by decide)] at h0
    have hw := write_file_pulled (Json.str "nb") (Json.str "fold") (Json.int 4) (Json.int 2)
      (Json.str "python") [c1cell] (by decide)
    have hs := read_file_pulled (Json.str "nb") (Json.str "fold") (Json.int 4) (Json.int 2)
      (Json.str "python") [c1cell]
      (by decide) (by decide) (by decide) (by decide) (by decide) (by decide) (by decide)
    have hsyn := synapse_write_cycled c1kvs c1props [("name", Json.str "fold")]
      [("language_info", Json.obj [("name", Json.str "python")])]
      [("name", Json.str "python")]
      (Json.str "nb") (Json.str "fold") (Json.int 4) (Json.int 2) (Json.str "python")
      [c1cell]
      (by decide) (by decide) (by decide) (by decide) (by decide) (by decide) (by decide)
      (by decide) (by decide) (by decide)
    have hre := read_file_pushedDoc c1kvs c1props [("name", Json.str "fold")]
      [("language_info", Json.obj [("name", Json.str "python")])]
      [("name", Json.str "python")]
      (Json.str "nb") (Json.str "fold") (Json.int 4) (Json.int 2) (Json.str "python")
      [c1cell]
      (by decide) (by decide) (by decide) (by decide) (by decide) (by decide) (by decide)
      (by decide) (by decide) (by decide) (by decide) (by decide) (by decide)
    have hpull : pull_notebook "/w" c1fs "nb.txt" "nb.json" =
        .ok (fsSet c1fs (to_abs_path "/w" "nb.txt")
          (.text (pulledText (Json.str "nb") (Json.str "fold") (Json.int 4) (Json.int 2)
            (Json.str "python") [c1cell]))) := by
      simp only [pull_notebook,
        show fsGet c1fs (to_abs_path "/w" "nb.json") =
          some (.jsonDoc (Json.obj c1kvs)) from by decide,
        h0, hw]
    have hpush : push_notebook "/w"
        (fsSet c1fs (to_abs_path "/w" "nb.txt")
          (.text (pulledText (Json.str "nb") (Json.str "fold") (Json.int 4) (Json.int 2)
            (Json.str "python") [c1cell]))) "nb.txt" "nb.json" =
        .ok (fsSet (fsSet c1fs (to_abs_path "/w" "nb.txt")
            (.text (pulledText (Json.str "nb") (Json.str "fold") (Json.int 4) (Json.int 2)
              (Json.str "python") [c1cell])))
          (to_abs_path "/w" "nb.json") (.jsonDoc (pushedDoc c1kvs c1props [c1cell]))) := by
      simp only [push_notebook, fsGet_fsSet_same, hs,
        fsGet_fsSet_other c1fs (to_abs_path "/w" "nb.txt") (to_abs_path "/w" "nb.json")
          (FileVal.text (pulledText (Json.str "nb") (Json.str "fold") (Json.int 4)
            (Json.int 2) (Json.str "python") [c1cell])) (by decide),
        show fsGet c1fs (to_abs_path "/w" "nb.json") =
          some (.jsonDoc (Json.obj c1kvs)) from by decide,
        hsyn]
    unfold c1cycleAttrs
    simp only [hpull, hpush, fsGet_fsSet_same, h0, hre]
    decide
  · decide

/-- Witness for the amended claim C1 at the concrete document. -/
theorem claim_C1_amended_roundtrip_witness :
    pull_notebook "/w" c1fs "nb.txt" "nb.json" =
      .ok (fsSet c1fs (to_abs_path "/w" "nb.txt")
        (.text (pulledText (Json.str "nb") (Json.str "fold") (Json.int 4) (Json.int 2)
          (Json.str "python") [c1cell]))) ∧
    push_notebook "/w"
        (fsSet c1fs (to_abs_path "/w" "nb.txt")
          (.text (pulledText (Json.str "nb") (Json.str "fold") (Json.int 4) (Json.int 2)
            (Json.str "python") [c1cell])))
        "nb.txt" "nb.json" =
      .ok (fsSet (fsSet c1fs (to_abs_path "/w" "nb.txt")
          (.text (pulledText (Json.str "nb") (Json.str "fold") (Json.int 4) (Json.int 2)
            (Json.str "python") [c1cell])))
        (to_abs_path "/w" "nb.json") (.jsonDoc (pushedDoc c1kvs c1props [c1cell]))) := by
  have happ := claim_C1_amended_roundtrip "/w" "nb.txt" "nb.json" c1fs
    c1kvs c1props [("name", Json.str "fold")]
    [("language_info", Json.obj [("name", Json.str "python")])]
    [("name", Json.str "python")]
    (Json.str "nb") (Json.str "fold") (Json.int 4) (Json.int 2) (Json.str "python")
    [c1cell]
    (by decide) (by decide) (by decide) (by decide) (by decide) (by decide) (by decide)
    (by decide) (by decide) (by decide) (by decide) (by decide) (by decide) (by decide)
    (by decide) (by decide) (by decide) (by decide) (by decide)
  exact ⟨happ.1, happ.2.1⟩
